import Mathlib

/-!
# toywos: Walk-on-Spheres Poisson estimator (`src/main.cpp`)

Shallow embedding of the numeric core of `src/main.cpp`, in two number
models.

Exact model.  A C++ `float` that holds a finite value is a number of an
ordered field `F`, and arithmetic on finite values is exact: rounding is left
out.  The theorems take `F = ℝ` and read `std::sqrt`, `log`, `cos`, `sin` as
the real functions; the definitions take these functions as arguments, so they
stay executable over any ordered field.  The constants are the program's:
`eps` is the `float` nearest `0.01`, `M_PI` the `double` nearest the literal
of the macro, `FLT_MAX` the largest finite `float`.  Overflow and underflow
are not part of this model; a theorem that needs their absence says so in its
hypotheses, as bounds on its inputs (`bounded`, `regular`, the rectangle of
`main`), and states the bound that results.

Non-finite values.  IEEE arithmetic is total: a division by zero or a
logarithm of a non-positive number yields `NaN` or an infinity instead of
trapping.  In the exact model a `float` that may be non-finite is an
`Option F`, `none` standing for "NaN or ±inf"; every arithmetic operation
hands a non-finite operand on to a non-finite result.  The two places where
the program compares a possibly non-finite value (`clamp` inside
`distanceToLine` and `std::min` inside `maxBallRadius`) are commented where
they occur.

IEEE model.  `Single` is IEEE 754 binary32 bit for bit: finite values with
their sign, the two infinities and `NaN`, every operation rounded to nearest,
ties to even, with overflow to an infinity and gradual underflow.
`Single.distanceToLine`, `Single.maxBallRadius` and the quotient of `Single.G`
are the program's `float` expressions, operation by operation; they are
evaluated where rounding, underflow, overflow or a `NaN` decides what the
program does.  `clamp`, `std::min` and `std::max` are one definition for both
models and for `int`.

Randomness.  `rand : ℕ → ℕ` is the sequence of values that the calls of
`rand()` return, in the order of the calls; `RAND_MAX` is a parameter.

Integers and the image.  An `int` is an integer of `ℤ`; the conversion of a
`float` to `int` truncates inside the range of `int` and gives `INT_MIN`
outside of it (the `cvttss2si` instruction of x86-64; the C++ standard leaves
the conversion undefined there).  The image buffer is a list of bytes, and a
read outside it has no value (`none`).
-/

namespace Toywos

/-! ## Vectors (`main.cpp` 16-40) -/

/-- `struct Vec2f { float v[2]; }`: the two components `v[0]`, `v[1]`. -/
structure Vec2f (F : Type) where
  v0 : F
  v1 : F
deriving DecidableEq, Repr

variable {F : Type} [LinearOrderedField F]

/-- `Vec2f operator+(u, v)`: `r[i] = u[i] + v[i]`. -/
def Vec2f.add (u v : Vec2f F) : Vec2f F := ⟨u.v0 + v.v0, u.v1 + v.v1⟩

/-- `Vec2f operator-(u, v)`: `r[i] = u[i] - v[i]`. -/
def Vec2f.sub (u v : Vec2f F) : Vec2f F := ⟨u.v0 - v.v0, u.v1 - v.v1⟩

/-- `Vec2f operator*(float s, u)`: `r[i] = s * u[i]`. -/
def Vec2f.scale (s : F) (u : Vec2f F) : Vec2f F := ⟨s * u.v0, s * u.v1⟩

instance : Add (Vec2f F) := ⟨Vec2f.add⟩
instance : Sub (Vec2f F) := ⟨Vec2f.sub⟩
instance : HMul F (Vec2f F) (Vec2f F) := ⟨Vec2f.scale⟩

/-- `dot(u, v) = u[0]*v[0] + u[1]*v[1]`. -/
def dot (u v : Vec2f F) : F := u.v0 * v.v0 + u.v1 * v.v1

/-- `norm(u) = std::sqrt(dot(u, u))`; the argument of the root is never
negative. -/
def norm (sqrt : F → F) (u : Vec2f F) : F := sqrt (dot u u)

/-- `std::max(a, b)` of `<algorithm>`: `(a < b) ? b : a`, for any type with a
comparison `<`.  When the comparison is false (as every comparison with a `NaN`
is) the first argument is returned. -/
def stdmax {T : Type} [LT T] [DecidableRel (fun a b : T => a < b)] (a b : T) : T :=
  if a < b then b else a

/-- `std::min(a, b)` of `<algorithm>`: `(b < a) ? b : a`. -/
def stdmin {T : Type} [LT T] [DecidableRel (fun a b : T => a < b)] (a b : T) : T :=
  if b < a then b else a

/-- `clamp(x, xmin, xmax) = std::min(std::max(x, xmin), xmax)`: a template, which
the program instantiates at `int` (`main.cpp` 123-127, 137) and at `float`
(`main.cpp` 64, 157). -/
def clamp {T : Type} [LT T] [DecidableRel (fun a b : T => a < b)] (x xmin xmax : T) : T :=
  stdmin (stdmax x xmin) xmax

/-- IEEE division of two finite values: finite when the divisor is not zero,
otherwise non-finite (`0/0 = NaN`, `x/0 = ±inf`). -/
def fdiv (x y : F) : Option F := if y = 0 then none else some (x / y)

/-! ## Segments and distances (`main.cpp` 53-73) -/

/-- `struct Seg { Vec2f a, b; }`. -/
structure Seg (F : Type) where
  a : Vec2f F
  b : Vec2f F
deriving DecidableEq, Repr

/-- `distanceToLine(p, a, b)`:
`pa = p - a; ba = b - a; h = clamp(dot(pa,ba)/dot(ba,ba), 0, 1); return norm(pa - h*ba)`.

The quotient is non-finite only when `dot(ba,ba) = 0`, that is `ba = (0,0)`,
and then `dot(pa,ba) = 0` too: it is `0/0 = NaN`.  `std::max(NaN, 0)` is
`(NaN < 0) ? 0 : NaN = NaN` and `std::min(NaN, 1)` is `(1 < NaN) ? 1 : NaN = NaN`,
so `h = NaN`, and `h*ba`, `pa - h*ba` and the norm are `NaN`: the result is
`none`. -/
def distanceToLine (sqrt : F → F) (p a b : Vec2f F) : Option F :=
  let pa := p - a
  let ba := b - a
  match fdiv (dot pa ba) (dot ba ba) with
  | none => none
  | some q =>
    let h := clamp q 0 1
    some (norm sqrt (pa - h * ba))

/-- `FLT_MAX` of `<cfloat>`: the largest finite IEEE single,
`(2^24 - 1) * 2^104`. -/
def FLT_MAX : F := 340282346638528859811704183484516925440

/-- `std::min(r, d)` as `maxBallRadius` calls it, `r` finite:
`(d < r) ? d : r`.  A comparison with `NaN` is false, so a `NaN` distance
leaves `r` as it is. -/
def stdMin (r : F) (d : Option F) : F :=
  match d with
  | none => r
  | some d => if d < r then d else r

/-- `maxBallRadius(x, segs)`:
`r = FLT_MAX; for (i < segs.size()) r = std::min(r, distanceToLine(x, segs[i].a, segs[i].b)); return r`. -/
def maxBallRadius (sqrt : F → F) (x : Vec2f F) (segs : List (Seg F)) : F :=
  segs.foldl (fun r s => stdMin r (distanceToLine sqrt x s.a s.b)) FLT_MAX

/-! ## Harmonic kernel (`main.cpp` 12, 75-78) -/

/-- `#define M_PI 3.14159265358979323846264338327950288`: a literal of type
`double`, whose value is the IEEE double nearest to it,
`884279719003555 / 2^48 = 3.141592653589793115997963...`. -/
def M_PI : F := 884279719003555 / 281474976710656

/-- IEEE `log` of a finite value: finite on positive arguments, otherwise
non-finite (`log(0) = -inf`, `log(x) = NaN` for `x < 0`). -/
def flog (log : F → F) (q : F) : Option F := if 0 < q then some (log q) else none

/-- `G(R, r) = (1.0f/(2.0f*M_PI)) * log(R/r)`.  A non-finite quotient
(`r = 0`) has a non-finite logarithm. -/
def G (log : F → F) (R r : F) : Option F :=
  match fdiv R r with
  | none => none
  | some q =>
    match flog log q with
    | none => none
    | some l => some ((1 / (2 * M_PI)) * l)

/-! ## Estimator (`main.cpp` 48-51, 80-110) -/

/-- `random(rmin, rmax) = rmin + (rmax-rmin)*(float(rand())/float(RAND_MAX))`,
`k` being the value `rand()` returned; `RAND_MAX` of `<cstdlib>` is a
parameter (at least 32767 in every C library). -/
def random (RAND_MAX : ℕ) (rmin rmax : F) (k : ℕ) : F :=
  rmin + (rmax - rmin) * ((k : F) / (RAND_MAX : F))

/-- `const float eps = 0.01`: the `double` literal `0.01` converted to `float`,
that is the IEEE single nearest to it, `5368709 / 2^29 = 0.00999999977648...`
(written `0.01f` below); it is less than `1/100`. -/
def eps : F := 5368709 / 536870912

/-- `const int numWalks = 128`. -/
def numWalks : ℕ := 128

/-- `const int maxSteps = 16`. -/
def maxSteps : ℕ := 16

/-- The variables that `solvePoisson` updates: the walk position `x`, the
accumulator `sum` (possibly non-finite) and the number of `rand()` calls made
so far. -/
structure WalkState (F : Type) where
  x : Vec2f F
  sum : Option F
  calls : ℕ

/-- `sum += t` for a finite or non-finite term `t`. -/
def accumulate (sum t : Option F) : Option F :=
  match sum, t with
  | some a, some b => some (a + b)
  | _, _ => none

/-- The functions of `<cmath>` that `solvePoisson` calls. -/
structure CMath (F : Type) where
  sqrt : F → F
  log : F → F
  cos : F → F
  sin : F → F

/-- The inner loop `for (j = 0; j < maxSteps; j++) { ... }` of `solvePoisson`
with `k` iterations left; `rand i` is the value returned by the `i`-th call
of `rand()`.

    float R = maxBallRadius(x,segs);
    if (R<eps) { break; }
    float r = R*sqrt(random(0.0f,1.0f));
    float alpha = random(0.0f,2.0f*M_PI);
    Vec2f y = x + r*Vec2f(cos(alpha),sin(alpha));
    sum += (M_PI*R*R)*f(y)*G(R,r);
    float theta = random(0.0f,2.0f*M_PI);
    x = x + R*Vec2f(cos(theta),sin(theta));
-/
def walkLoop (m : CMath F) (RAND_MAX : ℕ) (rand : ℕ → ℕ) (segs : List (Seg F))
    (f : Vec2f F → F) : ℕ → WalkState F → WalkState F
  | 0, s => s
  | k + 1, s =>
    let R := maxBallRadius m.sqrt s.x segs
    if R < eps then s
    else
      let r := R * m.sqrt (random RAND_MAX 0 1 (rand s.calls))
      let alpha := random RAND_MAX 0 (2 * M_PI) (rand (s.calls + 1))
      let y := s.x + r * (⟨m.cos alpha, m.sin alpha⟩ : Vec2f F)
      let sum := accumulate s.sum ((G m.log R r).map fun k => (M_PI * R * R) * f y * k)
      let theta := random RAND_MAX 0 (2 * M_PI) (rand (s.calls + 2))
      walkLoop m RAND_MAX rand segs f k
        ⟨s.x + R * (⟨m.cos theta, m.sin theta⟩ : Vec2f F), sum, s.calls + 3⟩

/-- The outer loop `for (i = 0; i < numWalks; i++) { x = x0; <inner loop>; sum += g(x); }`
with `n` walks left; the state between two walks is the accumulator and the
number of `rand()` calls. -/
def walksLoop (m : CMath F) (RAND_MAX : ℕ) (rand : ℕ → ℕ) (x0 : Vec2f F)
    (segs : List (Seg F)) (f g : Vec2f F → F) : ℕ → Option F × ℕ → Option F × ℕ
  | 0, st => st
  | n + 1, (sum, calls) =>
    let s := walkLoop m RAND_MAX rand segs f maxSteps ⟨x0, sum, calls⟩
    walksLoop m RAND_MAX rand x0 segs f g n (accumulate s.sum (some (g s.x)), s.calls)

/-- `solvePoisson(x0, segs, f, g)`: `sum = 0; <outer loop>; return sum/numWalks`. -/
def solvePoisson (m : CMath F) (RAND_MAX : ℕ) (rand : ℕ → ℕ) (x0 : Vec2f F)
    (segs : List (Seg F)) (f g : Vec2f F → F) : Option F :=
  (walksLoop m RAND_MAX rand x0 segs f g numWalks (some 0, 0)).1.map fun sum =>
    sum / (numWalks : F)

/-! ## Calls made by the estimator (`main.cpp` 80-110) -/

/-- Numbers of calls `solvePoisson` has made so far: of `maxBallRadius`, of
the source field `f` and of the boundary field `g`.  The calls of `rand()` are
counted by `WalkState.calls`. -/
structure Calls where
  radius : ℕ
  source : ℕ
  boundary : ℕ
deriving DecidableEq, Repr

/-- The inner loop of `solvePoisson` (`walkLoop`) with its calls counted: an
iteration calls `maxBallRadius` once and, when it does not `break`, `f`
once. -/
def walkLoopCalls (m : CMath F) (RAND_MAX : ℕ) (rand : ℕ → ℕ) (segs : List (Seg F))
    (f : Vec2f F → F) : ℕ → WalkState F → Calls → WalkState F × Calls
  | 0, s, c => (s, c)
  | k + 1, s, c =>
    let R := maxBallRadius m.sqrt s.x segs
    if R < eps then (s, ⟨c.radius + 1, c.source, c.boundary⟩)
    else
      let r := R * m.sqrt (random RAND_MAX 0 1 (rand s.calls))
      let alpha := random RAND_MAX 0 (2 * M_PI) (rand (s.calls + 1))
      let y := s.x + r * (⟨m.cos alpha, m.sin alpha⟩ : Vec2f F)
      let sum := accumulate s.sum ((G m.log R r).map fun k => (M_PI * R * R) * f y * k)
      let theta := random RAND_MAX 0 (2 * M_PI) (rand (s.calls + 2))
      walkLoopCalls m RAND_MAX rand segs f k
        ⟨s.x + R * (⟨m.cos theta, m.sin theta⟩ : Vec2f F), sum, s.calls + 3⟩
        ⟨c.radius + 1, c.source + 1, c.boundary⟩

/-- The outer loop of `solvePoisson` (`walksLoop`) with its calls counted:
a walk calls `g` once, after its inner loop. -/
def walksLoopCalls (m : CMath F) (RAND_MAX : ℕ) (rand : ℕ → ℕ) (x0 : Vec2f F)
    (segs : List (Seg F)) (f g : Vec2f F → F) :
    ℕ → Option F × ℕ → Calls → (Option F × ℕ) × Calls
  | 0, st, c => (st, c)
  | n + 1, (sum, calls), c =>
    let r := walkLoopCalls m RAND_MAX rand segs f maxSteps ⟨x0, sum, calls⟩ c
    walksLoopCalls m RAND_MAX rand x0 segs f g n
      (accumulate r.1.sum (some (g r.1.x)), r.1.calls)
      ⟨r.2.radius, r.2.source, r.2.boundary + 1⟩

/-- `solvePoisson` with its calls counted: the returned value, the number of
calls of `rand()` and the numbers of the other calls. -/
def solvePoissonCalls (m : CMath F) (RAND_MAX : ℕ) (rand : ℕ → ℕ) (x0 : Vec2f F)
    (segs : List (Seg F)) (f g : Vec2f F → F) : Option F × ℕ × Calls :=
  let r := walksLoopCalls m RAND_MAX rand x0 segs f g numWalks (some 0, 0) ⟨0, 0, 0⟩
  (r.1.1.map fun sum => sum / (numWalks : F), r.1.2, r.2)

/-! ## Samples taken by the estimator (`main.cpp` 94-102) -/

/-- What an executed step of the inner loop computes before it moves on: the
position `x`, the radius `R`, the draw `u1 = random(0.0f,1.0f)`, the sampled
radius `r` and the sample point `y`. -/
structure Sample (F : Type) where
  x : Vec2f F
  R : F
  u1 : F
  r : F
  y : Vec2f F

/-- The inner loop of `solvePoisson` (`walkLoop`) with the samples of its
executed steps recorded, in the order of the steps. -/
def walkLoopSamples (m : CMath F) (RAND_MAX : ℕ) (rand : ℕ → ℕ) (segs : List (Seg F))
    (f : Vec2f F → F) : ℕ → WalkState F → List (Sample F) → WalkState F × List (Sample F)
  | 0, s, l => (s, l)
  | k + 1, s, l =>
    let R := maxBallRadius m.sqrt s.x segs
    if R < eps then (s, l)
    else
      let r := R * m.sqrt (random RAND_MAX 0 1 (rand s.calls))
      let alpha := random RAND_MAX 0 (2 * M_PI) (rand (s.calls + 1))
      let y := s.x + r * (⟨m.cos alpha, m.sin alpha⟩ : Vec2f F)
      let sum := accumulate s.sum ((G m.log R r).map fun k => (M_PI * R * R) * f y * k)
      let theta := random RAND_MAX 0 (2 * M_PI) (rand (s.calls + 2))
      walkLoopSamples m RAND_MAX rand segs f k
        ⟨s.x + R * (⟨m.cos theta, m.sin theta⟩ : Vec2f F), sum, s.calls + 3⟩
        (l ++ [⟨s.x, R, random RAND_MAX 0 1 (rand s.calls), r, y⟩])

/-! ## Image fields and the boundary built in `main` (`main.cpp` 112-149) -/

/-- `INT_MAX` of `<climits>` for the 32-bit `int`. -/
def INT_MAX : ℤ := 2147483647

/-- `INT_MIN` of `<climits>` for the 32-bit `int`. -/
def INT_MIN : ℤ := -2147483648

/-- The conversion `int u = x[0]` of a `float` to `int`: the fractional part
is dropped.  For a value whose integer part does not fit an `int` the
conversion is undefined in C++; the result is then the `INT_MIN` that the
conversion instruction of x86-64 yields. -/
def toInt [FloorRing F] (x : F) : ℤ :=
  if -2147483649 < x ∧ x < 2147483648 then (if 0 ≤ x then ⌊x⌋ else ⌈x⌉) else INT_MIN

/-- The index `x + y*w` at which `image(x, y)` reads `imageData`. -/
def imageIndex (w x y : ℤ) : ℤ := x + y * w

/-- `image(x, y) = imageData[x + y*w]`, `imageData` the buffer of `w*h`
bytes.  A read outside the buffer has no defined value: `none`. -/
def image (w : ℤ) (imageData : List ℕ) (x y : ℤ) : Option F :=
  if imageIndex w x y < 0 then none
  else (imageData.get? (imageIndex w x y).toNat).map fun b => (b : F)

/-- The five pairs `(x, y)` that `f` passes to `image`, in the order of the
source, for `u = int(x[0])`, `v = int(x[1])`:

    image(clamp(u-1,0,w-1),clamp(v  ,0,h-1))
    image(clamp(u+1,0,w-1),clamp(v  ,0,h-1))
    image(clamp(u  ,0,w-1),clamp(v-1,0,h-1))
    image(clamp(u  ,0,w-1),clamp(v+1,0,h-1))
    image(clamp(u  ,0,w-1),clamp(v  ,0,w-1))
-/
def fLookups (w h u v : ℤ) : List (ℤ × ℤ) :=
  [(clamp (u - 1) 0 (w - 1), clamp v 0 (h - 1)),
   (clamp (u + 1) 0 (w - 1), clamp v 0 (h - 1)),
   (clamp u 0 (w - 1), clamp (v - 1) 0 (h - 1)),
   (clamp u 0 (w - 1), clamp (v + 1) 0 (h - 1)),
   (clamp u 0 (w - 1), clamp v 0 (w - 1))]

/-- `f(x)`: `u = x[0]; v = x[1];` and the sum
`-1.0f*image(..) -1.0f*image(..) -1.0f*image(..) -1.0f*image(..) +4.0f*image(..)`
over the five lookups of `fLookups`. -/
def f [FloorRing F] (w h : ℤ) (imageData : List ℕ) (x : Vec2f F) : Option F :=
  match (fLookups w h (toInt x.v0) (toInt x.v1)).map fun p =>
      (image w imageData p.1 p.2 : Option F) with
  | [some a, some b, some c, some d, some e] => some (-1 * a - 1 * b - 1 * c - 1 * d + 4 * e)
  | _ => none

/-- The pair `(x, y)` that `g` passes to `image`:
`image(clamp(u,0,w-1),clamp(v,0,h-1))`. -/
def gLookup (w h u v : ℤ) : ℤ × ℤ := (clamp u 0 (w - 1), clamp v 0 (h - 1))

/-- `g(x)`: `u = x[0]; v = x[1]; return image(clamp(u,0,w-1),clamp(v,0,h-1))`. -/
def g [FloorRing F] (w h : ℤ) (imageData : List ℕ) (x : Vec2f F) : Option F :=
  image w imageData (gLookup w h (toInt x.v0) (toInt x.v1)).1
    (gLookup w h (toInt x.v0) (toInt x.v1)).2

/-- The segment list `segs` that `main` builds from the image size `w`, `h`
(of type `int`): `(0,0)-(0,h)`, `(w,0)-(w,h)`, `(0,0)-(w,0)`, `(0,h)-(w,h)`. -/
def mainSegs (w h : ℤ) : List (Seg F) :=
  [⟨⟨0, 0⟩, ⟨0, (h : F)⟩⟩, ⟨⟨(w : F), 0⟩, ⟨(w : F), (h : F)⟩⟩,
   ⟨⟨0, 0⟩, ⟨(w : F), 0⟩⟩, ⟨⟨0, (h : F)⟩, ⟨(w : F), (h : F)⟩⟩]

/-! ## IEEE single precision

The definitions above compute with exact numbers.  The ones of this section
compute with the values of the type `float` themselves (IEEE 754 binary32,
rounding to nearest with ties to even, as on x86-64 with SSE arithmetic), so
that underflow, overflow and `NaN` can be traced on concrete inputs. -/

/-- A value of the type `float`.  `fin neg m e` is the finite number
`(-1)^neg * m * 2^(e - 149)`, stored with `m < 2^24`, `e ≤ 253`, and with
`2^23 ≤ m` when `0 < e` (`e + 1` is the biased exponent of a normal number,
`e = 0` holds the subnormal numbers and the first binade); both zeros
`fin false 0 0` and `fin true 0 0` exist.  `inf neg` is `+inf` or `-inf`. -/
inductive Single where
  | fin (neg : Bool) (m : ℕ) (e : ℕ)
  | inf (neg : Bool)
  | nan
deriving DecidableEq, Repr

namespace Single

/-- The power `2^k`. -/
def pow2 : ℕ → ℕ
  | 0 => 1
  | k + 1 => 2 * pow2 k

/-- Number of binary digits of `n`, for `fuel ≥ n`. -/
def bitLen : ℕ → ℕ → ℕ
  | 0, _ => 0
  | fuel + 1, n => if n = 0 then 0 else bitLen fuel (n / 2) + 1

/-- Nearest integer to `n / d`, a tie going to the even one. -/
def roundDiv (n d : ℕ) : ℕ :=
  if 2 * (n % d) < d then n / d
  else if d < 2 * (n % d) then n / d + 1
  else if (n / d) % 2 = 0 then n / d else n / d + 1

/-- The `float` nearest to `(-1)^neg * (n / d) * 2^(-149)`, ties to even:
`e` is the number of binary digits of the quotient beyond 24, the significand
is the quotient rounded at that digit, a significand that rounds up to `2^24`
moves to the next binade, and a result beyond the largest finite `float` is an
infinity. -/
def round (neg : Bool) (n d : ℕ) : Single :=
  let e := bitLen (n / d) (n / d) - 24
  let m := roundDiv n (d * pow2 e)
  if m = pow2 24 then (if 253 ≤ e then inf neg else fin neg (pow2 23) (e + 1))
  else if 253 < e then inf neg else fin neg m e

/-- Adds to `r`, from the digit `k - 1` down, every power of two that keeps
`r * r ≤ n`. -/
def isqrtAux (n : ℕ) : ℕ → ℕ → ℕ
  | 0, r => r
  | k + 1, r =>
    if (r + pow2 k) * (r + pow2 k) ≤ n then isqrtAux n k (r + pow2 k) else isqrtAux n k r

/-- Integer part of the square root of `n`. -/
def isqrt (n : ℕ) : ℕ := isqrtAux n (bitLen n n) 0

/-- Unary minus. -/
def neg : Single → Single
  | fin s m e => fin (!s) m e
  | inf s => inf (!s)
  | nan => nan

/-- The sum `x + y` of two `float`s. -/
def add : Single → Single → Single
  | fin s1 m1 e1, fin s2 m2 e2 =>
    if s1 = s2 then round s1 (m1 * pow2 e1 + m2 * pow2 e2) 1
    else if m1 * pow2 e1 = m2 * pow2 e2 then fin false 0 0
    else if m2 * pow2 e2 < m1 * pow2 e1 then round s1 (m1 * pow2 e1 - m2 * pow2 e2) 1
    else round s2 (m2 * pow2 e2 - m1 * pow2 e1) 1
  | fin _ _ _, inf s => inf s
  | inf s, fin _ _ _ => inf s
  | inf s1, inf s2 => if s1 = s2 then inf s1 else nan
  | nan, _ => nan
  | _, nan => nan

/-- The product `x * y` of two `float`s. -/
def mul : Single → Single → Single
  | fin s1 m1 e1, fin s2 m2 e2 => round (xor s1 s2) (m1 * m2 * pow2 (e1 + e2)) (pow2 149)
  | fin s1 m1 _, inf s2 => if m1 = 0 then nan else inf (xor s1 s2)
  | inf s1, fin s2 m2 _ => if m2 = 0 then nan else inf (xor s1 s2)
  | inf s1, inf s2 => inf (xor s1 s2)
  | nan, _ => nan
  | _, nan => nan

/-- The quotient `x / y` of two `float`s: `0/0` is `NaN`, `x/0` an infinity. -/
def div : Single → Single → Single
  | fin s1 m1 e1, fin s2 m2 e2 =>
    if m2 = 0 then (if m1 = 0 then nan else inf (xor s1 s2))
    else round (xor s1 s2) (m1 * pow2 (e1 + 149)) (m2 * pow2 e2)
  | fin s1 _ _, inf s2 => fin (xor s1 s2) 0 0
  | inf s1, fin s2 _ _ => inf (xor s1 s2)
  | inf _, inf _ => nan
  | nan, _ => nan
  | _, nan => nan

/-- The square root `std::sqrt(x)` of a `float`, correctly rounded: when the
integer root `r` of `n = m * 2^(e + 149)` is not exact the root lies strictly
between `r` and `r + 1`, and rounds as `r + 1/2` does. -/
def sqrt : Single → Single
  | fin s m e =>
    if m = 0 then fin s 0 0
    else if s then nan
    else if isqrt (m * pow2 (e + 149)) * isqrt (m * pow2 (e + 149)) = m * pow2 (e + 149) then
      round false (isqrt (m * pow2 (e + 149))) 1
    else round false (2 * isqrt (m * pow2 (e + 149)) + 1) 2
  | inf s => if s then nan else inf false
  | nan => nan

/-- The comparison `x < y` of two `float`s; it is false when either is `NaN`,
and the two zeros are equal. -/
def lt : Single → Single → Bool
  | fin s1 m1 e1, fin s2 m2 e2 =>
    match s1, s2 with
    | false, false => decide (m1 * pow2 e1 < m2 * pow2 e2)
    | true, true => decide (m2 * pow2 e2 < m1 * pow2 e1)
    | true, false => decide (0 < m1 * pow2 e1 + m2 * pow2 e2)
    | false, true => false
  | fin _ _ _, inf s => !s
  | inf s, fin _ _ _ => s
  | inf s1, inf s2 => s1 && !s2
  | nan, _ => false
  | _, nan => false

/-- The comparison `x <= y` of two `float`s; it is false when either is
`NaN`. -/
def le : Single → Single → Bool
  | nan, _ => false
  | fin _ _ _, nan => false
  | inf _, nan => false
  | fin s1 m1 e1, fin s2 m2 e2 => !(lt (fin s2 m2 e2) (fin s1 m1 e1))
  | fin s1 m1 e1, inf s2 => !(lt (inf s2) (fin s1 m1 e1))
  | inf s1, fin s2 m2 e2 => !(lt (fin s2 m2 e2) (inf s1))
  | inf s1, inf s2 => !(lt (inf s2) (inf s1))

instance : Add Single := ⟨add⟩
instance : Sub Single := ⟨fun x y => add x (neg y)⟩
instance : Mul Single := ⟨mul⟩
instance : Div Single := ⟨div⟩
instance : LT Single := ⟨fun x y => lt x y = true⟩
instance : DecidableRel (fun x y : Single => x < y) := fun x y => decEq (lt x y) true
instance : LE Single := ⟨fun x y => le x y = true⟩
instance : DecidableRel (fun x y : Single => x ≤ y) := fun x y => decEq (le x y) true

/-- Conversion of an `int` to `float`, as in `Vec2f(0,h)` or in a literal
such as `1.0f`. -/
def ofInt (z : ℤ) : Single := round (decide (z < 0)) (z.natAbs * pow2 149) 1

/-- The `float` nearest to `n * 2^k`. -/
def scaled (n : ℕ) (k : ℤ) : Single :=
  if 0 ≤ k + 149 then round false (n * pow2 (k + 149).toNat) 1
  else round false n (pow2 (-(k + 149)).toNat)

instance : Add (Vec2f Single) := ⟨fun u v => ⟨u.v0 + v.v0, u.v1 + v.v1⟩⟩
instance : Sub (Vec2f Single) := ⟨fun u v => ⟨u.v0 - v.v0, u.v1 - v.v1⟩⟩
instance : HMul Single (Vec2f Single) (Vec2f Single) := ⟨fun s u => ⟨s * u.v0, s * u.v1⟩⟩

/-- `dot(u, v) = u[0]*v[0] + u[1]*v[1]` in `float` arithmetic. -/
def dot (u v : Vec2f Single) : Single := u.v0 * v.v0 + u.v1 * v.v1

/-- `norm(u) = std::sqrt(dot(u, u))` in `float` arithmetic. -/
def norm (u : Vec2f Single) : Single := sqrt (dot u u)

/-- `distanceToLine(p, a, b)` in `float` arithmetic:
`pa = p - a; ba = b - a; h = clamp(dot(pa,ba)/dot(ba,ba), 0.0f, 1.0f); return norm(pa - h*ba)`. -/
def distanceToLine (p a b : Vec2f Single) : Single :=
  let pa := p - a
  let ba := b - a
  let h := clamp (dot pa ba / dot ba ba) (ofInt 0) (ofInt 1)
  norm (pa - h * ba)

/-- `FLT_MAX = (2^24 - 1) * 2^104` as a `float`. -/
def FLT_MAX : Single := fin false 16777215 253

/-- `maxBallRadius(x, segs)` in `float` arithmetic:
`r = FLT_MAX; for (i < segs.size()) r = std::min(r, distanceToLine(x, segs[i].a, segs[i].b)); return r`. -/
def maxBallRadius (x : Vec2f Single) (segs : List (Seg Single)) : Single :=
  segs.foldl (fun r s => stdmin r (distanceToLine x s.a s.b)) FLT_MAX

/-- `const float eps = 0.01` as a `float`: `0.01f = 5368709 * 2^(-29)`. -/
def eps : Single := scaled 5368709 (-29)

/-- The unit square `(0,0)-(0,1)`, `(1,0)-(1,1)`, `(0,0)-(1,0)`, `(0,1)-(1,1)`
with `float` coordinates. -/
def unitSquare : List (Seg Single) :=
  [⟨⟨ofInt 0, ofInt 0⟩, ⟨ofInt 0, ofInt 1⟩⟩, ⟨⟨ofInt 1, ofInt 0⟩, ⟨ofInt 1, ofInt 1⟩⟩,
   ⟨⟨ofInt 0, ofInt 0⟩, ⟨ofInt 1, ofInt 0⟩⟩, ⟨⟨ofInt 0, ofInt 1⟩, ⟨ofInt 1, ofInt 1⟩⟩]

/-- `G(R, r) = (1.0f/(2.0f*M_PI)) * log(R/r)` in `float` arithmetic: the
quotient `R/r` is a `float` division, `log` is the function of `<cmath>`, and
`scale` is the multiplication by the constant `1.0f/(2.0f*M_PI)`, done in
`double`, followed by the conversion of the product to `float`. -/
def G (log scale : Single → Single) (R r : Single) : Single := scale (log (R / r))

/-- The outer loop of `solvePoisson` in `float` arithmetic for a run in which
every walk stops at its first step and adds the boundary value `v = g(x0)`:
`for (i < n) sum += v`. -/
def sumCopies (v : Single) : ℕ → Single → Single
  | 0, sum => sum
  | n + 1, sum => sumCopies v n (sum + v)

/-- The value `sum/numWalks` that `solvePoisson` returns in `float` arithmetic
when every walk stops at its first step: `sum = 0`, 128 times `sum += g(x0)`,
then the division by `float(128)`. -/
def boundaryMean (v : Single) : Single := sumCopies v 128 (ofInt 0) / ofInt 128

end Single

/-! ## Notions of the specification -/

/-- Euclidean distance between two points of the real plane (the
specification's notion, not taken from the program). -/
def euclid (sqrt : F → F) (p q : Vec2f F) : F :=
  sqrt ((p.v0 - q.v0) ^ 2 + (p.v1 - q.v1) ^ 2)

/-- Sum of a list of finite or non-finite terms. -/
def sumTerms : List (Option F) → Option F
  | [] => some 0
  | t :: ts => accumulate t (sumTerms ts)

/-- One step of a walk described from the claim's words, for a step at
position `x` whose first draw is the `i`-th call of `rand()`: the radius
`R = maxBallRadius(x, segs)`. -/
def stepR (m : CMath F) (segs : List (Seg F)) (x : Vec2f F) : F :=
  maxBallRadius m.sqrt x segs

/-- The sampled radius `r = R*sqrt(u1)`, `u1` the first draw of the step. -/
def stepr (m : CMath F) (RAND_MAX : ℕ) (rand : ℕ → ℕ) (segs : List (Seg F))
    (x : Vec2f F) (i : ℕ) : F :=
  stepR m segs x * m.sqrt (random RAND_MAX 0 1 (rand i))

/-- The sample point `y = x + r*(cos alpha, sin alpha)`, `alpha` the second
draw of the step. -/
def stepY (m : CMath F) (RAND_MAX : ℕ) (rand : ℕ → ℕ) (segs : List (Seg F))
    (x : Vec2f F) (i : ℕ) : Vec2f F :=
  x + stepr m RAND_MAX rand segs x i *
    (⟨m.cos (random RAND_MAX 0 (2 * M_PI) (rand (i + 1))),
      m.sin (random RAND_MAX 0 (2 * M_PI) (rand (i + 1)))⟩ : Vec2f F)

/-- The next position `x + R*(cos theta, sin theta)`, `theta` the third draw
of the step. -/
def stepNext (m : CMath F) (RAND_MAX : ℕ) (rand : ℕ → ℕ) (segs : List (Seg F))
    (x : Vec2f F) (i : ℕ) : Vec2f F :=
  x + stepR m segs x *
    (⟨m.cos (random RAND_MAX 0 (2 * M_PI) (rand (i + 2))),
      m.sin (random RAND_MAX 0 (2 * M_PI) (rand (i + 2)))⟩ : Vec2f F)

/-- The term `(pi*R^2) * f(y) * G(R, r)` of a step. -/
def stepTerm (m : CMath F) (RAND_MAX : ℕ) (rand : ℕ → ℕ) (segs : List (Seg F))
    (f : Vec2f F → F) (x : Vec2f F) (i : ℕ) : Option F :=
  (G m.log (stepR m segs x) (stepr m RAND_MAX rand segs x i)).map fun k =>
    (M_PI * stepR m segs x ^ 2) * f (stepY m RAND_MAX rand segs x i) * k

/-- Position of a walk before its step `j` (steps counted from 0), for a walk
that starts at `x0` and whose first draw is the `n`-th call of `rand()`; a
step takes three draws. -/
def walkPos (m : CMath F) (RAND_MAX : ℕ) (rand : ℕ → ℕ) (segs : List (Seg F))
    (x0 : Vec2f F) (n : ℕ) : ℕ → Vec2f F
  | 0 => x0
  | j + 1 => stepNext m RAND_MAX rand segs (walkPos m RAND_MAX rand segs x0 n j) (n + 3 * j)

/-- Number of steps a walk executes when at most `k` are allowed: the first
`j < k` with `R < eps` at the position before step `j`, and `k` when there is
none. -/
def walkLen (m : CMath F) (RAND_MAX : ℕ) (rand : ℕ → ℕ) (segs : List (Seg F))
    (k : ℕ) (x0 : Vec2f F) (n : ℕ) : ℕ :=
  ((List.range k).find? fun j =>
    decide (stepR m segs (walkPos m RAND_MAX rand segs x0 n j) < eps)).getD k

/-- What one walk adds to the sum: the terms of its executed steps and then
`g` at its final position. -/
def walkValue (m : CMath F) (RAND_MAX : ℕ) (rand : ℕ → ℕ) (segs : List (Seg F))
    (f g : Vec2f F → F) (x0 : Vec2f F) (n : ℕ) : Option F :=
  accumulate
    (sumTerms ((List.range (walkLen m RAND_MAX rand segs maxSteps x0 n)).map fun j =>
      stepTerm m RAND_MAX rand segs f (walkPos m RAND_MAX rand segs x0 n j) (n + 3 * j)))
    (some (g (walkPos m RAND_MAX rand segs x0 n (walkLen m RAND_MAX rand segs maxSteps x0 n))))

/-- Index of the first draw of walk `i` when the first walk starts at draw
`c`: every executed step of the walks before it took three draws. -/
def walkStart (m : CMath F) (RAND_MAX : ℕ) (rand : ℕ → ℕ) (segs : List (Seg F))
    (x0 : Vec2f F) (c : ℕ) : ℕ → ℕ
  | 0 => c
  | i + 1 => walkStart m RAND_MAX rand segs x0 c i +
      3 * walkLen m RAND_MAX rand segs maxSteps x0 (walkStart m RAND_MAX rand segs x0 c i)

/-- The estimate as the claim words it: `1/128` times the sum over the 128
walks of each walk's value. -/
def walkAverage (m : CMath F) (RAND_MAX : ℕ) (rand : ℕ → ℕ) (x0 : Vec2f F)
    (segs : List (Seg F)) (f g : Vec2f F → F) : Option F :=
  (sumTerms ((List.range 128).map fun i =>
    walkValue m RAND_MAX rand segs f g x0 (walkStart m RAND_MAX rand segs x0 0 i))).map fun total =>
      (1 / 128) * total

/-- The unit square of the specification's end-to-end scenario:
`(0,0)-(0,1)`, `(1,0)-(1,1)`, `(0,0)-(1,0)`, `(0,1)-(1,1)`. -/
def unitSquare : List (Seg F) :=
  [⟨⟨0, 0⟩, ⟨0, 1⟩⟩, ⟨⟨1, 0⟩, ⟨1, 1⟩⟩, ⟨⟨0, 0⟩, ⟨1, 0⟩⟩, ⟨⟨0, 1⟩, ⟨1, 1⟩⟩]

/-- Edge-clamped pixel `I(i, j)` as the claim words it: the pixel at column
`clamp(i, 0, w-1)` and row `clamp(j, 0, h-1)` of the `w`-by-`h` image. -/
def pixel (w h : ℤ) (imageData : List ℕ) (i j : ℤ) : Option F :=
  image w imageData (clamp i 0 (w - 1)) (clamp j 0 (h - 1))

/-- The 5-point stencil `4*I(u,v) - I(u-1,v) - I(u+1,v) - I(u,v-1) - I(u,v+1)`
with edge-clamped addressing. -/
def stencil (w h : ℤ) (imageData : List ℕ) (u v : ℤ) : Option F :=
  match (pixel w h imageData u v : Option F), (pixel w h imageData (u - 1) v : Option F),
    (pixel w h imageData (u + 1) v : Option F), (pixel w h imageData u (v - 1) : Option F),
    (pixel w h imageData u (v + 1) : Option F) with
  | some c, some l, some r, some d, some t => some (4 * c - l - r - d - t)
  | _, _, _, _, _ => none

/-- The closed rectangle `[0,w] x [0,h]`. -/
def inRect (w h : F) (x : Vec2f F) : Prop := 0 ≤ x.v0 ∧ x.v0 ≤ w ∧ 0 ≤ x.v1 ∧ x.v1 ≤ h

instance (w h : F) (x : Vec2f F) : Decidable (inRect w h x) := by
  unfold inRect
  infer_instance

/-- A point whose two coordinates have a magnitude of at most `2^60`. -/
def bounded (u : Vec2f F) : Prop := |u.v0| ≤ 2 ^ 60 ∧ |u.v1| ≤ 2 ^ 60

instance (u : Vec2f F) : Decidable (bounded u) := by
  unfold bounded
  infer_instance

/-- A segment well inside the range of `float`: its end points are bounded
and its squared length `dot(b-a, b-a)` is at least `2^(-100)`.  For a bounded
point `p` every intermediate value of `distanceToLine(p, a, b)` then has a
magnitude of at most `2^125`, and the divisor `dot(b-a, b-a)` is a normal
number: the `float` computation neither overflows nor divides by an
underflowed zero, and differs from the exact one by rounding only. -/
def regular (a b : Vec2f F) : Prop :=
  bounded a ∧ bounded b ∧ 1 / 2 ^ 100 ≤ dot (b - a) (b - a)

instance (a b : Vec2f F) : Decidable (regular a b) := by
  unfold regular
  infer_instance

/-! ## Lemmas -/

/-- On a linearly ordered type (`int`, or `float` values without `NaN`)
`std::max`, `std::min` and `clamp` are the maximum, the minimum and
`min (max x xmin) xmax`. -/
theorem clamp_eq_min_max {T : Type} [LinearOrder T] (x xmin xmax : T) :
    clamp x xmin xmax = min (max x xmin) xmax := by
  have h1 : stdmax x xmin = max x xmin := by
    unfold stdmax
    split_ifs with h
    · exact (max_eq_right (le_of_lt h)).symm
    · exact (max_eq_left (not_lt.mp h)).symm
  have h2 : ∀ m : T, stdmin m xmax = min m xmax := by
    intro m
    unfold stdmin
    split_ifs with h
    · exact (min_eq_right (le_of_lt h)).symm
    · exact (min_eq_left (not_lt.mp h)).symm
  unfold clamp
  rw [h1, h2]

@[simp] theorem add_v0 (u v : Vec2f F) : (u + v).v0 = u.v0 + v.v0 := rfl
@[simp] theorem add_v1 (u v : Vec2f F) : (u + v).v1 = u.v1 + v.v1 := rfl
@[simp] theorem sub_v0 (u v : Vec2f F) : (u - v).v0 = u.v0 - v.v0 := rfl
@[simp] theorem sub_v1 (u v : Vec2f F) : (u - v).v1 = u.v1 - v.v1 := rfl
@[simp] theorem scale_v0 (s : F) (u : Vec2f F) : (s * u).v0 = s * u.v0 := rfl
@[simp] theorem scale_v1 (s : F) (u : Vec2f F) : (s * u).v1 = s * u.v1 := rfl

omit [LinearOrderedField F] in
theorem Vec2f.ext_iff2 (u v : Vec2f F) : u = v ↔ u.v0 = v.v0 ∧ u.v1 = v.v1 := by
  cases u; cases v; simp

theorem dot_self_eq_zero_iff (u : Vec2f ℝ) : dot u u = 0 ↔ u = ⟨0, 0⟩ := by
  cases u with
  | mk x y =>
    simp only [dot, Vec2f.mk.injEq]
    constructor
    · intro h
      constructor <;> nlinarith [mul_self_nonneg x, mul_self_nonneg y]
    · rintro ⟨rfl, rfl⟩
      ring

theorem sub_eq_zero_iff (a b : Vec2f ℝ) : b - a = ⟨0, 0⟩ ↔ a = b := by
  rw [Vec2f.ext_iff2, Vec2f.ext_iff2]
  simp only [sub_v0, sub_v1]
  constructor
  · rintro ⟨h0, h1⟩
    exact ⟨by linarith, by linarith⟩
  · rintro ⟨h0, h1⟩
    exact ⟨by linarith, by linarith⟩

theorem dot_ba_pos (a b : Vec2f ℝ) (hab : a ≠ b) : 0 < dot (b - a) (b - a) := by
  have h0 : dot (b - a) (b - a) ≠ 0 := by
    rw [Ne, dot_self_eq_zero_iff, sub_eq_zero_iff]
    exact hab
  have h1 : 0 ≤ dot (b - a) (b - a) := by
    simp only [dot]
    nlinarith [mul_self_nonneg (b - a).v0, mul_self_nonneg (b - a).v1]
  exact lt_of_le_of_ne h1 (Ne.symm h0)

theorem clamp_mem {x : ℝ} : 0 ≤ clamp x 0 1 ∧ clamp x 0 1 ≤ 1 := by
  simp only [clamp_eq_min_max]
  exact ⟨le_min (le_max_right _ _) zero_le_one, min_le_right _ _⟩

/-- For `a ≠ b` the program's value is the distance from `p` to the point
with the clamped parameter. -/
theorem distanceToLine_eq (p a b : Vec2f ℝ) (hab : a ≠ b) :
    distanceToLine Real.sqrt p a b =
      some (euclid Real.sqrt p
        (a + clamp (dot (p - a) (b - a) / dot (b - a) (b - a)) 0 1 * (b - a))) := by
  have hpos := dot_ba_pos a b hab
  simp only [distanceToLine, fdiv, if_neg (ne_of_gt hpos), norm, euclid]
  congr 2
  simp only [dot, sub_v0, sub_v1, scale_v0, scale_v1, add_v0, add_v1]
  ring

/-- The squared distance from `p` to `a + s*(b - a)` as a quadratic in `s`. -/
theorem sq_dist_segment (p a b : Vec2f ℝ) (s : ℝ) :
    (p.v0 - (a + s * (b - a)).v0) ^ 2 + (p.v1 - (a + s * (b - a)).v1) ^ 2 =
      dot (p - a) (p - a) - 2 * s * dot (p - a) (b - a) + s ^ 2 * dot (b - a) (b - a) := by
  simp only [dot, sub_v0, sub_v1, scale_v0, scale_v1, add_v0, add_v1]
  ring

/-- A quadratic `c - 2 s N + s^2 D` with `D > 0` is least on `[0,1]` at the
clamped vertex. -/
theorem quadratic_clamp_min (c N D s : ℝ) (hD : 0 < D) (hs0 : 0 ≤ s) (hs1 : s ≤ 1) :
    c - 2 * clamp (N / D) 0 1 * N + clamp (N / D) 0 1 ^ 2 * D ≤ c - 2 * s * N + s ^ 2 * D := by
  have hN : N = N / D * D := by field_simp
  generalize N / D = q at hN
  subst hN
  simp only [clamp_eq_min_max]
  rcases le_total q 0 with h0 | h0
  · rw [max_eq_right h0, min_eq_left zero_le_one]
    nlinarith [mul_nonneg hs0 (le_of_lt hD), mul_nonneg (mul_nonneg hs0 (le_of_lt hD)) hs0,
      mul_nonneg (mul_nonneg hs0 (le_of_lt hD)) (neg_nonneg.mpr h0)]
  · rw [max_eq_left h0]
    rcases le_total q 1 with h1 | h1
    · rw [min_eq_left h1]
      nlinarith [mul_nonneg (sq_nonneg (s - q)) (le_of_lt hD)]
    · rw [min_eq_right h1]
      have e1 : 0 ≤ (1 - s) * D := mul_nonneg (by linarith) (le_of_lt hD)
      nlinarith [mul_nonneg e1 (by linarith : (0:ℝ) ≤ 1 - s),
        mul_nonneg e1 (by linarith : (0:ℝ) ≤ q - 1)]

/-- For `a = b` the quotient is `0/0`: the distance is `NaN`. -/
theorem distanceToLine_self (p a : Vec2f ℝ) : distanceToLine Real.sqrt p a a = none := by
  have h : dot (a - a) (a - a) = 0 := by simp [dot]
  simp [distanceToLine, fdiv, h]

theorem distanceToLine_isSome_iff (p a b : Vec2f ℝ) :
    (∃ d, distanceToLine Real.sqrt p a b = some d) ↔ a ≠ b := by
  constructor
  · rintro ⟨d, hd⟩ rfl
    rw [distanceToLine_self] at hd
    exact Option.noConfusion hd
  · intro hab
    exact ⟨_, distanceToLine_eq p a b hab⟩

theorem stdMin_le_left (r : ℝ) (d : Option ℝ) : stdMin r d ≤ r := by
  cases d with
  | none => exact le_refl r
  | some d =>
    simp only [stdMin]
    split_ifs with h
    · exact le_of_lt h
    · exact le_refl r

theorem stdMin_le_some (r d : ℝ) : stdMin r (some d) ≤ d := by
  simp only [stdMin]
  split_ifs with h
  · exact le_refl d
  · exact not_lt.mp h

theorem stdMin_eq (r : ℝ) (d : Option ℝ) : stdMin r d = r ∨ d = some (stdMin r d) := by
  cases d with
  | none => exact Or.inl rfl
  | some d =>
    simp only [stdMin]
    split_ifs with h
    · exact Or.inr rfl
    · exact Or.inl rfl

/-- The loop of `maxBallRadius` from a running minimum `r0`: the result is at
most `r0`, at most every finite distance, and is `r0` or one of the
distances. -/
theorem foldl_stdMin (x : Vec2f ℝ) (segs : List (Seg ℝ)) (r0 : ℝ) :
    let R := segs.foldl (fun r s => stdMin r (distanceToLine Real.sqrt x s.a s.b)) r0
    R ≤ r0 ∧
    (∀ s ∈ segs, ∀ d, distanceToLine Real.sqrt x s.a s.b = some d → R ≤ d) ∧
    (R = r0 ∨ ∃ s ∈ segs, distanceToLine Real.sqrt x s.a s.b = some R) := by
  induction segs generalizing r0 with
  | nil => simp
  | cons s0 rest ih =>
    simp only [List.foldl_cons]
    obtain ⟨h1, h2, h3⟩ := ih (stdMin r0 (distanceToLine Real.sqrt x s0.a s0.b))
    refine ⟨le_trans h1 (stdMin_le_left _ _), ?_, ?_⟩
    · intro s hs d hd
      rcases List.mem_cons.mp hs with rfl | hs
      · have h5 := stdMin_le_some r0 d
        rw [← hd] at h5
        exact le_trans h1 h5
      · exact h2 s hs d hd
    · rcases h3 with h3 | ⟨s, hs, hd⟩
      · rcases stdMin_eq r0 (distanceToLine Real.sqrt x s0.a s0.b) with h4 | h4
        · exact Or.inl (h3.trans h4)
        · right
          refine ⟨s0, List.mem_cons_self _ _, ?_⟩
          rw [h3]
          exact h4
      · exact Or.inr ⟨s, List.mem_cons_of_mem _ hs, hd⟩

theorem FLT_MAX_pos : (0 : ℝ) < FLT_MAX := by
  simp only [FLT_MAX]
  norm_num

theorem M_PI_pos : (0 : ℝ) < M_PI := by
  simp only [M_PI]
  norm_num

/-- The constant `M_PI` of the program (a `double`) lies below pi, by less
than `1.3 * 10^(-16)`. -/
theorem M_PI_near_pi : |(M_PI : ℝ) - Real.pi| < 13 / 10 ^ 17 := by
  have h1 := Real.pi_gt_d20
  have h2 := Real.pi_lt_d20
  rw [abs_lt]
  simp only [M_PI]
  constructor <;> norm_num at h1 h2 ⊢ <;> linarith

/-- For `a ≠ b` the program's distance is a lower bound of the distances
from `p` to the points of the segment, and is the distance to one of them. -/
theorem distanceToLine_segment (p a b : Vec2f ℝ) (hab : a ≠ b) :
    ∃ d t : ℝ, distanceToLine Real.sqrt p a b = some d ∧ 0 ≤ t ∧ t ≤ 1 ∧
      d = euclid Real.sqrt p (a + t * (b - a)) ∧
      ∀ s : ℝ, 0 ≤ s → s ≤ 1 → d ≤ euclid Real.sqrt p (a + s * (b - a)) := by
  refine ⟨_, _, distanceToLine_eq p a b hab, clamp_mem.1, clamp_mem.2, rfl, ?_⟩
  intro s hs0 hs1
  simp only [euclid]
  apply Real.sqrt_le_sqrt
  rw [sq_dist_segment, sq_dist_segment]
  exact quadratic_clamp_min _ _ _ s (dot_ba_pos a b hab) hs0 hs1

/-! ### The loops of `solvePoisson` -/

theorem accumulate_zero (a : Option F) : accumulate a (some 0) = a := by
  cases a <;> simp [accumulate]

theorem accumulate_none (t : Option F) : accumulate none t = none := by
  cases t <;> rfl

theorem accumulate_assoc (a b c : Option F) :
    accumulate (accumulate a b) c = accumulate a (accumulate b c) := by
  cases a <;> cases b <;> cases c <;> simp [accumulate, add_assoc]

theorem walkPos_shift (m : CMath F) (RAND_MAX : ℕ) (rand : ℕ → ℕ) (segs : List (Seg F))
    (x0 : Vec2f F) (n j : ℕ) :
    walkPos m RAND_MAX rand segs x0 n (j + 1) =
      walkPos m RAND_MAX rand segs (stepNext m RAND_MAX rand segs x0 n) (n + 3) j := by
  induction j with
  | zero => simp [walkPos]
  | succ j ih =>
    rw [walkPos, ih]
    conv_rhs => rw [walkPos]
    congr 1
    ring

theorem walkLen_zero (m : CMath F) (RAND_MAX : ℕ) (rand : ℕ → ℕ) (segs : List (Seg F))
    (x0 : Vec2f F) (n : ℕ) : walkLen m RAND_MAX rand segs 0 x0 n = 0 := by
  simp [walkLen]

theorem walkLen_succ (m : CMath F) (RAND_MAX : ℕ) (rand : ℕ → ℕ) (segs : List (Seg F))
    (k : ℕ) (x0 : Vec2f F) (n : ℕ) :
    walkLen m RAND_MAX rand segs (k + 1) x0 n =
      if stepR m segs x0 < eps then 0
      else walkLen m RAND_MAX rand segs k (stepNext m RAND_MAX rand segs x0 n) (n + 3) + 1 := by
  simp only [walkLen, List.range_succ_eq_map, List.find?_cons, List.find?_map]
  by_cases h : stepR m segs x0 < eps
  · simp [walkPos, h]
  · have hfun : ((fun j => decide (stepR m segs (walkPos m RAND_MAX rand segs x0 n j) < eps)) ∘
        Nat.succ) = fun j => decide (stepR m segs
          (walkPos m RAND_MAX rand segs (stepNext m RAND_MAX rand segs x0 n) (n + 3) j) < eps) := by
      funext j
      simp only [Function.comp, Nat.succ_eq_add_one, walkPos_shift]
    simp only [walkPos, h, decide_False, if_false, hfun]
    cases List.find? (fun j => decide (stepR m segs
      (walkPos m RAND_MAX rand segs (stepNext m RAND_MAX rand segs x0 n) (n + 3) j) < eps))
      (List.range k) <;> simp

/-- The inner loop started in state `s` with `k` iterations allowed runs
`walkLen k` steps: it ends at the position before step `walkLen k`, has added
the terms of the steps before it to the sum, and has made three calls of
`rand()` per step. -/
theorem walkLoop_eq (m : CMath F) (RAND_MAX : ℕ) (rand : ℕ → ℕ) (segs : List (Seg F))
    (f : Vec2f F → F) (k : ℕ) (s : WalkState F) :
    walkLoop m RAND_MAX rand segs f k s =
      ⟨walkPos m RAND_MAX rand segs s.x s.calls (walkLen m RAND_MAX rand segs k s.x s.calls),
        accumulate s.sum (sumTerms ((List.range (walkLen m RAND_MAX rand segs k s.x s.calls)).map
          fun j => stepTerm m RAND_MAX rand segs f
            (walkPos m RAND_MAX rand segs s.x s.calls j) (s.calls + 3 * j))),
        s.calls + 3 * walkLen m RAND_MAX rand segs k s.x s.calls⟩ := by
  induction k generalizing s with
  | zero =>
    simp [walkLoop, walkLen_zero, walkPos, sumTerms, accumulate_zero]
  | succ k ih =>
    rw [walkLoop, walkLen_succ]
    by_cases h : stepR m segs s.x < eps
    · have h' : maxBallRadius m.sqrt s.x segs < eps := h
      simp [h, h', walkPos, sumTerms, accumulate_zero]
    · have h' : ¬ maxBallRadius m.sqrt s.x segs < eps := h
      have ht : (G m.log (maxBallRadius m.sqrt s.x segs)
          (maxBallRadius m.sqrt s.x segs * m.sqrt (random RAND_MAX 0 1 (rand s.calls)))).map
          (fun k => (M_PI * maxBallRadius m.sqrt s.x segs * maxBallRadius m.sqrt s.x segs) *
            f (s.x + (maxBallRadius m.sqrt s.x segs * m.sqrt (random RAND_MAX 0 1 (rand s.calls))) *
              (⟨m.cos (random RAND_MAX 0 (2 * M_PI) (rand (s.calls + 1))),
                m.sin (random RAND_MAX 0 (2 * M_PI) (rand (s.calls + 1)))⟩ : Vec2f F)) * k) =
          stepTerm m RAND_MAX rand segs f s.x s.calls := by
        simp only [stepTerm, stepR, stepr, stepY, pow_two, mul_assoc]
      have hx : s.x + maxBallRadius m.sqrt s.x segs *
          (⟨m.cos (random RAND_MAX 0 (2 * M_PI) (rand (s.calls + 2))),
            m.sin (random RAND_MAX 0 (2 * M_PI) (rand (s.calls + 2)))⟩ : Vec2f F) =
          stepNext m RAND_MAX rand segs s.x s.calls := rfl
      simp only [h, h', if_false]
      rw [ht, hx, ih, WalkState.mk.injEq]
      refine ⟨(walkPos_shift m RAND_MAX rand segs s.x s.calls _).symm, ?_, by ring⟩
      rw [List.range_succ_eq_map, List.map_cons, sumTerms, List.map_map, accumulate_assoc]
      have hmap : ∀ l : List ℕ,
          l.map ((fun j => stepTerm m RAND_MAX rand segs f
            (walkPos m RAND_MAX rand segs s.x s.calls j) (s.calls + 3 * j)) ∘ Nat.succ) =
          l.map (fun j => stepTerm m RAND_MAX rand segs f
            (walkPos m RAND_MAX rand segs (stepNext m RAND_MAX rand segs s.x s.calls)
              (s.calls + 3) j) (s.calls + 3 + 3 * j)) := by
        intro l
        apply List.map_congr_left
        intro j _
        simp only [Function.comp, Nat.succ_eq_add_one, walkPos_shift]
        congr 1
        ring
      rw [hmap]
      simp [walkPos]

theorem zero_accumulate (a : Option F) : accumulate (some 0) a = a := by
  cases a <;> simp [accumulate]

/-- A walk of at most `k` steps stops at the first step whose radius is below
`eps`, or after `k` steps. -/
theorem walkLen_spec (m : CMath F) (RAND_MAX : ℕ) (rand : ℕ → ℕ) (segs : List (Seg F))
    (k : ℕ) (x0 : Vec2f F) (n : ℕ) :
    walkLen m RAND_MAX rand segs k x0 n ≤ k ∧
    (∀ j, j < walkLen m RAND_MAX rand segs k x0 n →
      ¬ stepR m segs (walkPos m RAND_MAX rand segs x0 n j) < eps) ∧
    (walkLen m RAND_MAX rand segs k x0 n < k →
      stepR m segs (walkPos m RAND_MAX rand segs x0 n
        (walkLen m RAND_MAX rand segs k x0 n)) < eps) := by
  induction k generalizing x0 n with
  | zero => simp [walkLen_zero]
  | succ k ih =>
    rw [walkLen_succ]
    by_cases h : stepR m segs x0 < eps
    · simp [h, walkPos]
    · obtain ⟨h1, h2, h3⟩ := ih (stepNext m RAND_MAX rand segs x0 n) (n + 3)
      simp only [h, if_false]
      refine ⟨Nat.succ_le_succ h1, ?_, ?_⟩
      · intro j hj
        cases j with
        | zero => simpa [walkPos] using h
        | succ j =>
          rw [walkPos_shift]
          exact h2 j (Nat.lt_of_succ_lt_succ hj)
      · intro hlt
        rw [walkPos_shift]
        exact h3 (Nat.lt_of_succ_lt_succ hlt)

theorem walkStart_shift (m : CMath F) (RAND_MAX : ℕ) (rand : ℕ → ℕ) (segs : List (Seg F))
    (x0 : Vec2f F) (c i : ℕ) :
    walkStart m RAND_MAX rand segs x0 c (i + 1) =
      walkStart m RAND_MAX rand segs x0
        (c + 3 * walkLen m RAND_MAX rand segs maxSteps x0 c) i := by
  induction i with
  | zero => simp [walkStart]
  | succ i ih =>
    rw [walkStart, ih]
    conv_rhs => rw [walkStart]

/-- The outer loop with `n` walks left adds the values of the next `n` walks
to the sum. -/
theorem walksLoop_eq (m : CMath F) (RAND_MAX : ℕ) (rand : ℕ → ℕ) (x0 : Vec2f F)
    (segs : List (Seg F)) (f g : Vec2f F → F) (n : ℕ) (acc : Option F) (c : ℕ) :
    walksLoop m RAND_MAX rand x0 segs f g n (acc, c) =
      (accumulate acc (sumTerms ((List.range n).map fun i =>
          walkValue m RAND_MAX rand segs f g x0 (walkStart m RAND_MAX rand segs x0 c i))),
        walkStart m RAND_MAX rand segs x0 c n) := by
  induction n generalizing acc c with
  | zero => simp [walksLoop, sumTerms, accumulate_zero, walkStart]
  | succ n ih =>
    rw [walksLoop, walkLoop_eq, ih]
    simp only [List.range_succ_eq_map, List.map_cons, List.map_map, sumTerms, accumulate_assoc,
      walkStart_shift]
    have hmap : ∀ l : List ℕ,
        l.map ((fun i => walkValue m RAND_MAX rand segs f g x0
          (walkStart m RAND_MAX rand segs x0 c i)) ∘ Nat.succ) =
        l.map (fun i => walkValue m RAND_MAX rand segs f g x0
          (walkStart m RAND_MAX rand segs x0
            (c + 3 * walkLen m RAND_MAX rand segs maxSteps x0 c) i)) := by
      intro l
      apply List.map_congr_left
      intro i _
      simp only [Function.comp, Nat.succ_eq_add_one, walkStart_shift]
    rw [hmap]
    simp [walkValue, walkStart, accumulate_assoc]

/-! ### Non-finite sums and the sampled radius -/

theorem walkLoop_sum_none (m : CMath F) (RAND_MAX : ℕ) (rand : ℕ → ℕ) (segs : List (Seg F))
    (f : Vec2f F → F) (k : ℕ) (s : WalkState F) (hs : s.sum = none) :
    (walkLoop m RAND_MAX rand segs f k s).sum = none := by
  rw [walkLoop_eq, hs, accumulate_none]

theorem walksLoop_none (m : CMath F) (RAND_MAX : ℕ) (rand : ℕ → ℕ) (x0 : Vec2f F)
    (segs : List (Seg F)) (f g : Vec2f F → F) (n c : ℕ) :
    (walksLoop m RAND_MAX rand x0 segs f g n (none, c)).1 = none := by
  rw [walksLoop_eq, accumulate_none]

/-- When the first step of the first walk is executed with a sampled radius
`r = 0`, the kernel is non-finite there and so is the estimate. -/
theorem solvePoisson_none_of_radius_zero (m : CMath F) (RAND_MAX : ℕ) (rand : ℕ → ℕ)
    (x0 : Vec2f F) (segs : List (Seg F)) (f g : Vec2f F → F)
    (hR : ¬ maxBallRadius m.sqrt x0 segs < eps)
    (hr : maxBallRadius m.sqrt x0 segs * m.sqrt (random RAND_MAX 0 1 (rand 0)) = 0) :
    solvePoisson m RAND_MAX rand x0 segs f g = none := by
  have hG : G m.log (maxBallRadius m.sqrt x0 segs) 0 = none := by simp [G, fdiv]
  have h1 : (walkLoop m RAND_MAX rand segs f maxSteps ⟨x0, some 0, 0⟩).sum = none := by
    show (walkLoop m RAND_MAX rand segs f (15 + 1) ⟨x0, some 0, 0⟩).sum = none
    rw [walkLoop]
    simp only [hR, if_false, hr, hG, Option.map_none']
    exact walkLoop_sum_none m RAND_MAX rand segs f 15 _ rfl
  show Option.map _ (walksLoop m RAND_MAX rand x0 segs f g (127 + 1) (some 0, 0)).1 = none
  rw [walksLoop]
  simp only [h1, accumulate_none, walksLoop_none, Option.map_none']

theorem random_zero (RAND_MAX : ℕ) : random RAND_MAX (0 : ℝ) 1 0 = 0 := by
  simp [random]

/-- Evaluation of `distanceToLine` from the values of its intermediate
results. -/
theorem distanceToLine_eval (p a b : Vec2f ℝ) (q t d : ℝ)
    (hden : dot (b - a) (b - a) ≠ 0)
    (hq : dot (p - a) (b - a) / dot (b - a) (b - a) = q)
    (ht : clamp q 0 1 = t) (hd : 0 ≤ d)
    (hsq : dot (p - a - t * (b - a)) (p - a - t * (b - a)) = d ^ 2) :
    distanceToLine Real.sqrt p a b = some d := by
  simp only [distanceToLine, fdiv, if_neg hden, hq, ht, norm, hsq]
  rw [Real.sqrt_sq hd]

theorem clamp_of_mem {q : ℝ} (h0 : 0 ≤ q) (h1 : q ≤ 1) : clamp q 0 1 = q := by
  simp only [clamp_eq_min_max]
  rw [max_eq_left h0, min_eq_left h1]

theorem maxBallRadius_unitSquare_center :
    maxBallRadius Real.sqrt (⟨1 / 2, 1 / 2⟩ : Vec2f ℝ) unitSquare = 1 / 2 := by
  have hc : clamp (1 / 2 : ℝ) 0 1 = 1 / 2 := clamp_of_mem (by norm_num) (by norm_num)
  have h1 : distanceToLine Real.sqrt (⟨1 / 2, 1 / 2⟩ : Vec2f ℝ) ⟨0, 0⟩ ⟨0, 1⟩ = some (1 / 2) :=
    distanceToLine_eval _ _ _ (1 / 2) (1 / 2) (1 / 2) (by simp [dot]) (by simp [dot]) hc
      (by norm_num) (by simp [dot]; norm_num)
  have h2 : distanceToLine Real.sqrt (⟨1 / 2, 1 / 2⟩ : Vec2f ℝ) ⟨1, 0⟩ ⟨1, 1⟩ = some (1 / 2) :=
    distanceToLine_eval _ _ _ (1 / 2) (1 / 2) (1 / 2) (by simp [dot]) (by simp [dot]) hc
      (by norm_num) (by simp [dot]; norm_num)
  have h3 : distanceToLine Real.sqrt (⟨1 / 2, 1 / 2⟩ : Vec2f ℝ) ⟨0, 0⟩ ⟨1, 0⟩ = some (1 / 2) :=
    distanceToLine_eval _ _ _ (1 / 2) (1 / 2) (1 / 2) (by simp [dot]) (by simp [dot]) hc
      (by norm_num) (by simp [dot]; norm_num)
  have h4 : distanceToLine Real.sqrt (⟨1 / 2, 1 / 2⟩ : Vec2f ℝ) ⟨0, 1⟩ ⟨1, 1⟩ = some (1 / 2) :=
    distanceToLine_eval _ _ _ (1 / 2) (1 / 2) (1 / 2) (by simp [dot]) (by simp [dot]) hc
      (by norm_num) (by simp [dot]; norm_num)
  have hM : (1 / 2 : ℝ) < FLT_MAX := by simp only [FLT_MAX]; norm_num
  simp only [maxBallRadius, unitSquare, List.foldl_cons, List.foldl_nil, h1, h2, h3, h4, stdMin,
    if_pos hM, lt_irrefl, if_false]

/-- The estimate is the average of the values of the walks. -/
theorem solvePoisson_walkAverage (m : CMath F) (RAND_MAX : ℕ) (rand : ℕ → ℕ)
    (x0 : Vec2f F) (segs : List (Seg F)) (f g : Vec2f F → F) :
    solvePoisson m RAND_MAX rand x0 segs f g = walkAverage m RAND_MAX rand x0 segs f g := by
  simp only [solvePoisson, walkAverage, walksLoop_eq, zero_accumulate, numWalks]
  congr 1
  funext total
  simp only [Nat.cast_ofNat]
  ring

theorem eps_pos : (0 : ℝ) < eps := by
  simp only [eps]
  norm_num

/-- A draw `rand() > 0` gives a sampled radius `0 < r`, and a draw
`rand() ≤ RAND_MAX` gives `r ≤ R`. -/
theorem sampled_radius_range (RAND_MAX k : ℕ) (R : ℝ) (hM : 0 < RAND_MAX) (hR : 0 < R) :
    (0 < k → 0 < R * Real.sqrt (random RAND_MAX 0 1 k)) ∧
    (k ≤ RAND_MAX → R * Real.sqrt (random RAND_MAX 0 1 k) ≤ R) := by
  have hM' : (0 : ℝ) < (RAND_MAX : ℝ) := Nat.cast_pos.mpr hM
  have hu : random RAND_MAX (0 : ℝ) 1 k = (k : ℝ) / (RAND_MAX : ℝ) := by simp [random]
  rw [hu]
  constructor
  · intro hk
    have : (0 : ℝ) < (k : ℝ) / (RAND_MAX : ℝ) := div_pos (Nat.cast_pos.mpr hk) hM'
    exact mul_pos hR (Real.sqrt_pos.mpr this)
  · intro hk
    have h1 : (k : ℝ) / (RAND_MAX : ℝ) ≤ 1 := by
      rw [div_le_one hM']
      exact Nat.cast_le.mpr hk
    have h2 : Real.sqrt ((k : ℝ) / (RAND_MAX : ℝ)) ≤ 1 := by
      rw [Real.sqrt_le_left (by norm_num)]
      simpa using h1
    calc R * Real.sqrt ((k : ℝ) / (RAND_MAX : ℝ)) ≤ R * 1 :=
          mul_le_mul_of_nonneg_left h2 (le_of_lt hR)
      _ = R := mul_one R

theorem G_some_of_pos (R r : ℝ) (hR : 0 < R) (hr : 0 < r) :
    ∃ v, G Real.log R r = some v := by
  refine ⟨(1 / (2 * M_PI)) * Real.log (R / r), ?_⟩
  simp only [G, fdiv, if_neg (ne_of_gt hr), flog, if_pos (div_pos hR hr)]

theorem sumTerms_some (l : List (Option F)) (h : ∀ t ∈ l, ∃ v, t = some v) :
    ∃ v, sumTerms l = some v := by
  induction l with
  | nil => exact ⟨0, rfl⟩
  | cons t ts ih =>
    obtain ⟨a, ha⟩ := h t (List.mem_cons_self _ _)
    obtain ⟨b, hb⟩ := ih (fun u hu => h u (List.mem_cons_of_mem _ hu))
    exact ⟨a + b, by simp [sumTerms, ha, hb, accumulate]⟩

/-- When `rand()` never returns 0, every walk has a finite value. -/
theorem walkValue_some (RAND_MAX : ℕ) (rand : ℕ → ℕ) (segs : List (Seg ℝ))
    (f g : Vec2f ℝ → ℝ) (x0 : Vec2f ℝ) (n : ℕ) (hM : 0 < RAND_MAX) (hrand : ∀ i, 0 < rand i) :
    ∃ v, walkValue ⟨Real.sqrt, Real.log, Real.cos, Real.sin⟩ RAND_MAX rand segs f g x0 n =
      some v := by
  obtain ⟨_, h2, _⟩ := walkLen_spec ⟨Real.sqrt, Real.log, Real.cos, Real.sin⟩ RAND_MAX rand segs
    maxSteps x0 n
  have hterms : ∃ v, sumTerms ((List.range (walkLen ⟨Real.sqrt, Real.log, Real.cos, Real.sin⟩
      RAND_MAX rand segs maxSteps x0 n)).map fun j =>
      stepTerm ⟨Real.sqrt, Real.log, Real.cos, Real.sin⟩ RAND_MAX rand segs f
        (walkPos ⟨Real.sqrt, Real.log, Real.cos, Real.sin⟩ RAND_MAX rand segs x0 n j)
        (n + 3 * j)) = some v := by
    apply sumTerms_some
    intro t ht
    obtain ⟨j, hj, rfl⟩ := List.mem_map.mp ht
    have hR : 0 < stepR ⟨Real.sqrt, Real.log, Real.cos, Real.sin⟩ segs
        (walkPos ⟨Real.sqrt, Real.log, Real.cos, Real.sin⟩ RAND_MAX rand segs x0 n j) :=
      lt_of_lt_of_le eps_pos (not_lt.mp (h2 j (List.mem_range.mp hj)))
    obtain ⟨v, hv⟩ := G_some_of_pos _ _ hR
      ((sampled_radius_range RAND_MAX (rand (n + 3 * j)) _ hM hR).1 (hrand _))
    exact ⟨_, by simp only [stepTerm, stepr]; rw [hv]; rfl⟩
  obtain ⟨v, hv⟩ := hterms
  exact ⟨_, by simp only [walkValue]; rw [hv]; rfl⟩

/-- When `rand()` never returns 0, the estimate is a finite number. -/
theorem solvePoisson_some (RAND_MAX : ℕ) (rand : ℕ → ℕ) (x0 : Vec2f ℝ) (segs : List (Seg ℝ))
    (f g : Vec2f ℝ → ℝ) (hM : 0 < RAND_MAX) (hrand : ∀ i, 0 < rand i) :
    ∃ v, solvePoisson ⟨Real.sqrt, Real.log, Real.cos, Real.sin⟩ RAND_MAX rand x0 segs f g =
      some v := by
  rw [solvePoisson_walkAverage]
  have h : ∃ v, sumTerms ((List.range 128).map fun i =>
      walkValue ⟨Real.sqrt, Real.log, Real.cos, Real.sin⟩ RAND_MAX rand segs f g x0
        (walkStart ⟨Real.sqrt, Real.log, Real.cos, Real.sin⟩ RAND_MAX rand segs x0 0 i)) =
      some v := by
    apply sumTerms_some
    intro t ht
    obtain ⟨i, _, rfl⟩ := List.mem_map.mp ht
    exact walkValue_some RAND_MAX rand segs f g x0 _ hM hrand
  obtain ⟨v, hv⟩ := h
  exact ⟨_, by simp only [walkAverage]; rw [hv]; rfl⟩

/-! ### The empty segment list -/

theorem walkLen_nil (m : CMath ℝ) (RAND_MAX : ℕ) (rand : ℕ → ℕ) (k : ℕ) (x0 : Vec2f ℝ)
    (n : ℕ) : walkLen m RAND_MAX rand [] k x0 n = k := by
  induction k generalizing x0 n with
  | zero => exact walkLen_zero m RAND_MAX rand [] x0 n
  | succ k ih =>
    rw [walkLen_succ, ih]
    have h : ¬ stepR m ([] : List (Seg ℝ)) x0 < eps := by
      have h1 : (eps : ℝ) ≤ FLT_MAX := by simp only [eps, FLT_MAX]; norm_num
      exact not_lt.mpr h1
    rw [if_neg h]

theorem walkStart_nil (m : CMath ℝ) (RAND_MAX : ℕ) (rand : ℕ → ℕ) (x0 : Vec2f ℝ) (c i : ℕ) :
    walkStart m RAND_MAX rand [] x0 c i = c + 48 * i := by
  induction i with
  | zero => rfl
  | succ i ih =>
    rw [walkStart, ih, walkLen_nil]
    simp only [maxSteps]
    ring

/-! ### Calls, early stop and constant fields -/

/-- The loop with counters computes the state of `walkLoop`, and counts one
call of `maxBallRadius` per iteration and one call of `f` per executed
step. -/
theorem walkLoopCalls_eq (m : CMath F) (RAND_MAX : ℕ) (rand : ℕ → ℕ) (segs : List (Seg F))
    (f : Vec2f F → F) (k : ℕ) (s : WalkState F) (c : Calls) :
    walkLoopCalls m RAND_MAX rand segs f k s c =
      (walkLoop m RAND_MAX rand segs f k s,
        ⟨c.radius + min (walkLen m RAND_MAX rand segs k s.x s.calls + 1) k,
          c.source + walkLen m RAND_MAX rand segs k s.x s.calls, c.boundary⟩) := by
  induction k generalizing s c with
  | zero => simp [walkLoopCalls, walkLoop, walkLen_zero]
  | succ k ih =>
    rw [walkLoopCalls, walkLoop, walkLen_succ]
    by_cases h : stepR m segs s.x < eps
    · have h' : maxBallRadius m.sqrt s.x segs < eps := h
      simp [h, h']
    · have h' : ¬ maxBallRadius m.sqrt s.x segs < eps := h
      have hx : s.x + maxBallRadius m.sqrt s.x segs *
          (⟨m.cos (random RAND_MAX 0 (2 * M_PI) (rand (s.calls + 2))),
            m.sin (random RAND_MAX 0 (2 * M_PI) (rand (s.calls + 2)))⟩ : Vec2f F) =
          stepNext m RAND_MAX rand segs s.x s.calls := rfl
      simp only [h, h', if_false]
      rw [ih, hx]
      simp only [Prod.mk.injEq, Calls.mk.injEq, true_and]
      generalize walkLen m RAND_MAX rand segs k
        (stepNext m RAND_MAX rand segs s.x s.calls) (s.calls + 3) = L
      have hmin : min (L + 1 + 1) (k + 1) = min (L + 1) k + 1 := Nat.succ_min_succ (L + 1) k
      rw [hmin]
      exact ⟨by ring, by ring, trivial⟩

/-- The outer loop with counters computes the state of `walksLoop`; it calls
`g` once per walk, `f` and `maxBallRadius` at most `maxSteps` times per walk,
and `rand()` three times per call of `f`. -/
theorem walksLoopCalls_spec (m : CMath F) (RAND_MAX : ℕ) (rand : ℕ → ℕ) (x0 : Vec2f F)
    (segs : List (Seg F)) (f g : Vec2f F → F) (n : ℕ) (acc : Option F) (c0 : ℕ) (c : Calls) :
    (walksLoopCalls m RAND_MAX rand x0 segs f g n (acc, c0) c).1 =
      walksLoop m RAND_MAX rand x0 segs f g n (acc, c0) ∧
    (walksLoopCalls m RAND_MAX rand x0 segs f g n (acc, c0) c).2.boundary = c.boundary + n ∧
    (walksLoopCalls m RAND_MAX rand x0 segs f g n (acc, c0) c).2.source ≤
      c.source + maxSteps * n ∧
    (walksLoopCalls m RAND_MAX rand x0 segs f g n (acc, c0) c).2.radius ≤
      c.radius + maxSteps * n ∧
    (walksLoop m RAND_MAX rand x0 segs f g n (acc, c0)).2 + 3 * c.source =
      c0 + 3 * (walksLoopCalls m RAND_MAX rand x0 segs f g n (acc, c0) c).2.source := by
  induction n generalizing acc c0 c with
  | zero => simp [walksLoopCalls, walksLoop]
  | succ n ih =>
    rw [walksLoopCalls, walksLoop, walkLoopCalls_eq]
    obtain ⟨hL, _, _⟩ := walkLen_spec m RAND_MAX rand segs maxSteps x0 c0
    have hcalls : (walkLoop m RAND_MAX rand segs f maxSteps ⟨x0, acc, c0⟩).calls =
        c0 + 3 * walkLen m RAND_MAX rand segs maxSteps x0 c0 := by
      rw [walkLoop_eq]
    have hmin := Nat.min_le_right (walkLen m RAND_MAX rand segs maxSteps x0 c0 + 1) maxSteps
    obtain ⟨h1, h2, h3, h4, h5⟩ := ih
      (accumulate (walkLoop m RAND_MAX rand segs f maxSteps ⟨x0, acc, c0⟩).sum
        (some (g (walkLoop m RAND_MAX rand segs f maxSteps ⟨x0, acc, c0⟩).x)))
      (walkLoop m RAND_MAX rand segs f maxSteps ⟨x0, acc, c0⟩).calls
      ⟨c.radius + min (walkLen m RAND_MAX rand segs maxSteps x0 c0 + 1) maxSteps,
        c.source + walkLen m RAND_MAX rand segs maxSteps x0 c0, c.boundary + 1⟩
    dsimp only at h1 h2 h3 h4 h5 ⊢
    generalize walkLen m RAND_MAX rand segs maxSteps x0 c0 = L at *
    generalize (walkLoop m RAND_MAX rand segs f maxSteps ⟨x0, acc, c0⟩).calls = K at *
    generalize min (L + 1) maxSteps = M at *
    refine ⟨h1, ?_, ?_, ?_, ?_⟩
    · rw [h2]
      ring
    · refine le_trans h3 ?_
      simp only [Nat.mul_succ]
      omega
    · refine le_trans h4 ?_
      simp only [Nat.mul_succ]
      omega
    · omega

/-- The counters of a run of `n` walks that starts with all counters at 0. -/
theorem walksLoopCalls_start (m : CMath F) (RAND_MAX : ℕ) (rand : ℕ → ℕ) (x0 : Vec2f F)
    (segs : List (Seg F)) (f g : Vec2f F → F) (n : ℕ) :
    (walksLoopCalls m RAND_MAX rand x0 segs f g n (some 0, 0) ⟨0, 0, 0⟩).1 =
      walksLoop m RAND_MAX rand x0 segs f g n (some 0, 0) ∧
    (walksLoopCalls m RAND_MAX rand x0 segs f g n (some 0, 0) ⟨0, 0, 0⟩).2.boundary = n ∧
    (walksLoopCalls m RAND_MAX rand x0 segs f g n (some 0, 0) ⟨0, 0, 0⟩).2.source ≤
      maxSteps * n ∧
    (walksLoopCalls m RAND_MAX rand x0 segs f g n (some 0, 0) ⟨0, 0, 0⟩).2.radius ≤
      maxSteps * n ∧
    (walksLoop m RAND_MAX rand x0 segs f g n (some 0, 0)).2 =
      3 * (walksLoopCalls m RAND_MAX rand x0 segs f g n (some 0, 0) ⟨0, 0, 0⟩).2.source := by
  obtain ⟨h1, h2, h3, h4, h5⟩ := walksLoopCalls_spec m RAND_MAX rand x0 segs f g n
    (some 0) 0 ⟨0, 0, 0⟩
  dsimp only at h2 h3 h4 h5
  refine ⟨h1, by omega, by omega, by omega, by omega⟩

theorem solvePoissonCalls_value (m : CMath F) (RAND_MAX : ℕ) (rand : ℕ → ℕ) (x0 : Vec2f F)
    (segs : List (Seg F)) (f g : Vec2f F → F) :
    (solvePoissonCalls m RAND_MAX rand x0 segs f g).1 =
      (walksLoopCalls m RAND_MAX rand x0 segs f g numWalks (some 0, 0) ⟨0, 0, 0⟩).1.1.map
        fun sum => sum / (numWalks : F) := by
  simp only [solvePoissonCalls]

theorem solvePoissonCalls_draws (m : CMath F) (RAND_MAX : ℕ) (rand : ℕ → ℕ) (x0 : Vec2f F)
    (segs : List (Seg F)) (f g : Vec2f F → F) :
    (solvePoissonCalls m RAND_MAX rand x0 segs f g).2.1 =
      (walksLoopCalls m RAND_MAX rand x0 segs f g numWalks (some 0, 0) ⟨0, 0, 0⟩).1.2 := by
  simp only [solvePoissonCalls]

theorem solvePoissonCalls_calls (m : CMath F) (RAND_MAX : ℕ) (rand : ℕ → ℕ) (x0 : Vec2f F)
    (segs : List (Seg F)) (f g : Vec2f F → F) :
    (solvePoissonCalls m RAND_MAX rand x0 segs f g).2.2 =
      (walksLoopCalls m RAND_MAX rand x0 segs f g numWalks (some 0, 0) ⟨0, 0, 0⟩).2 := by
  simp only [solvePoissonCalls]

theorem sumTerms_const (l : List (Option F)) (c : F) (h : ∀ t ∈ l, t = some c) :
    sumTerms l = some ((l.length : F) * c) := by
  induction l with
  | nil => simp [sumTerms]
  | cons t ts ih =>
    rw [sumTerms, h t (List.mem_cons_self _ _), ih (fun u hu => h u (List.mem_cons_of_mem _ hu))]
    simp only [accumulate, List.length_cons, Nat.cast_succ]
    congr 1
    ring

/-- When every walk has the same finite value `c`, the estimate is `c`. -/
theorem walkAverage_const (m : CMath F) (RAND_MAX : ℕ) (rand : ℕ → ℕ) (x0 : Vec2f F)
    (segs : List (Seg F)) (f g : Vec2f F → F) (c : F)
    (h : ∀ n, walkValue m RAND_MAX rand segs f g x0 n = some c) :
    solvePoisson m RAND_MAX rand x0 segs f g = some c := by
  rw [solvePoisson_walkAverage, walkAverage, sumTerms_const _ c]
  · simp only [List.length_map, List.length_range, Option.map_some']
    congr 1
    push_cast
    ring
  · intro t ht
    obtain ⟨i, _, rfl⟩ := List.mem_map.mp ht
    exact h _

theorem walkLen_of_small (m : CMath F) (RAND_MAX : ℕ) (rand : ℕ → ℕ) (segs : List (Seg F))
    (k : ℕ) (x0 : Vec2f F) (n : ℕ) (hR : maxBallRadius m.sqrt x0 segs < eps) :
    walkLen m RAND_MAX rand segs k x0 n = 0 := by
  cases k with
  | zero => exact walkLen_zero m RAND_MAX rand segs x0 n
  | succ k =>
    have h : stepR m segs x0 < eps := hR
    rw [walkLen_succ, if_pos h]

theorem walkValue_of_small (m : CMath F) (RAND_MAX : ℕ) (rand : ℕ → ℕ) (segs : List (Seg F))
    (f g : Vec2f F → F) (x0 : Vec2f F) (n : ℕ) (hR : maxBallRadius m.sqrt x0 segs < eps) :
    walkValue m RAND_MAX rand segs f g x0 n = some (g x0) := by
  simp [walkValue, walkLen_of_small m RAND_MAX rand segs maxSteps x0 n hR, sumTerms, accumulate,
    walkPos]

/-- With a zero source field, a constant boundary field `c` and no draw
`rand() = 0`, every walk has the value `c`. -/
theorem walkValue_const (RAND_MAX : ℕ) (rand : ℕ → ℕ) (segs : List (Seg ℝ)) (c : ℝ)
    (x0 : Vec2f ℝ) (n : ℕ) (hM : 0 < RAND_MAX)
    (hrand : ∀ j, j < walkLen ⟨Real.sqrt, Real.log, Real.cos, Real.sin⟩ RAND_MAX rand segs
      maxSteps x0 n → 0 < rand (n + 3 * j)) :
    walkValue ⟨Real.sqrt, Real.log, Real.cos, Real.sin⟩ RAND_MAX rand segs (fun _ => 0)
      (fun _ => c) x0 n = some c := by
  obtain ⟨_, h2, _⟩ := walkLen_spec ⟨Real.sqrt, Real.log, Real.cos, Real.sin⟩ RAND_MAX rand segs
    maxSteps x0 n
  have hterms : sumTerms ((List.range (walkLen ⟨Real.sqrt, Real.log, Real.cos, Real.sin⟩
      RAND_MAX rand segs maxSteps x0 n)).map fun j =>
      stepTerm ⟨Real.sqrt, Real.log, Real.cos, Real.sin⟩ RAND_MAX rand segs (fun _ => 0)
        (walkPos ⟨Real.sqrt, Real.log, Real.cos, Real.sin⟩ RAND_MAX rand segs x0 n j)
        (n + 3 * j)) = some 0 := by
    rw [sumTerms_const _ 0]
    · simp
    · intro t ht
      obtain ⟨j, hj, rfl⟩ := List.mem_map.mp ht
      have hR : 0 < stepR ⟨Real.sqrt, Real.log, Real.cos, Real.sin⟩ segs
          (walkPos ⟨Real.sqrt, Real.log, Real.cos, Real.sin⟩ RAND_MAX rand segs x0 n j) :=
        lt_of_lt_of_le eps_pos (not_lt.mp (h2 j (List.mem_range.mp hj)))
      obtain ⟨v, hv⟩ := G_some_of_pos _ _ hR
        ((sampled_radius_range RAND_MAX (rand (n + 3 * j)) _ hM hR).1
          (hrand j (List.mem_range.mp hj)))
      simp only [stepTerm, stepr]
      rw [hv]
      simp
  simp only [walkValue]
  rw [hterms]
  simp [accumulate]

theorem clamp_between {T : Type} [LinearOrder T] (x lo hi : T) (h : lo ≤ hi) :
    lo ≤ clamp x lo hi ∧ clamp x lo hi ≤ hi := by
  simp only [clamp_eq_min_max]
  exact ⟨le_min (le_max_right _ _) h, min_le_right _ _⟩

theorem euclid_offset (x : Vec2f ℝ) (r alpha : ℝ) (hr : 0 ≤ r) :
    euclid Real.sqrt x (x + r * (⟨Real.cos alpha, Real.sin alpha⟩ : Vec2f ℝ)) = r := by
  simp only [euclid, add_v0, add_v1, scale_v0, scale_v1]
  have h : (x.v0 - (x.v0 + r * Real.cos alpha)) ^ 2 + (x.v1 - (x.v1 + r * Real.sin alpha)) ^ 2 =
      r ^ 2 := by
    have := Real.cos_sq_add_sin_sq alpha
    nlinarith
  rw [h, Real.sqrt_sq hr]

theorem random_unit_range (RAND_MAX k : ℕ) (hM : 0 < RAND_MAX) (hk : k ≤ RAND_MAX) :
    0 ≤ random RAND_MAX (0 : ℝ) 1 k ∧ random RAND_MAX (0 : ℝ) 1 k ≤ 1 := by
  have hM' : (0 : ℝ) < (RAND_MAX : ℝ) := Nat.cast_pos.mpr hM
  have hu : random RAND_MAX (0 : ℝ) 1 k = (k : ℝ) / (RAND_MAX : ℝ) := by simp [random]
  rw [hu]
  refine ⟨div_nonneg (Nat.cast_nonneg k) (le_of_lt hM'), ?_⟩
  rw [div_le_one hM']
  exact Nat.cast_le.mpr hk

/-! ### The rectangle of `main` -/

theorem stdMin_some (r d : ℝ) : stdMin r (some d) = min r d := by
  simp only [stdMin]
  rcases lt_or_le d r with h | h
  · rw [if_pos h, min_eq_right (le_of_lt h)]
  · rw [if_neg (not_lt.mpr h), min_eq_left h]

/-- Distance to the vertical wall `(A,0)-(A,H)` from a point whose ordinate
lies in `[0,H]`. -/
theorem distanceToLine_vertical (x : Vec2f ℝ) (A H : ℝ) (hH : 0 < H) (h0 : 0 ≤ x.v1)
    (h1 : x.v1 ≤ H) :
    distanceToLine Real.sqrt x ⟨A, 0⟩ ⟨A, H⟩ = some |x.v0 - A| := by
  have hH' : H ≠ 0 := ne_of_gt hH
  apply distanceToLine_eval x ⟨A, 0⟩ ⟨A, H⟩ (x.v1 / H) (x.v1 / H) |x.v0 - A|
  · simp only [dot, sub_v0, sub_v1]
    have : 0 < H * H := mul_pos hH hH
    nlinarith
  · simp only [dot, sub_v0, sub_v1]
    field_simp
    ring
  · exact clamp_of_mem (div_nonneg h0 (le_of_lt hH)) ((div_le_one hH).mpr h1)
  · exact abs_nonneg _
  · simp only [dot, sub_v0, sub_v1, scale_v0, scale_v1, sq_abs]
    field_simp
    ring

/-- Distance to the horizontal wall `(0,B)-(W,B)` from a point whose abscissa
lies in `[0,W]`. -/
theorem distanceToLine_horizontal (x : Vec2f ℝ) (B W : ℝ) (hW : 0 < W) (h0 : 0 ≤ x.v0)
    (h1 : x.v0 ≤ W) :
    distanceToLine Real.sqrt x ⟨0, B⟩ ⟨W, B⟩ = some |x.v1 - B| := by
  have hW' : W ≠ 0 := ne_of_gt hW
  apply distanceToLine_eval x ⟨0, B⟩ ⟨W, B⟩ (x.v0 / W) (x.v0 / W) |x.v1 - B|
  · simp only [dot, sub_v0, sub_v1]
    have : 0 < W * W := mul_pos hW hW
    nlinarith
  · simp only [dot, sub_v0, sub_v1]
    field_simp
    ring
  · exact clamp_of_mem (div_nonneg h0 (le_of_lt hW)) ((div_le_one hW).mpr h1)
  · exact abs_nonneg _
  · simp only [dot, sub_v0, sub_v1, scale_v0, scale_v1, sq_abs]
    field_simp
    ring

/-- Inside the rectangle of `main` the radius is the distance to the nearest
side. -/
theorem maxBallRadius_mainSegs (w h : ℤ) (hw : 0 < w) (hh : 0 < h) (hwM : w ≤ INT_MAX)
    (x : Vec2f ℝ) (hx : inRect (w : ℝ) (h : ℝ) x) :
    maxBallRadius Real.sqrt x (mainSegs w h) =
      min (min x.v0 ((w : ℝ) - x.v0)) (min x.v1 ((h : ℝ) - x.v1)) := by
  obtain ⟨h0, h1, h2, h3⟩ := hx
  have hW : (0 : ℝ) < (w : ℝ) := Int.cast_pos.mpr hw
  have hH : (0 : ℝ) < (h : ℝ) := Int.cast_pos.mpr hh
  have hwF : (w : ℝ) ≤ FLT_MAX := by
    have h5 : (w : ℝ) ≤ ((INT_MAX : ℤ) : ℝ) := Int.cast_le.mpr hwM
    have h6 : (((INT_MAX : ℤ) : ℝ)) ≤ FLT_MAX := by
      simp only [INT_MAX, FLT_MAX]
      norm_num
    exact le_trans h5 h6
  have d1 := distanceToLine_vertical x 0 h hH h2 h3
  have d2 := distanceToLine_vertical x w h hH h2 h3
  have d3 := distanceToLine_horizontal x 0 w hW h0 h1
  have d4 := distanceToLine_horizontal x h w hW h0 h1
  rw [sub_zero, abs_of_nonneg h0] at d1
  rw [abs_of_nonpos (by linarith), neg_sub] at d2
  rw [sub_zero, abs_of_nonneg h2] at d3
  rw [abs_of_nonpos (by linarith), neg_sub] at d4
  simp only [maxBallRadius, mainSegs, List.foldl_cons, List.foldl_nil, d1, d2, d3, d4,
    stdMin_some]
  rw [min_eq_right (le_trans h1 hwF), min_assoc]

/-- A point at distance at most `r` in each coordinate stays in the rectangle
when `r` is at most the distance to every side. -/
theorem inRect_offset (W H : ℝ) (x : Vec2f ℝ) (R r c s : ℝ)
    (hR : R = min (min x.v0 (W - x.v0)) (min x.v1 (H - x.v1)))
    (hr0 : 0 ≤ r) (hrR : r ≤ R) (hc0 : -1 ≤ c) (hc1 : c ≤ 1) (hs0 : -1 ≤ s) (hs1 : s ≤ 1) :
    inRect W H (x + r * (⟨c, s⟩ : Vec2f ℝ)) := by
  have e1 : R ≤ x.v0 := by rw [hR]; exact le_trans (min_le_left _ _) (min_le_left _ _)
  have e2 : R ≤ W - x.v0 := by rw [hR]; exact le_trans (min_le_left _ _) (min_le_right _ _)
  have e3 : R ≤ x.v1 := by rw [hR]; exact le_trans (min_le_right _ _) (min_le_left _ _)
  have e4 : R ≤ H - x.v1 := by rw [hR]; exact le_trans (min_le_right _ _) (min_le_right _ _)
  have b1 : r * c ≤ r := by nlinarith
  have b2 : -r ≤ r * c := by nlinarith
  have b3 : r * s ≤ r := by nlinarith
  have b4 : -r ≤ r * s := by nlinarith
  simp only [inRect, add_v0, add_v1, scale_v0, scale_v1]
  refine ⟨by linarith, by linarith, by linarith, by linarith⟩

theorem radius_nonneg_mainSegs (W H : ℝ) (x : Vec2f ℝ) (hx : inRect W H x) :
    0 ≤ min (min x.v0 (W - x.v0)) (min x.v1 (H - x.v1)) := by
  obtain ⟨h0, h1, h2, h3⟩ := hx
  exact le_min (le_min h0 (by linarith)) (le_min h2 (by linarith))

/-- Every position of a walk that starts in the rectangle of `main` lies in
the rectangle. -/
theorem walkPos_inRect (w h : ℤ) (hw : 0 < w) (hh : 0 < h) (hwM : w ≤ INT_MAX)
    (RAND_MAX : ℕ) (rand : ℕ → ℕ) (x0 : Vec2f ℝ) (hx0 : inRect (w : ℝ) (h : ℝ) x0) (n j : ℕ) :
    inRect (w : ℝ) (h : ℝ)
      (walkPos ⟨Real.sqrt, Real.log, Real.cos, Real.sin⟩ RAND_MAX rand (mainSegs w h) x0 n j) := by
  induction j with
  | zero => exact hx0
  | succ j ih =>
    rw [walkPos]
    simp only [stepNext, stepR]
    exact inRect_offset _ _ _ _ _ _ _ (maxBallRadius_mainSegs w h hw hh hwM _ ih)
      (by rw [maxBallRadius_mainSegs w h hw hh hwM _ ih]; exact radius_nonneg_mainSegs _ _ _ ih)
      (le_refl _) (Real.neg_one_le_cos _) (Real.cos_le_one _) (Real.neg_one_le_sin _)
      (Real.sin_le_one _)

/-! ### The image fields -/

theorem g_eq_pixel (w h : ℤ) (imageData : List ℕ) (x : Vec2f ℝ) :
    g w h imageData x = pixel w h imageData (toInt x.v0) (toInt x.v1) := rfl

/-- A lookup at a column in `[0, w-1]` and a row in `[0, h-1]` reads inside
the buffer of `w*h` bytes. -/
theorem imageIndex_inside (w h x y : ℤ) (hx0 : 0 ≤ x) (hx1 : x ≤ w - 1) (hy0 : 0 ≤ y)
    (hy1 : y ≤ h - 1) : 0 ≤ imageIndex w x y ∧ imageIndex w x y < w * h := by
  simp only [imageIndex]
  have hw : 0 ≤ w := by linarith
  constructor
  · nlinarith [mul_nonneg hy0 hw]
  · have : y * w ≤ (h - 1) * w := mul_le_mul_of_nonneg_right hy1 hw
    nlinarith

theorem toInt_zero : toInt (0 : ℝ) = 0 := by
  simp only [toInt]
  norm_num

theorem toInt_one : toInt (1 : ℝ) = 1 := by
  simp only [toInt]
  norm_num

/-! ### Approaching a segment -/

theorem distanceToLine_on_segment (p a b : Vec2f ℝ) (hab : a ≠ b) (s : ℝ) (hs0 : 0 ≤ s)
    (hs1 : s ≤ 1) (hp : p = a + s * (b - a)) : distanceToLine Real.sqrt p a b = some 0 := by
  have hpos := dot_ba_pos a b hab
  have hq : dot (p - a) (b - a) / dot (b - a) (b - a) = s := by
    rw [div_eq_iff (ne_of_gt hpos), hp]
    simp only [dot, sub_v0, sub_v1, add_v0, add_v1, scale_v0, scale_v1]
    ring
  rw [distanceToLine_eq p a b hab, hq, clamp_of_mem hs0 hs1, ← hp]
  simp [euclid]

theorem distanceToLine_nonneg (p a b : Vec2f ℝ) (d : ℝ)
    (hd : distanceToLine Real.sqrt p a b = some d) : 0 ≤ d := by
  have hab : a ≠ b := (distanceToLine_isSome_iff p a b).mp ⟨d, hd⟩
  rw [distanceToLine_eq p a b hab] at hd
  rw [← Option.some.inj hd]
  exact Real.sqrt_nonneg _

theorem maxBallRadius_nonneg (x : Vec2f ℝ) (segs : List (Seg ℝ)) :
    0 ≤ maxBallRadius Real.sqrt x segs := by
  rcases (foldl_stdMin x segs FLT_MAX).2.2 with h | ⟨s, _, hd⟩
  · show 0 ≤ List.foldl _ _ _
    rw [h]
    exact le_of_lt FLT_MAX_pos
  · exact distanceToLine_nonneg x s.a s.b _ hd

theorem euclid_eq_zero (p q : Vec2f ℝ) (h : euclid Real.sqrt p q = 0) : p = q := by
  simp only [euclid] at h
  have h0 : 0 ≤ (p.v0 - q.v0) ^ 2 + (p.v1 - q.v1) ^ 2 := by positivity
  rw [Real.sqrt_eq_zero h0] at h
  rw [Vec2f.ext_iff2]
  constructor <;> nlinarith [sq_nonneg (p.v0 - q.v0), sq_nonneg (p.v1 - q.v1)]

/-- On the straight path from `x` to a point `q` the distance to `q` shrinks
by the factor `1 - lam`. -/
theorem euclid_toward (x q : Vec2f ℝ) (lam : ℝ) (h1 : lam ≤ 1) :
    euclid Real.sqrt (x + lam * (q - x)) q = (1 - lam) * euclid Real.sqrt x q := by
  simp only [euclid, add_v0, add_v1, scale_v0, scale_v1, sub_v0, sub_v1]
  have h : (x.v0 + lam * (q.v0 - x.v0) - q.v0) ^ 2 + (x.v1 + lam * (q.v1 - x.v1) - q.v1) ^ 2 =
      (1 - lam) ^ 2 * ((x.v0 - q.v0) ^ 2 + (x.v1 - q.v1) ^ 2) := by ring
  rw [h, Real.sqrt_mul (sq_nonneg _), Real.sqrt_sq (by linarith)]

/-- Moving from `x` toward the point of a non-degenerate segment `S` of the
list that is nearest to `x` brings the radius below `(1 - lam)` times the
distance from `x` to `S`. -/
theorem maxBallRadius_toward (x : Vec2f ℝ) (segs : List (Seg ℝ)) (S : Seg ℝ) (hS : S ∈ segs)
    (hab : S.a ≠ S.b) (lam : ℝ) (h1 : lam ≤ 1) :
    maxBallRadius Real.sqrt
      (x + lam * ((S.a + clamp (dot (x - S.a) (S.b - S.a) / dot (S.b - S.a) (S.b - S.a)) 0 1 *
        (S.b - S.a)) - x)) segs ≤
      (1 - lam) * euclid Real.sqrt x
        (S.a + clamp (dot (x - S.a) (S.b - S.a) / dot (S.b - S.a) (S.b - S.a)) 0 1 *
          (S.b - S.a)) := by
  obtain ⟨d, _, hd, _, _, _, hmin⟩ := distanceToLine_segment
    (x + lam * ((S.a + clamp (dot (x - S.a) (S.b - S.a) / dot (S.b - S.a) (S.b - S.a)) 0 1 *
      (S.b - S.a)) - x)) S.a S.b hab
  have hle := (foldl_stdMin (x + lam * ((S.a + clamp (dot (x - S.a) (S.b - S.a) /
    dot (S.b - S.a) (S.b - S.a)) 0 1 * (S.b - S.a)) - x)) segs FLT_MAX).2.1 S hS d hd
  have hq := hmin (clamp (dot (x - S.a) (S.b - S.a) / dot (S.b - S.a) (S.b - S.a)) 0 1)
    clamp_mem.1 clamp_mem.2
  rw [euclid_toward _ _ _ h1] at hq
  exact le_trans hle hq

/-! ### The unit square with a zero source field -/

/-- With a zero source field and no radius draw `rand() = 0` (the radius draw
of step `j` is the call `n + 3*j`), the value of a walk is the boundary field
at its final position. -/
theorem walkValue_zero_source (RAND_MAX : ℕ) (rand : ℕ → ℕ) (segs : List (Seg ℝ))
    (g : Vec2f ℝ → ℝ) (x0 : Vec2f ℝ) (n : ℕ) (hM : 0 < RAND_MAX)
    (hrand : ∀ j, j < walkLen ⟨Real.sqrt, Real.log, Real.cos, Real.sin⟩ RAND_MAX rand segs
      maxSteps x0 n → 0 < rand (n + 3 * j)) :
    walkValue ⟨Real.sqrt, Real.log, Real.cos, Real.sin⟩ RAND_MAX rand segs (fun _ => 0) g x0 n =
      some (g (walkPos ⟨Real.sqrt, Real.log, Real.cos, Real.sin⟩ RAND_MAX rand segs x0 n
        (walkLen ⟨Real.sqrt, Real.log, Real.cos, Real.sin⟩ RAND_MAX rand segs maxSteps x0 n))) := by
  obtain ⟨_, h2, _⟩ := walkLen_spec ⟨Real.sqrt, Real.log, Real.cos, Real.sin⟩ RAND_MAX rand segs
    maxSteps x0 n
  have hterms : sumTerms ((List.range (walkLen ⟨Real.sqrt, Real.log, Real.cos, Real.sin⟩
      RAND_MAX rand segs maxSteps x0 n)).map fun j =>
      stepTerm ⟨Real.sqrt, Real.log, Real.cos, Real.sin⟩ RAND_MAX rand segs (fun _ => 0)
        (walkPos ⟨Real.sqrt, Real.log, Real.cos, Real.sin⟩ RAND_MAX rand segs x0 n j)
        (n + 3 * j)) = some 0 := by
    rw [sumTerms_const _ 0]
    · simp
    · intro t ht
      obtain ⟨j, hj, rfl⟩ := List.mem_map.mp ht
      have hR : 0 < stepR ⟨Real.sqrt, Real.log, Real.cos, Real.sin⟩ segs
          (walkPos ⟨Real.sqrt, Real.log, Real.cos, Real.sin⟩ RAND_MAX rand segs x0 n j) :=
        lt_of_lt_of_le eps_pos (not_lt.mp (h2 j (List.mem_range.mp hj)))
      obtain ⟨v, hv⟩ := G_some_of_pos _ _ hR
        ((sampled_radius_range RAND_MAX (rand (n + 3 * j)) _ hM hR).1
          (hrand j (List.mem_range.mp hj)))
      simp only [stepTerm, stepr]
      rw [hv]
      simp
  simp only [walkValue]
  rw [hterms]
  simp [accumulate]

theorem sumTerms_bounds (l : List (Option ℝ)) (lo hi : ℝ)
    (h : ∀ t ∈ l, ∃ v, t = some v ∧ lo ≤ v ∧ v ≤ hi) :
    ∃ S, sumTerms l = some S ∧ (l.length : ℝ) * lo ≤ S ∧ S ≤ (l.length : ℝ) * hi := by
  induction l with
  | nil => exact ⟨0, rfl, by simp, by simp⟩
  | cons t ts ih =>
    obtain ⟨v, hv, h1, h2⟩ := h t (List.mem_cons_self _ _)
    obtain ⟨S, hS, h3, h4⟩ := ih (fun u hu => h u (List.mem_cons_of_mem _ hu))
    refine ⟨v + S, by simp [sumTerms, hv, hS, accumulate], ?_, ?_⟩
    · simp only [List.length_cons, Nat.cast_succ]
      linarith
    · simp only [List.length_cons, Nat.cast_succ]
      linarith

theorem mainSegs_one : (mainSegs 1 1 : List (Seg ℝ)) = unitSquare := by
  simp [mainSegs, unitSquare]

theorem random_full (RAND_MAX : ℕ) (hM : 0 < RAND_MAX) (lo hi : ℝ) :
    random RAND_MAX lo hi RAND_MAX = hi := by
  have hM' : (RAND_MAX : ℝ) ≠ 0 := Nat.cast_ne_zero.mpr (Nat.pos_iff_ne_zero.mp hM)
  simp [random, div_self hM']

/-- The cosine of twice the program's constant `M_PI` is 1 up to `10^(-31)`. -/
theorem cos_two_M_PI : 1 - 1 / 10 ^ 31 ≤ Real.cos (2 * M_PI) := by
  have hd := abs_lt.mp M_PI_near_pi
  have h1 : Real.cos (2 * M_PI) = Real.cos (2 * ((M_PI : ℝ) - Real.pi)) := by
    rw [← Real.cos_add_two_pi (2 * ((M_PI : ℝ) - Real.pi))]
    congr 1
    ring
  rw [h1]
  have h2 := Real.one_sub_sq_div_two_le_cos (x := 2 * ((M_PI : ℝ) - Real.pi))
  have h3 : ((M_PI : ℝ) - Real.pi) ^ 2 ≤ (13 / 10 ^ 17) ^ 2 := by
    apply sq_le_sq'
    · linarith [hd.1]
    · linarith [hd.2]
  have h4 : (2 * ((M_PI : ℝ) - Real.pi)) ^ 2 / 2 = 2 * ((M_PI : ℝ) - Real.pi) ^ 2 := by ring
  rw [h4] at h2
  have h5 : (2 : ℝ) * (13 / 10 ^ 17) ^ 2 ≤ 1 / 10 ^ 31 := by norm_num
  linarith

/-- Every position of a walk that starts in the unit square lies in it. -/
theorem walkPos_unitSquare (RAND_MAX : ℕ) (rand : ℕ → ℕ) (x0 : Vec2f ℝ)
    (hx0 : inRect (1 : ℝ) 1 x0) (n j : ℕ) :
    inRect (1 : ℝ) 1
      (walkPos ⟨Real.sqrt, Real.log, Real.cos, Real.sin⟩ RAND_MAX rand unitSquare x0 n j) := by
  have h := walkPos_inRect 1 1 (by decide) (by decide) (by decide) RAND_MAX rand x0
    (by simpa using hx0) n j
  rw [mainSegs_one] at h
  simpa using h

/-- When every `rand()` returns `RAND_MAX = 32767`, the step from the centre
of the unit square goes to the right wall: the walk makes one step and its
final position has a first coordinate above `0.9`. -/
theorem walk_to_right_wall (n : ℕ) :
    walkLen ⟨Real.sqrt, Real.log, Real.cos, Real.sin⟩ 32767 (fun _ => 32767) unitSquare
      maxSteps (⟨1 / 2, 1 / 2⟩ : Vec2f ℝ) n = 1 ∧
    walkPos ⟨Real.sqrt, Real.log, Real.cos, Real.sin⟩ 32767 (fun _ => 32767) unitSquare
      (⟨1 / 2, 1 / 2⟩ : Vec2f ℝ) n 1 =
      ⟨1 / 2 + 1 / 2 * Real.cos (2 * M_PI), 1 / 2 + 1 / 2 * Real.sin (2 * M_PI)⟩ ∧
    (9 / 10 : ℝ) < 1 / 2 + 1 / 2 * Real.cos (2 * M_PI) := by
  have hcos := cos_two_M_PI
  have hcos1 := Real.cos_le_one (2 * M_PI)
  have hsin0 := Real.neg_one_le_sin (2 * M_PI)
  have hsin1 := Real.sin_le_one (2 * M_PI)
  have hbig : (9 / 10 : ℝ) < 1 / 2 + 1 / 2 * Real.cos (2 * M_PI) := by
    have : (1 : ℝ) / 10 ^ 31 < 1 / 10 := by norm_num
    linarith
  have hnext : stepNext ⟨Real.sqrt, Real.log, Real.cos, Real.sin⟩ 32767 (fun _ => 32767)
      unitSquare (⟨1 / 2, 1 / 2⟩ : Vec2f ℝ) n =
      ⟨1 / 2 + 1 / 2 * Real.cos (2 * M_PI), 1 / 2 + 1 / 2 * Real.sin (2 * M_PI)⟩ := by
    simp only [stepNext, stepR, maxBallRadius_unitSquare_center,
      random_full 32767 (by norm_num) 0 (2 * M_PI), Vec2f.ext_iff2, add_v0, add_v1, scale_v0,
      scale_v1]
    exact ⟨trivial, trivial⟩
  have hR0 : ¬ stepR ⟨Real.sqrt, Real.log, Real.cos, Real.sin⟩ unitSquare
      (⟨1 / 2, 1 / 2⟩ : Vec2f ℝ) < eps := by
    simp only [stepR, maxBallRadius_unitSquare_center, eps]
    norm_num
  have hR1 : maxBallRadius Real.sqrt
      (⟨1 / 2 + 1 / 2 * Real.cos (2 * M_PI), 1 / 2 + 1 / 2 * Real.sin (2 * M_PI)⟩ : Vec2f ℝ)
      unitSquare < eps := by
    have hd := distanceToLine_vertical
      (⟨1 / 2 + 1 / 2 * Real.cos (2 * M_PI), 1 / 2 + 1 / 2 * Real.sin (2 * M_PI)⟩ : Vec2f ℝ)
      1 1 (by norm_num) (by show (0 : ℝ) ≤ 1 / 2 + 1 / 2 * Real.sin (2 * M_PI); linarith)
      (by show 1 / 2 + 1 / 2 * Real.sin (2 * M_PI) ≤ (1 : ℝ); linarith)
    have hle := (foldl_stdMin _ unitSquare FLT_MAX).2.1 ⟨⟨1, 0⟩, ⟨1, 1⟩⟩
      (by simp [unitSquare]) _ hd
    refine lt_of_le_of_lt hle ?_
    show |1 / 2 + 1 / 2 * Real.cos (2 * M_PI) - 1| < eps
    rw [abs_of_nonpos (by linarith)]
    simp only [eps]
    linarith
  refine ⟨?_, ?_, hbig⟩
  · show walkLen _ 32767 _ unitSquare (15 + 1) _ n = 1
    rw [walkLen_succ, if_neg hR0, hnext, walkLen_of_small _ _ _ _ _ _ _ hR1]
  · rw [walkPos]
    simp only [walkPos, Nat.mul_zero, Nat.add_zero]
    exact hnext

/-! ### Points and segments inside the range of `float` -/

/-- The end points of a regular segment differ. -/
theorem regular_ne {a b : Vec2f ℝ} (h : regular a b) : a ≠ b := by
  intro hab
  have h3 := h.2.2
  rw [hab] at h3
  have h0 : dot (b - b) (b - b) = (0 : ℝ) := by simp [dot]
  rw [h0] at h3
  have : (0 : ℝ) < 1 / 2 ^ 100 := by positivity
  linarith

/-- A bounded point is within `2^62` of every point of a segment with bounded
end points. -/
theorem euclid_le_of_bounded {p a b : Vec2f ℝ} (hp : bounded p) (ha : bounded a)
    (hb : bounded b) {t : ℝ} (ht0 : 0 ≤ t) (ht1 : t ≤ 1) :
    euclid Real.sqrt p (a + t * (b - a)) ≤ 2 ^ 62 := by
  obtain ⟨hp0, hp1⟩ := hp
  obtain ⟨ha0, ha1⟩ := ha
  obtain ⟨hb0, hb1⟩ := hb
  rw [abs_le] at hp0 hp1 ha0 ha1 hb0 hb1
  have h1t : 0 ≤ 1 - t := by linarith
  have hq0u : a.v0 + t * (b.v0 - a.v0) ≤ 2 ^ 60 := by
    nlinarith [mul_nonneg h1t (sub_nonneg.2 ha0.2), mul_nonneg ht0 (sub_nonneg.2 hb0.2)]
  have hq0l : -(2 ^ 60) ≤ a.v0 + t * (b.v0 - a.v0) := by
    nlinarith [mul_nonneg h1t (sub_nonneg.2 ha0.1), mul_nonneg ht0 (sub_nonneg.2 hb0.1)]
  have hq1u : a.v1 + t * (b.v1 - a.v1) ≤ 2 ^ 60 := by
    nlinarith [mul_nonneg h1t (sub_nonneg.2 ha1.2), mul_nonneg ht0 (sub_nonneg.2 hb1.2)]
  have hq1l : -(2 ^ 60) ≤ a.v1 + t * (b.v1 - a.v1) := by
    nlinarith [mul_nonneg h1t (sub_nonneg.2 ha1.1), mul_nonneg ht0 (sub_nonneg.2 hb1.1)]
  simp only [euclid, add_v0, add_v1, scale_v0, scale_v1, sub_v0, sub_v1]
  rw [Real.sqrt_le_iff]
  refine ⟨by positivity, ?_⟩
  have e0 : (p.v0 - (a.v0 + t * (b.v0 - a.v0))) ^ 2 ≤ (2 ^ 61) ^ 2 := by
    apply sq_le_sq'
    · linarith
    · linarith
  have e1 : (p.v1 - (a.v1 + t * (b.v1 - a.v1))) ^ 2 ≤ (2 ^ 61) ^ 2 := by
    apply sq_le_sq'
    · linarith
    · linarith
  have : ((2:ℝ) ^ 61) ^ 2 + (2 ^ 61) ^ 2 ≤ (2 ^ 62) ^ 2 := by norm_num
  linarith

/-- Inside the range of `float` the distance of a non-degenerate segment is
finite and at most `2^62`. -/
theorem distanceToLine_le_of_bounded {p a b : Vec2f ℝ} (hp : bounded p) (ha : bounded a)
    (hb : bounded b) (hab : a ≠ b) :
    ∃ d, distanceToLine Real.sqrt p a b = some d ∧ d ≤ 2 ^ 62 :=
  ⟨_, distanceToLine_eq p a b hab, euclid_le_of_bounded hp ha hb clamp_mem.1 clamp_mem.2⟩

/-- The bound `2^62` is below `FLT_MAX`. -/
theorem two_pow_lt_FLT_MAX : (2 : ℝ) ^ 62 < FLT_MAX := by
  simp only [FLT_MAX]
  norm_num

/-- With an empty segment list `solvePoisson` makes all its steps: 6144 calls
of `rand()`, 2048 calls of `f` and 128 calls of `g`. -/
theorem solvePoissonCalls_nil (m : CMath ℝ) (RAND_MAX : ℕ) (rand : ℕ → ℕ) (x0 : Vec2f ℝ)
    (f g : Vec2f ℝ → ℝ) :
    (solvePoissonCalls m RAND_MAX rand x0 [] f g).2.1 = 6144 ∧
    (solvePoissonCalls m RAND_MAX rand x0 [] f g).2.2.source = 2048 ∧
    (solvePoissonCalls m RAND_MAX rand x0 [] f g).2.2.boundary = 128 := by
  obtain ⟨h1, h2, _, _, h5⟩ := walksLoopCalls_start m RAND_MAX rand x0 [] f g numWalks
  have hn : numWalks = 128 := rfl
  have hd : (walksLoop m RAND_MAX rand x0 [] f g numWalks (some 0, 0)).2 = 6144 := by
    rw [walksLoop_eq, walkStart_nil]
    simp [numWalks]
  rw [solvePoissonCalls_draws, solvePoissonCalls_calls, h1]
  refine ⟨hd, ?_, h2.trans hn⟩
  rw [hd] at h5
  omega

/-! ### The walk from `(eps, 1/2)` in the unit square -/

/-- When every walk has the same finite value `c`, the estimate is `c`; the
walks are those that start at the calls `walkStart .. 0 i`. -/
theorem solvePoisson_of_walkValues (m : CMath F) (RAND_MAX : ℕ) (rand : ℕ → ℕ) (x0 : Vec2f F)
    (segs : List (Seg F)) (f g : Vec2f F → F) (c : F)
    (h : ∀ i, walkValue m RAND_MAX rand segs f g x0 (walkStart m RAND_MAX rand segs x0 0 i) =
      some c) :
    solvePoisson m RAND_MAX rand x0 segs f g = some c := by
  rw [solvePoisson_walkAverage, walkAverage, sumTerms_const _ c]
  · simp only [List.length_map, List.length_range, Option.map_some']
    congr 1
    push_cast
    ring
  · intro t ht
    obtain ⟨i, _, rfl⟩ := List.mem_map.mp ht
    exact h _

/-- Every walk starts at a call of `rand()` whose index is a multiple of 3. -/
theorem walkStart_mod_three (m : CMath F) (RAND_MAX : ℕ) (rand : ℕ → ℕ) (segs : List (Seg F))
    (x0 : Vec2f F) (i : ℕ) : walkStart m RAND_MAX rand segs x0 0 i % 3 = 0 := by
  induction i with
  | zero => rfl
  | succ i ih =>
    rw [walkStart]
    omega

/-- On the middle line of the unit square the radius is the distance to the
nearer of the two vertical sides, capped at `1/2`. -/
theorem maxBallRadius_unitSquare_mid (a : ℝ) (h0 : 0 ≤ a) (h1 : a ≤ 1) :
    maxBallRadius Real.sqrt (⟨a, 1 / 2⟩ : Vec2f ℝ) unitSquare = min (min a (1 - a)) (1 / 2) := by
  have h := maxBallRadius_mainSegs 1 1 (by decide) (by decide) (by decide) (⟨a, 1 / 2⟩ : Vec2f ℝ)
    (by simp only [inRect]; norm_num; exact ⟨h0, h1⟩)
  rw [mainSegs_one] at h
  rw [h]
  norm_num

/-- A step whose radius draw is `RAND_MAX` and whose two angle draws are 0
(so `r = R`, `alpha = theta = 0`) moves the position to the right by `R`. -/
theorem stepNext_right (x : Vec2f ℝ) (n : ℕ) (hn : n % 3 = 0) (segs : List (Seg ℝ)) :
    stepNext ⟨Real.sqrt, Real.log, Real.cos, Real.sin⟩ 32767
      (fun i => if i % 3 = 0 then 32767 else 0) segs x n =
      ⟨x.v0 + maxBallRadius Real.sqrt x segs, x.v1⟩ := by
  have h2 : ¬ (n + 2) % 3 = 0 := by omega
  simp only [stepNext, stepR, if_neg h2, random, Vec2f.ext_iff2, add_v0, add_v1, scale_v0,
    scale_v1]
  simp

/-- One step of the walk along the middle line of the unit square. -/
theorem walk_mid_step (k j n : ℕ) (a : ℝ) (hn : n % 3 = 0) (h0 : 0 ≤ a) (h1 : a ≤ 1)
    (hR : ¬ min (min a (1 - a)) (1 / 2) < eps) :
    walkLen ⟨Real.sqrt, Real.log, Real.cos, Real.sin⟩ 32767
        (fun i => if i % 3 = 0 then 32767 else 0) unitSquare (k + 1) ⟨a, 1 / 2⟩ n =
      walkLen ⟨Real.sqrt, Real.log, Real.cos, Real.sin⟩ 32767
        (fun i => if i % 3 = 0 then 32767 else 0) unitSquare k
        ⟨a + min (min a (1 - a)) (1 / 2), 1 / 2⟩ (n + 3) + 1 ∧
    walkPos ⟨Real.sqrt, Real.log, Real.cos, Real.sin⟩ 32767
        (fun i => if i % 3 = 0 then 32767 else 0) unitSquare ⟨a, 1 / 2⟩ n (j + 1) =
      walkPos ⟨Real.sqrt, Real.log, Real.cos, Real.sin⟩ 32767
        (fun i => if i % 3 = 0 then 32767 else 0) unitSquare
        ⟨a + min (min a (1 - a)) (1 / 2), 1 / 2⟩ (n + 3) j := by
  have hs : stepR ⟨Real.sqrt, Real.log, Real.cos, Real.sin⟩ unitSquare (⟨a, 1 / 2⟩ : Vec2f ℝ) =
      min (min a (1 - a)) (1 / 2) := maxBallRadius_unitSquare_mid a h0 h1
  have hnext := stepNext_right (⟨a, 1 / 2⟩ : Vec2f ℝ) n hn unitSquare
  rw [maxBallRadius_unitSquare_mid a h0 h1] at hnext
  constructor
  · rw [walkLen_succ, hs, if_neg hR, hnext]
  · rw [walkPos_shift, hnext]

/-- The walk that starts at `(eps, 1/2)` in the unit square, with the radius
draws `RAND_MAX` and the angle draws 0, doubles its first coordinate six times
(`R = x[0]`), steps from `64*eps` to the right wall (`R = 1 - 64*eps`) and
stops there: it makes 7 steps and ends at `(1, 1/2)`. -/
theorem walk_from_eps (n : ℕ) (hn : n % 3 = 0) :
    walkLen ⟨Real.sqrt, Real.log, Real.cos, Real.sin⟩ 32767
        (fun i => if i % 3 = 0 then 32767 else 0) unitSquare maxSteps ⟨eps, 1 / 2⟩ n = 7 ∧
    walkPos ⟨Real.sqrt, Real.log, Real.cos, Real.sin⟩ 32767
        (fun i => if i % 3 = 0 then 32767 else 0) unitSquare ⟨eps, 1 / 2⟩ n 7 =
      (⟨1, 1 / 2⟩ : Vec2f ℝ) := by
  have e0 : (eps : ℝ) + min (min eps (1 - eps)) (1 / 2) = 5368709 / 268435456 := by
    norm_num [eps, min_def]
  have e1 : (5368709 / 268435456 : ℝ) + min (min (5368709 / 268435456)
      (1 - 5368709 / 268435456)) (1 / 2) = 5368709 / 134217728 := by norm_num [min_def]
  have e2 : (5368709 / 134217728 : ℝ) + min (min (5368709 / 134217728)
      (1 - 5368709 / 134217728)) (1 / 2) = 5368709 / 67108864 := by norm_num [min_def]
  have e3 : (5368709 / 67108864 : ℝ) + min (min (5368709 / 67108864)
      (1 - 5368709 / 67108864)) (1 / 2) = 5368709 / 33554432 := by norm_num [min_def]
  have e4 : (5368709 / 33554432 : ℝ) + min (min (5368709 / 33554432)
      (1 - 5368709 / 33554432)) (1 / 2) = 5368709 / 16777216 := by norm_num [min_def]
  have e5 : (5368709 / 16777216 : ℝ) + min (min (5368709 / 16777216)
      (1 - 5368709 / 16777216)) (1 / 2) = 5368709 / 8388608 := by norm_num [min_def]
  have e6 : (5368709 / 8388608 : ℝ) + min (min (5368709 / 8388608)
      (1 - 5368709 / 8388608)) (1 / 2) = 1 := by norm_num [min_def]
  have s0 := fun j => walk_mid_step 15 j n eps hn (by norm_num [eps]) (by norm_num [eps])
    (by norm_num [eps, min_def])
  have s1 := fun j => walk_mid_step 14 j (n + 3) (5368709 / 268435456) (by omega) (by norm_num)
    (by norm_num) (by norm_num [eps, min_def])
  have s2 := fun j => walk_mid_step 13 j (n + 3 + 3) (5368709 / 134217728) (by omega)
    (by norm_num) (by norm_num) (by norm_num [eps, min_def])
  have s3 := fun j => walk_mid_step 12 j (n + 3 + 3 + 3) (5368709 / 67108864) (by omega)
    (by norm_num) (by norm_num) (by norm_num [eps, min_def])
  have s4 := fun j => walk_mid_step 11 j (n + 3 + 3 + 3 + 3) (5368709 / 33554432) (by omega)
    (by norm_num) (by norm_num) (by norm_num [eps, min_def])
  have s5 := fun j => walk_mid_step 10 j (n + 3 + 3 + 3 + 3 + 3) (5368709 / 16777216) (by omega)
    (by norm_num) (by norm_num) (by norm_num [eps, min_def])
  have s6 := fun j => walk_mid_step 9 j (n + 3 + 3 + 3 + 3 + 3 + 3) (5368709 / 8388608)
    (by omega) (by norm_num) (by norm_num) (by norm_num [eps, min_def])
  rw [e0] at s0
  rw [e1] at s1
  rw [e2] at s2
  rw [e3] at s3
  rw [e4] at s4
  rw [e5] at s5
  rw [e6] at s6
  have hend : maxBallRadius Real.sqrt (⟨1, 1 / 2⟩ : Vec2f ℝ) unitSquare < eps := by
    rw [maxBallRadius_unitSquare_mid 1 (by norm_num) (by norm_num)]
    norm_num [eps, min_def]
  constructor
  · show walkLen _ 32767 _ unitSquare (15 + 1) _ n = 7
    rw [(s0 0).1, (s1 0).1, (s2 0).1, (s3 0).1, (s4 0).1, (s5 0).1, (s6 0).1,
      walkLen_of_small _ _ _ _ _ _ _ hend]
  · rw [(s0 6).2, (s1 5).2, (s2 4).2, (s3 3).2, (s4 2).2, (s5 1).2, (s6 0).2]
    rfl

/-- With the draws of `walk_from_eps`, a zero source field and `g(x) = x[0]`,
`solvePoisson` started at `(eps, 1/2)` in the unit square makes 7 steps per
walk: it returns 1 after 2688 calls of `rand()`, 896 calls of `f` and 128
calls of `g`. -/
theorem solvePoisson_from_eps :
    solvePoisson ⟨Real.sqrt, Real.log, Real.cos, Real.sin⟩ 32767
      (fun i => if i % 3 = 0 then 32767 else 0) (⟨eps, 1 / 2⟩ : Vec2f ℝ) unitSquare
      (fun _ => 0) (fun x => x.v0) = some 1 ∧
    (solvePoissonCalls ⟨Real.sqrt, Real.log, Real.cos, Real.sin⟩ 32767
      (fun i => if i % 3 = 0 then 32767 else 0) (⟨eps, 1 / 2⟩ : Vec2f ℝ) unitSquare
      (fun _ => 0) (fun x => x.v0)).1 = some 1 ∧
    (solvePoissonCalls ⟨Real.sqrt, Real.log, Real.cos, Real.sin⟩ 32767
      (fun i => if i % 3 = 0 then 32767 else 0) (⟨eps, 1 / 2⟩ : Vec2f ℝ) unitSquare
      (fun _ => 0) (fun x => x.v0)).2.1 = 2688 ∧
    (solvePoissonCalls ⟨Real.sqrt, Real.log, Real.cos, Real.sin⟩ 32767
      (fun i => if i % 3 = 0 then 32767 else 0) (⟨eps, 1 / 2⟩ : Vec2f ℝ) unitSquare
      (fun _ => 0) (fun x => x.v0)).2.2.source = 896 ∧
    (solvePoissonCalls ⟨Real.sqrt, Real.log, Real.cos, Real.sin⟩ 32767
      (fun i => if i % 3 = 0 then 32767 else 0) (⟨eps, 1 / 2⟩ : Vec2f ℝ) unitSquare
      (fun _ => 0) (fun x => x.v0)).2.2.boundary = 128 := by
  obtain ⟨h1, h2, _, _, h5⟩ := walksLoopCalls_start ⟨Real.sqrt, Real.log, Real.cos, Real.sin⟩
    32767 (fun i => if i % 3 = 0 then 32767 else 0) (⟨eps, 1 / 2⟩ : Vec2f ℝ) unitSquare
    (fun _ => 0) (fun x => x.v0) numWalks
  have hn : numWalks = 128 := rfl
  have hstart : ∀ i, walkStart ⟨Real.sqrt, Real.log, Real.cos, Real.sin⟩ 32767
      (fun i => if i % 3 = 0 then 32767 else 0) unitSquare (⟨eps, 1 / 2⟩ : Vec2f ℝ) 0 i =
      21 * i := by
    intro i
    induction i with
    | zero => rfl
    | succ i ih =>
      rw [walkStart, ih, (walk_from_eps (21 * i) (by omega)).1]
      ring
  have hval : ∀ n, n % 3 = 0 → walkValue ⟨Real.sqrt, Real.log, Real.cos, Real.sin⟩ 32767
      (fun i => if i % 3 = 0 then 32767 else 0) unitSquare (fun _ => 0) (fun x => x.v0)
      (⟨eps, 1 / 2⟩ : Vec2f ℝ) n = some 1 := by
    intro n hn3
    rw [walkValue_zero_source 32767 _ unitSquare (fun x => x.v0) _ n (by norm_num)
      (fun j _ => by
        have : (n + 3 * j) % 3 = 0 := by omega
        simp [this]),
      (walk_from_eps n hn3).1, (walk_from_eps n hn3).2]
  have hsol : solvePoisson ⟨Real.sqrt, Real.log, Real.cos, Real.sin⟩ 32767
      (fun i => if i % 3 = 0 then 32767 else 0) (⟨eps, 1 / 2⟩ : Vec2f ℝ) unitSquare
      (fun _ => 0) (fun x => x.v0) = some 1 :=
    solvePoisson_of_walkValues _ _ _ _ _ _ _ 1 (fun i => hval _ (walkStart_mod_three _ _ _ _ _ i))
  have hd : (walksLoop ⟨Real.sqrt, Real.log, Real.cos, Real.sin⟩ 32767
      (fun i => if i % 3 = 0 then 32767 else 0) (⟨eps, 1 / 2⟩ : Vec2f ℝ) unitSquare
      (fun _ => 0) (fun x => x.v0) numWalks (some 0, 0)).2 = 2688 := by
    rw [walksLoop_eq, hstart]
    simp [numWalks]
  have hsrc : (solvePoissonCalls ⟨Real.sqrt, Real.log, Real.cos, Real.sin⟩ 32767
      (fun i => if i % 3 = 0 then 32767 else 0) (⟨eps, 1 / 2⟩ : Vec2f ℝ) unitSquare
      (fun _ => 0) (fun x => x.v0)).2.2.source = 896 := by
    rw [solvePoissonCalls_calls]
    rw [hd] at h5
    omega
  refine ⟨hsol, ?_, ?_, hsrc, ?_⟩
  · rw [solvePoissonCalls_value, h1]
    exact hsol
  · rw [solvePoissonCalls_draws, h1]
    exact hd
  · rw [solvePoissonCalls_calls]
    exact h2.trans hn

/-- The radius inside the rectangle of `main` is at most `2^30`. -/
theorem maxBallRadius_mainSegs_le (w h : ℤ) (hw : 0 < w) (hh : 0 < h) (hwM : w ≤ INT_MAX)
    (x : Vec2f ℝ) (hx : inRect (w : ℝ) (h : ℝ) x) :
    maxBallRadius Real.sqrt x (mainSegs w h) ≤ 2 ^ 30 := by
  rw [maxBallRadius_mainSegs w h hw hh hwM x hx]
  have hwR : (w : ℝ) ≤ 2147483647 := by
    have : (w : ℝ) ≤ ((INT_MAX : ℤ) : ℝ) := Int.cast_le.mpr hwM
    simpa [INT_MAX] using this
  have h1 : min (min x.v0 ((w : ℝ) - x.v0)) (min x.v1 ((h : ℝ) - x.v1)) ≤
      min x.v0 ((w : ℝ) - x.v0) := min_le_left _ _
  have h2 : min x.v0 ((w : ℝ) - x.v0) ≤ x.v0 := min_le_left _ _
  have h3 : min x.v0 ((w : ℝ) - x.v0) ≤ (w : ℝ) - x.v0 := min_le_right _ _
  have h4 : (2 : ℝ) ^ 30 = 1073741824 := by norm_num
  linarith

/-- Inside the range of `float`, as soon as the list has a non-degenerate
segment the radius is the distance of a non-degenerate segment, and it is at
most `2^62`. -/
theorem maxBallRadius_attained (x : Vec2f ℝ) (segs : List (Seg ℝ)) (hx : bounded x)
    (hs : ∀ s ∈ segs, bounded s.a ∧ bounded s.b) (s0 : Seg ℝ) (hs0 : s0 ∈ segs)
    (hne : s0.a ≠ s0.b) :
    (∃ s ∈ segs, s.a ≠ s.b ∧
      distanceToLine Real.sqrt x s.a s.b = some (maxBallRadius Real.sqrt x segs)) ∧
    maxBallRadius Real.sqrt x segs ≤ 2 ^ 62 := by
  obtain ⟨_, h2, h3⟩ := foldl_stdMin x segs FLT_MAX
  obtain ⟨d, hd, hle⟩ := distanceToLine_le_of_bounded hx (hs s0 hs0).1 (hs s0 hs0).2 hne
  have hR : maxBallRadius Real.sqrt x segs ≤ d := h2 s0 hs0 d hd
  refine ⟨?_, le_trans hR hle⟩
  rcases h3 with h3 | ⟨s, hs1, hs2⟩
  · exfalso
    have h3' : maxBallRadius Real.sqrt x segs = FLT_MAX := h3
    rw [h3'] at hR
    have := two_pow_lt_FLT_MAX
    linarith
  · exact ⟨s, hs1, (distanceToLine_isSome_iff x s.a s.b).mp ⟨_, hs2⟩, hs2⟩

/-- The radius at an end point of a non-degenerate segment of the list is 0. -/
theorem maxBallRadius_endpoint (segs : List (Seg ℝ)) (S : Seg ℝ) (hS : S ∈ segs)
    (hab : S.a ≠ S.b) :
    maxBallRadius Real.sqrt S.a segs = 0 ∧ maxBallRadius Real.sqrt S.b segs = 0 := by
  have ha : distanceToLine Real.sqrt S.a S.a S.b = some 0 :=
    distanceToLine_on_segment S.a S.a S.b hab 0 (le_refl 0) zero_le_one
      (by rw [Vec2f.ext_iff2]; simp)
  have hb : distanceToLine Real.sqrt S.b S.a S.b = some 0 :=
    distanceToLine_on_segment S.b S.a S.b hab 1 zero_le_one (le_refl 1)
      (by rw [Vec2f.ext_iff2]; simp)
  exact ⟨le_antisymm ((foldl_stdMin S.a segs FLT_MAX).2.1 S hS 0 ha) (maxBallRadius_nonneg _ _),
    le_antisymm ((foldl_stdMin S.b segs FLT_MAX).2.1 S hS 0 hb) (maxBallRadius_nonneg _ _)⟩

/-! ### The kernel -/

/-- The value of `G` for positive arguments. -/
theorem G_eq_of_pos (R r : ℝ) (hR : 0 < R) (hr : 0 < r) :
    G Real.log R r = some ((1 / (2 * M_PI)) * Real.log (R / r)) := by
  simp only [G, fdiv, if_neg (ne_of_gt hr), flog, if_pos (div_pos hR hr)]

/-- The factor `1/(2*M_PI)` of `G` lies between 0 and `1/6`. -/
theorem G_factor_range : (0 : ℝ) < 1 / (2 * M_PI) ∧ (1 : ℝ) / (2 * M_PI) ≤ 1 / 6 := by
  have h3 : (3 : ℝ) ≤ M_PI := by
    simp only [M_PI]
    norm_num
  have hpos : (0 : ℝ) < 2 * M_PI := by linarith
  refine ⟨by positivity, ?_⟩
  rw [div_le_div_iff₀ hpos (by norm_num)]
  linarith

/-- The logarithm of a quotient of at most `2^120` is below 84. -/
theorem log_le_of_le_two_pow (q : ℝ) (hq0 : 0 < q) (hq : q ≤ 2 ^ 120) : Real.log q ≤ 84 := by
  have h1 : Real.log q ≤ Real.log (2 ^ 120) := Real.log_le_log hq0 hq
  have h2 : Real.log ((2 : ℝ) ^ 120) = 120 * Real.log 2 := by
    rw [Real.log_pow]
    norm_num
  have h3 := Real.log_two_lt_d9
  rw [h2] at h1
  linarith

/-! ### The samples of a walk -/

/-- The loop with recorded samples computes the state of `walkLoop`. -/
theorem walkLoopSamples_fst (m : CMath F) (RAND_MAX : ℕ) (rand : ℕ → ℕ) (segs : List (Seg F))
    (f : Vec2f F → F) (k : ℕ) (s : WalkState F) (l : List (Sample F)) :
    (walkLoopSamples m RAND_MAX rand segs f k s l).1 = walkLoop m RAND_MAX rand segs f k s := by
  induction k generalizing s l with
  | zero => rfl
  | succ k ih =>
    rw [walkLoopSamples, walkLoop]
    by_cases h : maxBallRadius m.sqrt s.x segs < eps
    · simp only [h, if_true]
    · simp only [h, if_false]
      exact ih _ _

/-- Every sample that a walk in the rectangle of `main` records is taken at a
position `x` of the rectangle with `R = maxBallRadius(x, segs) ≥ eps`, from a
draw `u1` of `random(0,1)` in `[0,1]`; its radius is `r = R*sqrt(u1)`, so that
`r^2 = R^2 * u1` and `0 ≤ r ≤ R`, and its point `y` lies at distance `r` from
`x`, in the rectangle. -/
theorem walkLoopSamples_spec (w h : ℤ) (hw : 0 < w) (hh : 0 < h) (hwM : w ≤ INT_MAX)
    (RAND_MAX : ℕ) (rand : ℕ → ℕ) (hM : 0 < RAND_MAX) (hrand : ∀ i, rand i ≤ RAND_MAX)
    (f : Vec2f ℝ → ℝ) (k : ℕ) (s : WalkState ℝ) (l : List (Sample ℝ))
    (hs : inRect (w : ℝ) (h : ℝ) s.x) :
    ∀ e ∈ (walkLoopSamples ⟨Real.sqrt, Real.log, Real.cos, Real.sin⟩ RAND_MAX rand (mainSegs w h)
        f k s l).2, e ∈ l ∨
      (inRect (w : ℝ) (h : ℝ) e.x ∧
        e.R = maxBallRadius Real.sqrt e.x (mainSegs w h) ∧
        ¬ e.R < eps ∧
        (∃ i, e.u1 = random RAND_MAX 0 1 (rand i)) ∧
        0 ≤ e.u1 ∧ e.u1 ≤ 1 ∧
        e.r = e.R * Real.sqrt e.u1 ∧
        e.r ^ 2 = e.R ^ 2 * e.u1 ∧
        0 ≤ e.r ∧ e.r ≤ e.R ∧
        euclid Real.sqrt e.x e.y = e.r ∧
        inRect (w : ℝ) (h : ℝ) e.y) := by
  induction k generalizing s l with
  | zero =>
    intro e he
    exact Or.inl he
  | succ k ih =>
    intro e he
    rw [walkLoopSamples] at he
    by_cases hlt : maxBallRadius Real.sqrt s.x (mainSegs w h) < eps
    · simp only [hlt, if_true] at he
      exact Or.inl he
    · simp only [hlt, if_false] at he
      have hR := maxBallRadius_mainSegs w h hw hh hwM s.x hs
      have hR0 : 0 ≤ maxBallRadius Real.sqrt s.x (mainSegs w h) := by
        rw [hR]
        exact radius_nonneg_mainSegs _ _ _ hs
      have hnext : inRect (w : ℝ) (h : ℝ)
          (s.x + maxBallRadius Real.sqrt s.x (mainSegs w h) *
            (⟨Real.cos (random RAND_MAX 0 (2 * M_PI) (rand (s.calls + 2))),
              Real.sin (random RAND_MAX 0 (2 * M_PI) (rand (s.calls + 2)))⟩ : Vec2f ℝ)) :=
        inRect_offset _ _ _ _ _ _ _ hR hR0 (le_refl _) (Real.neg_one_le_cos _)
          (Real.cos_le_one _) (Real.neg_one_le_sin _) (Real.sin_le_one _)
      rcases ih _ _ hnext e he with hmem | hQ
      · rcases List.mem_append.mp hmem with hmem | hmem
        · exact Or.inl hmem
        · right
          rw [List.mem_singleton] at hmem
          subst hmem
          obtain ⟨hu0, hu1⟩ := random_unit_range RAND_MAX (rand s.calls) hM (hrand _)
          have hs1 : Real.sqrt (random RAND_MAX 0 1 (rand s.calls)) ≤ 1 := by
            rw [Real.sqrt_le_left (by norm_num)]
            simpa using hu1
          have hr0 : 0 ≤ maxBallRadius Real.sqrt s.x (mainSegs w h) *
              Real.sqrt (random RAND_MAX 0 1 (rand s.calls)) :=
            mul_nonneg hR0 (Real.sqrt_nonneg _)
          have hr1 : maxBallRadius Real.sqrt s.x (mainSegs w h) *
              Real.sqrt (random RAND_MAX 0 1 (rand s.calls)) ≤
              maxBallRadius Real.sqrt s.x (mainSegs w h) := by
            calc _ ≤ maxBallRadius Real.sqrt s.x (mainSegs w h) * 1 :=
                  mul_le_mul_of_nonneg_left hs1 hR0
              _ = _ := mul_one _
          refine ⟨hs, rfl, hlt, ⟨_, rfl⟩, hu0, hu1, rfl, ?_, hr0, hr1, ?_, ?_⟩
          · show (maxBallRadius Real.sqrt s.x (mainSegs w h) *
                Real.sqrt (random RAND_MAX 0 1 (rand s.calls))) ^ 2 = _
            rw [mul_pow, Real.sq_sqrt hu0]
          · exact euclid_offset s.x _ _ hr0
          · exact inRect_offset _ _ _ _ _ _ _ hR hr0 hr1 (Real.neg_one_le_cos _)
              (Real.cos_le_one _) (Real.neg_one_le_sin _) (Real.sin_le_one _)
      · exact Or.inr hQ

/-! ### The order of `float` -/

theorem Single.lt_irrefl (x : Single) : Single.lt x x = false := by
  rcases x with ⟨s, m, e⟩ | s | _
  · cases s <;> simp [Single.lt]
  · cases s <;> simp [Single.lt]
  · rfl

theorem Single.lt_trans {x y z : Single} (h1 : Single.lt x y = true)
    (h2 : Single.lt y z = true) : Single.lt x z = true := by
  rcases x with ⟨s1, m1, e1⟩ | s1 | _ <;> rcases y with ⟨s2, m2, e2⟩ | s2 | _ <;>
    rcases z with ⟨s3, m3, e3⟩ | s3 | _ <;>
    (try cases s1) <;> (try cases s2) <;> (try cases s3) <;>
    simp only [Single.lt, decide_eq_true_eq, Bool.not_true, Bool.not_false, Bool.and_true,
      Bool.and_false, Bool.false_eq_true, Bool.true_and, Bool.false_and] at h1 h2 ⊢ <;>
    omega

theorem Single.le_iff_not_lt {x y : Single} (hx : x ≠ Single.nan) (hy : y ≠ Single.nan) :
    Single.le x y = true ↔ Single.lt y x = false := by
  rcases x with ⟨s1, m1, e1⟩ | s1 | _ <;> rcases y with ⟨s2, m2, e2⟩ | s2 | _ <;>
    simp [Single.le] at hx hy ⊢

/-- The value of `G(R, r)` at a sampled radius `r = R*sqrt(u1)`, `u1` a draw
`rand()/RAND_MAX` with `rand() ≤ RAND_MAX ≤ 2^31`: when it is finite it lies
between 0 and 2. -/
theorem G_sample_bound (RAND_MAX k : ℕ) (R v : ℝ) (hRM : RAND_MAX ≤ 2147483647)
    (hk : k ≤ RAND_MAX) (hR : 0 < R)
    (hv : G Real.log R (R * Real.sqrt (random RAND_MAX 0 1 k)) = some v) :
    0 ≤ v ∧ v ≤ 2 := by
  have hu : random RAND_MAX (0 : ℝ) 1 k = (k : ℝ) / (RAND_MAX : ℝ) := by simp [random]
  rw [hu] at hv
  by_cases hk0 : k = 0
  · subst hk0
    simp [G, fdiv] at hv
  have hkpos : 0 < k := Nat.pos_of_ne_zero hk0
  have hMpos : 0 < RAND_MAX := lt_of_lt_of_le hkpos hk
  have hk' : (0 : ℝ) < (k : ℝ) := Nat.cast_pos.mpr hkpos
  have hM' : (0 : ℝ) < (RAND_MAX : ℝ) := Nat.cast_pos.mpr hMpos
  have hupos : (0 : ℝ) < (k : ℝ) / (RAND_MAX : ℝ) := div_pos hk' hM'
  have hu1 : (k : ℝ) / (RAND_MAX : ℝ) ≤ 1 := by
    rw [div_le_one hM']
    exact Nat.cast_le.mpr hk
  have hspos : 0 < Real.sqrt ((k : ℝ) / (RAND_MAX : ℝ)) := Real.sqrt_pos.mpr hupos
  have hr : 0 < R * Real.sqrt ((k : ℝ) / (RAND_MAX : ℝ)) := mul_pos hR hspos
  rw [G_eq_of_pos R _ hR hr] at hv
  have hq : R / (R * Real.sqrt ((k : ℝ) / (RAND_MAX : ℝ))) =
      (Real.sqrt ((k : ℝ) / (RAND_MAX : ℝ)))⁻¹ := by
    rw [div_mul_eq_div_div, div_self (ne_of_gt hR), one_div]
  have hlog : Real.log (R / (R * Real.sqrt ((k : ℝ) / (RAND_MAX : ℝ)))) =
      -(Real.log ((k : ℝ) / (RAND_MAX : ℝ)) / 2) := by
    rw [hq, Real.log_inv, Real.log_sqrt (le_of_lt hupos)]
  have hl0 : Real.log ((k : ℝ) / (RAND_MAX : ℝ)) ≤ 0 := Real.log_nonpos (le_of_lt hupos) hu1
  have hl1 : -22 ≤ Real.log ((k : ℝ) / (RAND_MAX : ℝ)) := by
    have h1 : (1 : ℝ) / 2 ^ 31 ≤ (k : ℝ) / (RAND_MAX : ℝ) := by
      rw [div_le_div_iff₀ (by positivity) hM']
      have hk1 : (1 : ℝ) ≤ (k : ℝ) := by exact_mod_cast hkpos
      have hM2 : (RAND_MAX : ℝ) ≤ 2147483647 := by exact_mod_cast hRM
      nlinarith
    have h2 : Real.log (1 / 2 ^ 31) ≤ Real.log ((k : ℝ) / (RAND_MAX : ℝ)) :=
      Real.log_le_log (by positivity) h1
    have h3 : Real.log ((1 : ℝ) / 2 ^ 31) = -(31 * Real.log 2) := by
      rw [one_div, Real.log_inv, Real.log_pow]
      norm_num
    have h4 := Real.log_two_lt_d9
    rw [h3] at h2
    linarith
  obtain ⟨hc, hc6⟩ := G_factor_range
  have hv' : v = 1 / (2 * M_PI) * -(Real.log ((k : ℝ) / (RAND_MAX : ℝ)) / 2) := by
    rw [← hlog]
    exact (Option.some.inj hv).symm
  have hn : 0 ≤ -(Real.log ((k : ℝ) / (RAND_MAX : ℝ)) / 2) := by linarith
  have hn11 : -(Real.log ((k : ℝ) / (RAND_MAX : ℝ)) / 2) ≤ 11 := by linarith
  rw [hv']
  refine ⟨mul_nonneg (le_of_lt hc) hn, ?_⟩
  calc 1 / (2 * M_PI) * -(Real.log ((k : ℝ) / (RAND_MAX : ℝ)) / 2) ≤ 1 / 6 * 11 :=
        mul_le_mul hc6 hn11 hn (by norm_num)
    _ ≤ 2 := by norm_num

/-- In the rectangle of `main`, with a source field of magnitude at most
`2^32` and draws `rand() ≤ RAND_MAX ≤ 2^31`, every finite term
`(M_PI*R^2) * f(y) * G(R, r)` of a step has a magnitude of at most `2^95`. -/
theorem stepTerm_bound (w h : ℤ) (hw : 0 < w) (hh : 0 < h) (hwM : w ≤ INT_MAX)
    (RAND_MAX : ℕ) (hRM : RAND_MAX ≤ 2147483647) (rand : ℕ → ℕ) (hrand : ∀ i, rand i ≤ RAND_MAX)
    (f : Vec2f ℝ → ℝ) (hf : ∀ y, |f y| ≤ 2 ^ 32) (x : Vec2f ℝ)
    (hx : inRect (w : ℝ) (h : ℝ) x) (i : ℕ) (v : ℝ)
    (hv : stepTerm ⟨Real.sqrt, Real.log, Real.cos, Real.sin⟩ RAND_MAX rand (mainSegs w h) f x i =
      some v) : |v| ≤ 2 ^ 95 := by
  simp only [stepTerm, stepr, stepR] at hv
  have hR := maxBallRadius_mainSegs w h hw hh hwM x hx
  have hR0 : 0 ≤ maxBallRadius Real.sqrt x (mainSegs w h) := by
    rw [hR]
    exact radius_nonneg_mainSegs _ _ _ hx
  have hR30 := maxBallRadius_mainSegs_le w h hw hh hwM x hx
  cases hG : G Real.log (maxBallRadius Real.sqrt x (mainSegs w h))
      (maxBallRadius Real.sqrt x (mainSegs w h) * Real.sqrt (random RAND_MAX 0 1 (rand i))) with
  | none =>
    rw [hG] at hv
    exact Option.noConfusion hv
  | some k =>
    rw [hG] at hv
    have hRpos : 0 < maxBallRadius Real.sqrt x (mainSegs w h) := by
      rcases lt_or_eq_of_le hR0 with hlt | heq
      · exact hlt
      · exfalso
        rw [← heq] at hG
        simp [G, fdiv] at hG
    obtain ⟨hk0, hk2⟩ := G_sample_bound RAND_MAX (rand i) _ k hRM (hrand i) hRpos hG
    have hv' := Option.some.inj hv
    rw [← hv']
    have hpi : (M_PI : ℝ) ≤ 4 := by
      simp only [M_PI]
      norm_num
    have hpi0 := M_PI_pos
    have hA : 0 ≤ M_PI * maxBallRadius Real.sqrt x (mainSegs w h) ^ 2 := by positivity
    have hA2 : M_PI * maxBallRadius Real.sqrt x (mainSegs w h) ^ 2 ≤ 4 * (2 ^ 30) ^ 2 := by
      have hsq : maxBallRadius Real.sqrt x (mainSegs w h) ^ 2 ≤ (2 ^ 30) ^ 2 :=
        pow_le_pow_left₀ hR0 hR30 2
      exact mul_le_mul hpi hsq (sq_nonneg _) (by norm_num)
    rw [abs_mul, abs_mul, abs_of_nonneg hA, abs_of_nonneg hk0]
    have h1 : M_PI * maxBallRadius Real.sqrt x (mainSegs w h) ^ 2 *
        |f (stepY ⟨Real.sqrt, Real.log, Real.cos, Real.sin⟩ RAND_MAX rand (mainSegs w h) x i)| ≤
        4 * (2 ^ 30) ^ 2 * 2 ^ 32 :=
      mul_le_mul hA2 (hf _) (abs_nonneg _) (by norm_num)
    calc _ ≤ 4 * (2 ^ 30) ^ 2 * 2 ^ 32 * 2 :=
          mul_le_mul h1 hk2 hk0 (by norm_num)
      _ = 2 ^ 95 := by norm_num

/-- For every segment list: every sample a walk records has the radius
`R = maxBallRadius(x, segs)`, which is not below `eps`, a draw `u1` of
`random(0,1)` in `[0,1]`, the sampled radius `r = R*sqrt(u1)` with
`r^2 = R^2 * u1` and `0 ≤ r ≤ R`, and the point `y = x + r*(cos alpha, sin alpha)`
for a draw `alpha` of `random(0, 2*M_PI)`. -/
theorem walkLoopSamples_radius (RAND_MAX : ℕ) (rand : ℕ → ℕ) (hM : 0 < RAND_MAX)
    (hrand : ∀ i, rand i ≤ RAND_MAX) (segs : List (Seg ℝ)) (f : Vec2f ℝ → ℝ) (k : ℕ)
    (s : WalkState ℝ) (l : List (Sample ℝ)) :
    ∀ e ∈ (walkLoopSamples ⟨Real.sqrt, Real.log, Real.cos, Real.sin⟩ RAND_MAX rand segs
        f k s l).2, e ∈ l ∨
      (e.R = maxBallRadius Real.sqrt e.x segs ∧
        ¬ e.R < eps ∧
        (∃ i, e.u1 = random RAND_MAX 0 1 (rand i)) ∧
        0 ≤ e.u1 ∧ e.u1 ≤ 1 ∧
        e.r = e.R * Real.sqrt e.u1 ∧
        e.r ^ 2 = e.R ^ 2 * e.u1 ∧
        0 ≤ e.r ∧ e.r ≤ e.R ∧
        ∃ i, e.y = e.x + e.r * (⟨Real.cos (random RAND_MAX 0 (2 * M_PI) (rand i)),
          Real.sin (random RAND_MAX 0 (2 * M_PI) (rand i))⟩ : Vec2f ℝ)) := by
  induction k generalizing s l with
  | zero =>
    intro e he
    exact Or.inl he
  | succ k ih =>
    intro e he
    rw [walkLoopSamples] at he
    by_cases hlt : maxBallRadius Real.sqrt s.x segs < eps
    · simp only [hlt, if_true] at he
      exact Or.inl he
    · simp only [hlt, if_false] at he
      have hR0 : 0 ≤ maxBallRadius Real.sqrt s.x segs := maxBallRadius_nonneg s.x segs
      rcases ih _ _ e he with hmem | hQ
      · rcases List.mem_append.mp hmem with hmem | hmem
        · exact Or.inl hmem
        · right
          rw [List.mem_singleton] at hmem
          subst hmem
          obtain ⟨hu0, hu1⟩ := random_unit_range RAND_MAX (rand s.calls) hM (hrand _)
          have hs1 : Real.sqrt (random RAND_MAX 0 1 (rand s.calls)) ≤ 1 := by
            rw [Real.sqrt_le_left (by norm_num)]
            simpa using hu1
          have hr0 : 0 ≤ maxBallRadius Real.sqrt s.x segs *
              Real.sqrt (random RAND_MAX 0 1 (rand s.calls)) :=
            mul_nonneg hR0 (Real.sqrt_nonneg _)
          have hr1 : maxBallRadius Real.sqrt s.x segs *
              Real.sqrt (random RAND_MAX 0 1 (rand s.calls)) ≤
              maxBallRadius Real.sqrt s.x segs := by
            calc _ ≤ maxBallRadius Real.sqrt s.x segs * 1 :=
                  mul_le_mul_of_nonneg_left hs1 hR0
              _ = _ := mul_one _
          refine ⟨rfl, hlt, ⟨_, rfl⟩, hu0, hu1, rfl, ?_, hr0, hr1, ⟨_, rfl⟩⟩
          show (maxBallRadius Real.sqrt s.x segs *
              Real.sqrt (random RAND_MAX 0 1 (rand s.calls))) ^ 2 = _
          rw [mul_pow, Real.sq_sqrt hu0]
      · exact Or.inr hQ
/-! ## Claims -/

set_option maxRecDepth 1000000 in
/-- C2 (as stated, refuted). With the single degenerate segment `(0,0)-(0,0)`
the list is not empty, the segment's distance from `(1,0)` is `NaN`, and
`maxBallRadius` returns `FLT_MAX`, which is the distance of no segment.  In
`float` arithmetic the same happens with the non-degenerate segment
`(0,0)-(2^(-80),0)` seen from `(0,1)` (distance `NaN` by underflow) and with
the segment `(0,0)-(1,0)` seen from `(FLT_MAX, FLT_MAX)` (distance `+inf` by
overflow): `maxBallRadius` returns `FLT_MAX`. -/
theorem maxBallRadius_not_min :
    (¬ ∃ s ∈ [(⟨⟨0, 0⟩, ⟨0, 0⟩⟩ : Seg ℝ)],
        distanceToLine Real.sqrt ⟨1, 0⟩ s.a s.b =
          some (maxBallRadius Real.sqrt ⟨1, 0⟩ [(⟨⟨0, 0⟩, ⟨0, 0⟩⟩ : Seg ℝ)])) ∧
    (Single.distanceToLine ⟨Single.ofInt 0, Single.ofInt 1⟩ ⟨Single.ofInt 0, Single.ofInt 0⟩
        ⟨Single.scaled 1 (-80), Single.ofInt 0⟩ = Single.nan ∧
      Single.maxBallRadius ⟨Single.ofInt 0, Single.ofInt 1⟩
        [⟨⟨Single.ofInt 0, Single.ofInt 0⟩, ⟨Single.scaled 1 (-80), Single.ofInt 0⟩⟩] =
          Single.FLT_MAX) ∧
    (Single.distanceToLine ⟨Single.FLT_MAX, Single.FLT_MAX⟩ ⟨Single.ofInt 0, Single.ofInt 0⟩
        ⟨Single.ofInt 1, Single.ofInt 0⟩ = Single.inf false ∧
      Single.maxBallRadius ⟨Single.FLT_MAX, Single.FLT_MAX⟩
        [⟨⟨Single.ofInt 0, Single.ofInt 0⟩, ⟨Single.ofInt 1, Single.ofInt 0⟩⟩] =
          Single.FLT_MAX) := by
  refine ⟨?_, by decide, by decide⟩
  rintro ⟨s, hs, h⟩
  rw [List.mem_singleton] at hs
  subst hs
  rw [distanceToLine_self] at h
  exact Option.noConfusion h

/-- C2 (amended). For a bounded point `x` and a list of segments with bounded
end points, each of them degenerate (`a = b`) or of squared length at least
`2^(-100)`: `maxBallRadius x segs` is the minimum of `FLT_MAX` and of the
distances of the non-degenerate segments.  It is at most `FLT_MAX` and at most
the distance of every non-degenerate segment; the distance of a degenerate
segment is `NaN`, which `std::min` skips; the result is `FLT_MAX` or the
distance of a non-degenerate segment, and it is the distance of a
non-degenerate segment as soon as the list has one. -/
theorem maxBallRadius_min (x : Vec2f ℝ) (segs : List (Seg ℝ)) (hx : bounded x)
    (hs : ∀ s ∈ segs, bounded s.a ∧ bounded s.b ∧
      (s.a = s.b ∨ 1 / 2 ^ 100 ≤ dot (s.b - s.a) (s.b - s.a))) :
    maxBallRadius Real.sqrt x segs ≤ FLT_MAX ∧
    (∀ s ∈ segs, s.a ≠ s.b → ∃ d, distanceToLine Real.sqrt x s.a s.b = some d ∧
      maxBallRadius Real.sqrt x segs ≤ d) ∧
    (∀ s ∈ segs, s.a = s.b → distanceToLine Real.sqrt x s.a s.b = none ∧
      ∀ r : ℝ, stdMin r (distanceToLine Real.sqrt x s.a s.b) = r) ∧
    (maxBallRadius Real.sqrt x segs = FLT_MAX ∨
      ∃ s ∈ segs, s.a ≠ s.b ∧
        distanceToLine Real.sqrt x s.a s.b = some (maxBallRadius Real.sqrt x segs)) ∧
    ((∃ s ∈ segs, s.a ≠ s.b) →
      ∃ s ∈ segs, s.a ≠ s.b ∧
        distanceToLine Real.sqrt x s.a s.b = some (maxBallRadius Real.sqrt x segs)) := by
  obtain ⟨h1, h2, h3⟩ := foldl_stdMin x segs FLT_MAX
  have h3' : maxBallRadius Real.sqrt x segs = FLT_MAX ∨
      ∃ s ∈ segs, s.a ≠ s.b ∧
        distanceToLine Real.sqrt x s.a s.b = some (maxBallRadius Real.sqrt x segs) := by
    rcases h3 with h3 | ⟨s, hs1, hs2⟩
    · exact Or.inl h3
    · exact Or.inr ⟨s, hs1, (distanceToLine_isSome_iff x s.a s.b).mp ⟨_, hs2⟩, hs2⟩
  refine ⟨h1, ?_, ?_, h3', ?_⟩
  · intro s hsm hne
    obtain ⟨d, hd⟩ := (distanceToLine_isSome_iff x s.a s.b).mpr hne
    exact ⟨d, hd, h2 s hsm d hd⟩
  · intro s _ heq
    rw [← heq, distanceToLine_self]
    exact ⟨rfl, fun _ => rfl⟩
  · rintro ⟨s, hsm, hne⟩
    rcases h3' with h3' | h3'
    · exfalso
      obtain ⟨d, hd, hle⟩ := distanceToLine_le_of_bounded hx (hs s hsm).1 (hs s hsm).2.1 hne
      have hR := h2 s hsm d hd
      have hR' : maxBallRadius Real.sqrt x segs ≤ d := hR
      rw [h3'] at hR'
      have := two_pow_lt_FLT_MAX
      linarith
    · exact h3'

/-- The statement of C2 for the list `(0,0)-(0,0)`, `(0,0)-(2,0)` and the
point `(0,1)`. -/
theorem maxBallRadius_min_witness :
    bounded (⟨0, 1⟩ : Vec2f ℝ) ∧
    (∃ s ∈ [(⟨⟨0, 0⟩, ⟨0, 0⟩⟩ : Seg ℝ), ⟨⟨0, 0⟩, ⟨2, 0⟩⟩], s.a ≠ s.b ∧
      distanceToLine Real.sqrt ⟨0, 1⟩ s.a s.b =
        some (maxBallRadius Real.sqrt ⟨0, 1⟩ [(⟨⟨0, 0⟩, ⟨0, 0⟩⟩ : Seg ℝ), ⟨⟨0, 0⟩, ⟨2, 0⟩⟩])) :=
  have hx : bounded (⟨0, 1⟩ : Vec2f ℝ) := by simp only [bounded]; norm_num
  have hs : ∀ s ∈ [(⟨⟨0, 0⟩, ⟨0, 0⟩⟩ : Seg ℝ), ⟨⟨0, 0⟩, ⟨2, 0⟩⟩],
      bounded s.a ∧ bounded s.b ∧ (s.a = s.b ∨ 1 / 2 ^ 100 ≤ dot (s.b - s.a) (s.b - s.a)) := by
    intro s hs
    simp only [List.mem_cons, List.mem_singleton, List.not_mem_nil, or_false] at hs
    rcases hs with rfl | rfl
    · simp only [bounded]
      norm_num
    · simp only [bounded, dot, sub_v0, sub_v1]
      norm_num
  ⟨hx, (maxBallRadius_min ⟨0, 1⟩ _ hx hs).2.2.2.2 ⟨⟨⟨0, 0⟩, ⟨2, 0⟩⟩, by simp, by simp⟩⟩

/-- C3 (as stated, refuted). With an empty segment list `maxBallRadius`
returns the number `FLT_MAX` (in exact and in `float` arithmetic), and
`solvePoisson` (here with `RAND_MAX = 32767`, every `rand()` returning 1,
`f = 0`, `g = 7`, from `(0,0)`) runs to its end: it makes 6144 calls of
`rand()` and 128 calls of `g` and returns the resulting value; nothing is
raised. -/
theorem solvePoisson_empty_returns :
    maxBallRadius Real.sqrt (⟨0, 0⟩ : Vec2f ℝ) [] = FLT_MAX ∧
    Single.maxBallRadius ⟨Single.ofInt 0, Single.ofInt 0⟩ [] = Single.FLT_MAX ∧
    (solvePoissonCalls ⟨Real.sqrt, Real.log, Real.cos, Real.sin⟩ 32767 (fun _ => 1)
      (⟨0, 0⟩ : Vec2f ℝ) [] (fun _ => 0) (fun _ => 7)).2.1 = 6144 ∧
    (solvePoissonCalls ⟨Real.sqrt, Real.log, Real.cos, Real.sin⟩ 32767 (fun _ => 1)
      (⟨0, 0⟩ : Vec2f ℝ) [] (fun _ => 0) (fun _ => 7)).2.2.boundary = 128 :=
  ⟨rfl, rfl, (solvePoissonCalls_nil _ 32767 _ ⟨0, 0⟩ _ _).1,
    (solvePoissonCalls_nil _ 32767 _ ⟨0, 0⟩ _ _).2.2⟩

/-- C3 (amended). The program checks nothing and raises nothing on an empty
segment list: `maxBallRadius x []` is `FLT_MAX` for every `x` (in exact and in
`float` arithmetic), so no walk of `solvePoisson` stops early: each of the 128
walks executes all 16 steps, and `solvePoisson` makes `16 * 128 = 2048` calls of
`f`, `3 * 2048 = 6144` calls of `rand()` and 128 calls of `g` before it returns
its value. -/
theorem solvePoisson_empty_domain (m : CMath ℝ) (RAND_MAX : ℕ) (rand : ℕ → ℕ) (x0 : Vec2f ℝ)
    (f g : Vec2f ℝ → ℝ) :
    (∀ x : Vec2f ℝ, maxBallRadius m.sqrt x [] = FLT_MAX) ∧
    (∀ x : Vec2f Single, Single.maxBallRadius x [] = Single.FLT_MAX) ∧
    (∀ n, walkLen m RAND_MAX rand [] maxSteps x0 n = 16) ∧
    (solvePoissonCalls m RAND_MAX rand x0 [] f g).2.1 = 6144 ∧
    (solvePoissonCalls m RAND_MAX rand x0 [] f g).2.2.source = 2048 ∧
    (solvePoissonCalls m RAND_MAX rand x0 [] f g).2.2.boundary = 128 :=
  ⟨fun _ => rfl, fun _ => rfl, fun n => walkLen_nil m RAND_MAX rand maxSteps x0 n,
    solvePoissonCalls_nil m RAND_MAX rand x0 f g⟩

/-- C4 (as stated, refuted). For the degenerate segment `a = b = (0,0)` and
`p = (1,0)` the program does not return `norm(p - a)`: the result is
non-finite. -/
theorem distanceToLine_degenerate_not_norm :
    distanceToLine Real.sqrt ⟨1, 0⟩ ⟨0, 0⟩ ⟨0, 0⟩ ≠
      some (norm Real.sqrt ((⟨1, 0⟩ : Vec2f ℝ) - ⟨0, 0⟩)) := by
  rw [distanceToLine_self]
  exact fun h => Option.noConfusion h

/-- C4 (amended). For `a = b` the denominator `dot(b-a, b-a)` is zero and is
not guarded: `distanceToLine p a a` is the `NaN` of `0/0` for every `p`, and
the loop of `maxBallRadius` leaves its running minimum unchanged at such a
segment. -/
theorem distanceToLine_degenerate (p a : Vec2f ℝ) :
    dot (a - a) (a - a) = 0 ∧
    distanceToLine Real.sqrt p a a = none ∧
    ∀ (segs : List (Seg ℝ)),
      maxBallRadius Real.sqrt p (segs ++ [⟨a, a⟩]) = maxBallRadius Real.sqrt p segs := by
  refine ⟨by simp [dot], distanceToLine_self p a, ?_⟩
  intro segs
  simp only [maxBallRadius, List.foldl_append, List.foldl_cons, List.foldl_nil,
    distanceToLine_self, stdMin]

/-- C6 (failing input). `random(0,1)` returns 0 when `rand()` returns 0.  At
the centre of the unit square the radius is `R = 1/2 ≥ eps`, so the step is
executed; the sampled radius is `r = R*sqrt(0) = 0`, outside `(0, R]`; the
kernel `G(R, 0)` is not finite, and neither is the value `solvePoisson`
returns. -/
theorem sampled_radius_zero :
    random 32767 (0 : ℝ) 1 0 = 0 ∧
    ¬ maxBallRadius Real.sqrt (⟨1 / 2, 1 / 2⟩ : Vec2f ℝ) unitSquare < eps ∧
    maxBallRadius Real.sqrt (⟨1 / 2, 1 / 2⟩ : Vec2f ℝ) unitSquare *
      Real.sqrt (random 32767 0 1 0) = 0 ∧
    G Real.log (maxBallRadius Real.sqrt (⟨1 / 2, 1 / 2⟩ : Vec2f ℝ) unitSquare)
      (maxBallRadius Real.sqrt (⟨1 / 2, 1 / 2⟩ : Vec2f ℝ) unitSquare *
        Real.sqrt (random 32767 0 1 0)) = none ∧
    solvePoisson ⟨Real.sqrt, Real.log, Real.cos, Real.sin⟩ 32767 (fun _ => 0)
      ⟨1 / 2, 1 / 2⟩ unitSquare (fun _ => 0) (fun x => x.v0) = none := by
  have hR : ¬ maxBallRadius Real.sqrt (⟨1 / 2, 1 / 2⟩ : Vec2f ℝ) unitSquare < eps := by
    rw [maxBallRadius_unitSquare_center]
    simp only [eps]
    norm_num
  have hr : maxBallRadius Real.sqrt (⟨1 / 2, 1 / 2⟩ : Vec2f ℝ) unitSquare *
      Real.sqrt (random 32767 0 1 0) = 0 := by
    rw [random_zero, Real.sqrt_zero, mul_zero]
  refine ⟨random_zero 32767, hR, hr, ?_, ?_⟩
  · rw [hr]
    simp [G, fdiv]
  · exact solvePoisson_none_of_radius_zero _ 32767 (fun _ => 0) _ _ _ _ hR hr

set_option maxRecDepth 1000000 in
/-- C7 (as stated, refuted). In `float` arithmetic the quotient `R/r` that `G`
passes to `log` is rounded.  For `R = 2^100` and `r = 2^(-100)` (`0 < r ≤ R`)
it overflows to `+inf`, so `G(R, r)` is `+inf` instead of `(1/(2*pi)) * ln(2^200)`.
For `R = 2` and the neighbouring values `r1 = 2 - 2^(-22) < r2 = 2 - 2^(-23)`
the two quotients are the same `float`, so `G(R, r1) = G(R, r2)`: `G` is not
strictly decreasing. -/
theorem G_quotient_rounds :
    (Single.ofInt 0 < Single.scaled 1 (-100) ∧
      ¬ Single.scaled 1 100 < Single.scaled 1 (-100) ∧
      Single.scaled 1 100 / Single.scaled 1 (-100) = Single.inf false ∧
      ∀ log scale : Single → Single,
        Single.G log scale (Single.scaled 1 100) (Single.scaled 1 (-100)) =
          scale (log (Single.inf false))) ∧
    (Single.ofInt 0 < Single.scaled 8388607 (-22) ∧
      Single.scaled 8388607 (-22) < Single.scaled 16777215 (-23) ∧
      ¬ Single.ofInt 2 < Single.scaled 16777215 (-23) ∧
      Single.ofInt 2 / Single.scaled 8388607 (-22) =
        Single.ofInt 2 / Single.scaled 16777215 (-23) ∧
      ∀ log scale : Single → Single,
        Single.G log scale (Single.ofInt 2) (Single.scaled 8388607 (-22)) =
          Single.G log scale (Single.ofInt 2) (Single.scaled 16777215 (-23))) := by
  have h1 : Single.scaled 1 100 / Single.scaled 1 (-100) = Single.inf false := by decide
  have h2 : Single.ofInt 2 / Single.scaled 8388607 (-22) =
      Single.ofInt 2 / Single.scaled 16777215 (-23) := by decide
  refine ⟨⟨by decide, by decide, h1, fun log scale => ?_⟩,
    ⟨by decide, by decide, by decide, h2, fun log scale => ?_⟩⟩
  · simp only [Single.G, h1]
  · simp only [Single.G, h2]

/-- C7 (amended). `M_PI` is the program's `double` constant for pi, less than
`1.3 * 10^(-16)` away from pi.  For `2^(-60) ≤ R ≤ 2^60` and
`2^(-60) ≤ r ≤ 2^60` (so that the quotient `R/r` neither overflows nor
underflows): `G(R, r) = (1/(2*M_PI)) * ln(R/r)`; for fixed `R` it is
non-increasing in `r` on `[2^(-60), R]`, and decreases strictly from `r` to
every `r2 ≥ 2*r`; `G(R, R) = 0`, and `0 ≤ G(R, r) ≤ 14` on `[2^(-60), R]`. -/
theorem G_kernel (R : ℝ) (hR : 1 / 2 ^ 60 ≤ R) (hR2 : R ≤ 2 ^ 60) :
    |(M_PI : ℝ) - Real.pi| < 13 / 10 ^ 17 ∧
    (∀ r, 1 / 2 ^ 60 ≤ r → r ≤ 2 ^ 60 →
      G Real.log R r = some ((1 / (2 * M_PI)) * Real.log (R / r))) ∧
    (∀ r1 r2, 1 / 2 ^ 60 ≤ r1 → r1 ≤ r2 → r2 ≤ R →
      ∃ g1 g2, G Real.log R r1 = some g1 ∧ G Real.log R r2 = some g2 ∧ g2 ≤ g1) ∧
    (∀ r1 r2, 1 / 2 ^ 60 ≤ r1 → 2 * r1 ≤ r2 → r2 ≤ R →
      ∃ g1 g2, G Real.log R r1 = some g1 ∧ G Real.log R r2 = some g2 ∧ g2 < g1) ∧
    G Real.log R R = some 0 ∧
    (∀ r, 1 / 2 ^ 60 ≤ r → r ≤ R → ∃ v, G Real.log R r = some v ∧ 0 ≤ v ∧ v ≤ 14) := by
  have hlo : (0 : ℝ) < 1 / 2 ^ 60 := by positivity
  have hR0 : 0 < R := lt_of_lt_of_le hlo hR
  obtain ⟨hc, hc6⟩ := G_factor_range
  refine ⟨M_PI_near_pi, fun r hr _ => G_eq_of_pos R r hR0 (lt_of_lt_of_le hlo hr), ?_, ?_, ?_, ?_⟩
  · intro r1 r2 h1 h12 _
    have h10 : 0 < r1 := lt_of_lt_of_le hlo h1
    have h20 : 0 < r2 := lt_of_lt_of_le h10 h12
    refine ⟨_, _, G_eq_of_pos R r1 hR0 h10, G_eq_of_pos R r2 hR0 h20, ?_⟩
    apply mul_le_mul_of_nonneg_left _ (le_of_lt hc)
    apply Real.log_le_log (div_pos hR0 h20)
    exact div_le_div_of_nonneg_left (le_of_lt hR0) h10 h12
  · intro r1 r2 h1 h12 _
    have h10 : 0 < r1 := lt_of_lt_of_le hlo h1
    have h20 : 0 < r2 := by linarith
    refine ⟨_, _, G_eq_of_pos R r1 hR0 h10, G_eq_of_pos R r2 hR0 h20, ?_⟩
    apply mul_lt_mul_of_pos_left _ hc
    apply Real.log_lt_log (div_pos hR0 h20)
    exact div_lt_div_of_pos_left hR0 h10 (by linarith)
  · rw [G_eq_of_pos R R hR0 hR0, div_self (ne_of_gt hR0), Real.log_one, mul_zero]
  · intro r hr hrR
    have hr0 : 0 < r := lt_of_lt_of_le hlo hr
    have hq1 : 1 ≤ R / r := by
      rw [le_div_iff₀ hr0]
      linarith
    have hq2 : R / r ≤ 2 ^ 120 := by
      rw [div_le_iff₀ hr0]
      have : (2 : ℝ) ^ 120 * (1 / 2 ^ 60) = 2 ^ 60 := by norm_num
      nlinarith [mul_le_mul_of_nonneg_left hr (by positivity : (0 : ℝ) ≤ 2 ^ 120)]
    have hl0 := Real.log_nonneg hq1
    have hl1 := log_le_of_le_two_pow (R / r) (by linarith) hq2
    refine ⟨_, G_eq_of_pos R r hR0 hr0, mul_nonneg (le_of_lt hc) hl0, ?_⟩
    calc 1 / (2 * M_PI) * Real.log (R / r) ≤ 1 / 6 * 84 :=
          mul_le_mul hc6 hl1 hl0 (by norm_num)
      _ = 14 := by norm_num

/-- The statement of C7 at `R = 2`. -/
theorem G_kernel_witness :
    |(M_PI : ℝ) - Real.pi| < 13 / 10 ^ 17 ∧
    (∀ r, 1 / 2 ^ 60 ≤ r → r ≤ 2 ^ 60 →
      G Real.log 2 r = some ((1 / (2 * M_PI)) * Real.log (2 / r))) ∧
    (∀ r1 r2, 1 / 2 ^ 60 ≤ r1 → r1 ≤ r2 → r2 ≤ 2 →
      ∃ g1 g2, G Real.log 2 r1 = some g1 ∧ G Real.log 2 r2 = some g2 ∧ g2 ≤ g1) ∧
    (∀ r1 r2, 1 / 2 ^ 60 ≤ r1 → 2 * r1 ≤ r2 → r2 ≤ 2 →
      ∃ g1 g2, G Real.log 2 r1 = some g1 ∧ G Real.log 2 r2 = some g2 ∧ g2 < g1) ∧
    G Real.log 2 2 = some 0 ∧
    (∀ r, 1 / 2 ^ 60 ≤ r → r ≤ 2 → ∃ v, G Real.log 2 r = some v ∧ 0 ≤ v ∧ v ≤ 14) :=
  G_kernel 2 (by norm_num) (by norm_num)

set_option maxRecDepth 1000000 in
/-- C8 (as stated, refuted). `G(1, 2)` has `r > R`, and the program returns a
value for it, a negative number; no condition is raised.  In `float`
arithmetic `G(2^(-100), 2^100)` (`r > R`) passes the underflowed quotient 0 to
`log`, whose value `log(0)` is `-inf`, and `G(1, 0)` passes `+inf`. -/
theorem G_out_of_range_returns :
    (∃ v : ℝ, G Real.log 1 2 = some v ∧ v < 0) ∧
    (Single.scaled 1 (-100) < Single.scaled 1 100 ∧
      ∀ log scale : Single → Single,
        Single.G log scale (Single.scaled 1 (-100)) (Single.scaled 1 100) =
          scale (log (Single.ofInt 0))) ∧
    (∀ log scale : Single → Single,
      Single.G log scale (Single.ofInt 1) (Single.ofInt 0) = scale (log (Single.inf false))) := by
  have h1 : Single.scaled 1 (-100) / Single.scaled 1 100 = Single.ofInt 0 := by decide
  have h2 : Single.ofInt 1 / Single.ofInt 0 = Single.inf false := by decide
  refine ⟨⟨(1 / (2 * M_PI)) * Real.log (1 / 2), ?_, ?_⟩, ⟨by decide, fun log scale => ?_⟩,
    fun log scale => ?_⟩
  · simp only [G, fdiv, flog]
    norm_num
  · apply mul_neg_of_pos_of_neg G_factor_range.1
    apply Real.log_neg <;> norm_num
  · simp only [Single.G, h1]
  · simp only [Single.G, h2]

/-- C8 (amended). `G` checks nothing and raises nothing.  For
`2^(-60) ≤ R < r ≤ 2^60` it returns the negative number
`(1/(2*M_PI)) * ln(R/r)`, which is at least `-14`; for `r = 0`, and for
`r < 0 < R`, its value is not a finite number (`log` of an infinity, of a
`NaN`, of a zero or of a negative quotient). -/
theorem G_no_range_check (R : ℝ) :
    (∀ r, 1 / 2 ^ 60 ≤ R → R < r → r ≤ 2 ^ 60 →
      G Real.log R r = some ((1 / (2 * M_PI)) * Real.log (R / r)) ∧
        (1 / (2 * M_PI)) * Real.log (R / r) < 0 ∧
        -14 ≤ (1 / (2 * M_PI)) * Real.log (R / r)) ∧
    G Real.log R 0 = none ∧
    (∀ r, r < 0 → 0 < R → G Real.log R r = none) := by
  obtain ⟨hc, hc6⟩ := G_factor_range
  have hlo : (0 : ℝ) < 1 / 2 ^ 60 := by positivity
  refine ⟨?_, ?_, ?_⟩
  · intro r hR hr hr2
    have hR0 : 0 < R := lt_of_lt_of_le hlo hR
    have hr0 : 0 < r := lt_trans hR0 hr
    have hneg : Real.log (R / r) < 0 := by
      apply Real.log_neg (div_pos hR0 hr0)
      rw [div_lt_one hr0]
      exact hr
    refine ⟨G_eq_of_pos R r hR0 hr0, mul_neg_of_pos_of_neg hc hneg, ?_⟩
    have hinv : Real.log (R / r) = -Real.log (r / R) := by
      rw [← Real.log_inv, inv_div]
    have hq2 : r / R ≤ 2 ^ 120 := by
      rw [div_le_iff₀ hR0]
      have : (2 : ℝ) ^ 120 * (1 / 2 ^ 60) = 2 ^ 60 := by norm_num
      nlinarith [mul_le_mul_of_nonneg_left hR (by positivity : (0 : ℝ) ≤ 2 ^ 120)]
    have hl1 := log_le_of_le_two_pow (r / R) (div_pos hr0 hR0) hq2
    have hl0 : 0 ≤ Real.log (r / R) := by
      apply Real.log_nonneg
      rw [le_div_iff₀ hR0]
      linarith
    rw [hinv]
    have : 1 / (2 * M_PI) * Real.log (r / R) ≤ 1 / 6 * 84 := mul_le_mul hc6 hl1 hl0 (by norm_num)
    linarith
  · simp [G, fdiv]
  · intro r hr hR
    have hq : ¬ 0 < R / r := not_lt.mpr (le_of_lt (div_neg_of_pos_of_neg hR hr))
    simp only [G, fdiv, if_neg (ne_of_lt hr), flog, if_neg hq]

/-- C11 (failing input). With `f = 0` and `g = 7` the estimate should be 7 for
every sequence of draws; when `rand()` returns 0 the first step of the walk
from the centre of the unit square has `r = 0`, the term `(M_PI*R*R)*0*G(R,0)`
is `0*inf`, and the value `solvePoisson` returns is not a finite number, so it
is not 7. -/
theorem maximum_principle_zero_draw :
    solvePoisson ⟨Real.sqrt, Real.log, Real.cos, Real.sin⟩ 32767 (fun _ => 0)
      ⟨1 / 2, 1 / 2⟩ unitSquare (fun _ => 0) (fun _ => 7) = none ∧
    solvePoisson ⟨Real.sqrt, Real.log, Real.cos, Real.sin⟩ 32767 (fun _ => 0)
      ⟨1 / 2, 1 / 2⟩ unitSquare (fun _ => 0) (fun _ => 7) ≠ some 7 := by
  have hR : ¬ maxBallRadius Real.sqrt (⟨1 / 2, 1 / 2⟩ : Vec2f ℝ) unitSquare < eps := by
    rw [maxBallRadius_unitSquare_center]
    simp only [eps]
    norm_num
  have hr : maxBallRadius Real.sqrt (⟨1 / 2, 1 / 2⟩ : Vec2f ℝ) unitSquare *
      Real.sqrt (random 32767 0 1 0) = 0 := by
    rw [random_zero, Real.sqrt_zero, mul_zero]
  have h := solvePoisson_none_of_radius_zero ⟨Real.sqrt, Real.log, Real.cos, Real.sin⟩ 32767
    (fun _ => 0) ⟨1 / 2, 1 / 2⟩ unitSquare (fun _ => 0) (fun _ => 7) hR hr
  refine ⟨h, ?_⟩
  rw [h]
  exact fun h' => Option.noConfusion h'

/-- C15. For every input and every sequence of draws `solvePoisson` (a total
function: both loops are bounded) makes 128 walks of at most 16 steps each;
it calls `g` exactly 128 times, `f` at most 2048 times, `maxBallRadius` at most
2048 times, and `rand()` exactly three times per executed step, that is per
call of `f`.  The function with counters returns the value of
`solvePoisson`. -/
theorem solvePoisson_bounded_cost (m : CMath ℝ) (RAND_MAX : ℕ) (rand : ℕ → ℕ) (x0 : Vec2f ℝ)
    (segs : List (Seg ℝ)) (f g : Vec2f ℝ → ℝ) :
    (solvePoissonCalls m RAND_MAX rand x0 segs f g).1 = solvePoisson m RAND_MAX rand x0 segs f g ∧
    (solvePoissonCalls m RAND_MAX rand x0 segs f g).2.2.boundary = 128 ∧
    (solvePoissonCalls m RAND_MAX rand x0 segs f g).2.2.source ≤ 2048 ∧
    (solvePoissonCalls m RAND_MAX rand x0 segs f g).2.2.radius ≤ 2048 ∧
    (solvePoissonCalls m RAND_MAX rand x0 segs f g).2.1 =
      3 * (solvePoissonCalls m RAND_MAX rand x0 segs f g).2.2.source ∧
    (∀ n, walkLen m RAND_MAX rand segs maxSteps x0 n ≤ 16) := by
  obtain ⟨h1, h2, h3, h4, h5⟩ := walksLoopCalls_start m RAND_MAX rand x0 segs f g numWalks
  have hprod : maxSteps * numWalks = 2048 := rfl
  have hn : numWalks = 128 := rfl
  have hm : maxSteps = 16 := rfl
  refine ⟨?_, ?_, ?_, ?_, ?_, ?_⟩
  · rw [solvePoissonCalls_value, h1]
    simp only [solvePoisson]
  · rw [solvePoissonCalls_calls]
    exact h2.trans hn
  · rw [solvePoissonCalls_calls]
    exact le_trans h3 (le_of_eq hprod)
  · rw [solvePoissonCalls_calls]
    exact le_trans h4 (le_of_eq hprod)
  · rw [solvePoissonCalls_draws, solvePoissonCalls_calls, h1]
    exact h5
  · intro n
    have h := (walkLen_spec m RAND_MAX rand segs maxSteps x0 n).1
    rw [hm] at h
    exact h

/-- C17 (failing input). For the image of width 1 and height 2 with the bytes
`0, 1` and the point `(0, 1)`, so `u = 0`, `v = 1`: the lookups of `f` are the
claim's except the last, the centre, whose row is clamped with `w - 1` instead
of `h - 1` and reads pixel `(0, 0)` instead of `(0, 1)`; the stencil is 1 and
`f` returns -3.  The field `g` reads the pixel the claim names. -/
theorem f_centre_row_clamped_by_width :
    fLookups 1 2 0 1 = [(0, 1), (0, 1), (0, 0), (0, 1), (0, 0)] ∧
    (clamp (0 : ℤ) 0 (1 - 1), clamp (1 : ℤ) 0 (2 - 1)) = (0, 1) ∧
    stencil 1 2 [0, 1] 0 1 = some (1 : ℝ) ∧
    f 1 2 [0, 1] (⟨0, 1⟩ : Vec2f ℝ) = some (-3) ∧
    g 1 2 [0, 1] (⟨0, 1⟩ : Vec2f ℝ) = pixel 1 2 [0, 1] 0 1 := by
  refine ⟨by decide, by decide, ?_, ?_, ?_⟩
  · have h1 : (clamp (0 : ℤ) 0 (1 - 1), clamp (1 : ℤ) 0 (2 - 1)) = (0, 1) := by decide
    have h2 : (clamp ((0 : ℤ) - 1) 0 (1 - 1), clamp ((0 : ℤ) + 1) 0 (1 - 1)) = (0, 0) := by decide
    have h3 : (clamp ((1 : ℤ) - 1) 0 (2 - 1), clamp ((1 : ℤ) + 1) 0 (2 - 1)) = (0, 1) := by decide
    simp only [Prod.mk.injEq] at h1 h2 h3
    simp only [stencil, pixel, h1.1, h1.2, h2.1, h2.2, h3.1, h3.2, image, imageIndex]
    norm_num
  · have hl : fLookups 1 2 0 1 = [(0, 1), (0, 1), (0, 0), (0, 1), (0, 0)] := by decide
    simp only [f, toInt_zero, toInt_one, hl, List.map_cons, List.map_nil, image, imageIndex]
    norm_num
  · rw [g_eq_pixel, toInt_zero, toInt_one]

/-- C18 (failing input). For the image of width 2 and height 1 (a buffer of
2 bytes) and the point `(0, 1)`, so `u = 0`, `v = 1`: the centre lookup of `f`
clamps the row with `w - 1 = 1` instead of `h - 1 = 0`; it reads row 1, at
index `0 + 1*2 = 2`, which is outside the buffer, and `f` has no defined
value. -/
theorem f_centre_lookup_outside :
    (fLookups 2 1 0 1).get? 4 = some (0, 1) ∧
    imageIndex 2 0 1 = 2 ∧
    ¬ imageIndex 2 0 1 < 2 * 1 ∧
    f 2 1 [5, 6] (⟨0, 1⟩ : Vec2f ℝ) = none := by
  refine ⟨by decide, by decide, by decide, ?_⟩
  have hl : fLookups 2 1 0 1 = [(0, 0), (1, 0), (0, 0), (0, 0), (0, 1)] := by decide
  have h2 : Int.toNat 2 = 2 := rfl
  simp only [f, toInt_zero, toInt_one, hl, List.map_cons, List.map_nil, image, imageIndex]
  norm_num [h2]

set_option maxRecDepth 1000000 in
/-- C20 (as stated, refuted). The program instantiates `clamp` at `float`
(`main.cpp` 64, 157), and there `clamp(NaN, 0, 1)` is `NaN`: both comparisons
are false, so `std::max` and `std::min` hand their first argument through.
The result lies in no interval: neither `0 ≤ NaN` nor `NaN ≤ 1` holds. -/
theorem clamp_nan :
    Single.ofInt 0 ≤ Single.ofInt 1 ∧
    clamp Single.nan (Single.ofInt 0) (Single.ofInt 1) = Single.nan ∧
    ¬ Single.ofInt 0 ≤ clamp Single.nan (Single.ofInt 0) (Single.ofInt 1) ∧
    ¬ clamp Single.nan (Single.ofInt 0) (Single.ofInt 1) ≤ Single.ofInt 1 := by
  decide

/-- C20 (amended). `clamp(x, lo, hi)` is `std::min(std::max(x, lo), hi)`.  On
a linearly ordered type (`int`) it is `min(max(x, lo), hi)`, and for `lo ≤ hi`
the result lies in `[lo, hi]`, equals `x` whenever `lo ≤ x ≤ hi`, equals `lo`
when `x < lo` and `hi` when `x > hi`.  At the type `float` the same holds for
all `x`, `lo ≤ hi` that are not `NaN`, while `clamp(NaN, lo, hi)` is `NaN` for
every `lo` and `hi`. -/
theorem clamp_spec :
    (∀ (T : Type) [LinearOrder T] (x lo hi : T),
      clamp x lo hi = min (max x lo) hi ∧
      (lo ≤ hi →
        lo ≤ clamp x lo hi ∧ clamp x lo hi ≤ hi ∧
        (lo ≤ x → x ≤ hi → clamp x lo hi = x) ∧
        (x < lo → clamp x lo hi = lo) ∧
        (hi < x → clamp x lo hi = hi))) ∧
    (∀ x lo hi : Single, x ≠ Single.nan → lo ≠ Single.nan → hi ≠ Single.nan → lo ≤ hi →
      lo ≤ clamp x lo hi ∧ clamp x lo hi ≤ hi ∧
      (lo ≤ x → x ≤ hi → clamp x lo hi = x) ∧
      (x < lo → clamp x lo hi = lo) ∧
      (hi < x → clamp x lo hi = hi)) ∧
    (∀ lo hi : Single, clamp Single.nan lo hi = Single.nan) := by
  refine ⟨?_, ?_, ?_⟩
  · intro T _ x lo hi
    refine ⟨clamp_eq_min_max x lo hi,
      fun h => ⟨(clamp_between x lo hi h).1, (clamp_between x lo hi h).2, ?_, ?_, ?_⟩⟩
    · intro h1 h2
      simp only [clamp_eq_min_max]
      rw [max_eq_left h1, min_eq_left h2]
    · intro h1
      simp only [clamp_eq_min_max]
      rw [max_eq_right (le_of_lt h1), min_eq_left h]
    · intro h1
      simp only [clamp_eq_min_max]
      rw [min_eq_right (le_trans (le_of_lt h1) (le_max_left _ _))]
  · intro x lo hi hx hlo hhi hle
    have hle' : Single.lt hi lo = false := (Single.le_iff_not_lt hlo hhi).mp hle
    have key : ∀ a b : Single, a < b ↔ Single.lt a b = true := fun _ _ => Iff.rfl
    have kle : ∀ a b : Single, a ≤ b ↔ Single.le a b = true := fun _ _ => Iff.rfl
    by_cases h1 : Single.lt x lo = true
    · have hm : stdmax x lo = lo := by
        unfold stdmax
        rw [if_pos ((key _ _).mpr h1)]
      have hc : clamp x lo hi = lo := by
        unfold clamp stdmin
        rw [hm, if_neg (by rw [key, hle']; exact Bool.false_ne_true)]
      rw [hc]
      refine ⟨?_, hle, ?_, fun _ => rfl, ?_⟩
      · rw [kle, Single.le_iff_not_lt hlo hlo]
        exact Single.lt_irrefl lo
      · intro h2 _
        rw [kle, Single.le_iff_not_lt hlo hx, h1] at h2
        exact absurd h2 (by simp)
      · intro h2
        have := Single.lt_trans ((key _ _).mp h2) h1
        rw [hle'] at this
        exact absurd this (by simp)
    · have h1' : Single.lt x lo = false := by simpa using h1
      have hm : stdmax x lo = x := by
        unfold stdmax
        rw [if_neg (by rw [key]; exact h1)]
      by_cases h2 : Single.lt hi x = true
      · have hc : clamp x lo hi = hi := by
          unfold clamp stdmin
          rw [hm, if_pos ((key _ _).mpr h2)]
        rw [hc]
        refine ⟨hle, ?_, ?_, ?_, fun _ => rfl⟩
        · rw [kle, Single.le_iff_not_lt hhi hhi]
          exact Single.lt_irrefl hi
        · intro _ h3
          rw [kle, Single.le_iff_not_lt hx hhi, h2] at h3
          exact absurd h3 (by simp)
        · intro h3
          exact absurd ((key _ _).mp h3) h1
      · have h2' : Single.lt hi x = false := by simpa using h2
        have hc : clamp x lo hi = x := by
          unfold clamp stdmin
          rw [hm, if_neg (by rw [key]; exact h2)]
        rw [hc]
        refine ⟨?_, ?_, fun _ _ => rfl, ?_, ?_⟩
        · rw [kle, Single.le_iff_not_lt hlo hx]
          exact h1'
        · rw [kle, Single.le_iff_not_lt hx hhi]
          exact h2'
        · intro h3
          exact absurd ((key _ _).mp h3) h1
        · intro h3
          exact absurd ((key _ _).mp h3) h2
  · intro lo hi
    have h1 : Single.lt Single.nan lo = false := by cases lo <;> rfl
    have h2 : Single.lt hi Single.nan = false := by cases hi <;> rfl
    have key : ∀ a b : Single, a < b ↔ Single.lt a b = true := fun _ _ => Iff.rfl
    have hm : stdmax Single.nan lo = Single.nan := by
      unfold stdmax
      rw [if_neg (by rw [key, h1]; exact Bool.false_ne_true)]
    unfold clamp stdmin
    rw [hm, if_neg (by rw [key, h2]; exact Bool.false_ne_true)]

/-! ## Further properties -/

/-- X1. With a zero source field, a constant boundary field `c` of magnitude
at most `2^100` and a sequence of draws in which `rand()` never returns 0,
`solvePoisson` returns `c`, for every start point and every segment list; the
sum of the 128 boundary values stays below `2^107` in magnitude. -/
theorem solvePoisson_const (RAND_MAX : ℕ) (rand : ℕ → ℕ) (x0 : Vec2f ℝ) (segs : List (Seg ℝ))
    (c : ℝ) (hM : 0 < RAND_MAX) (hrand : ∀ i, 0 < rand i) (hc : |c| ≤ 2 ^ 100) :
    solvePoisson ⟨Real.sqrt, Real.log, Real.cos, Real.sin⟩ RAND_MAX rand x0 segs (fun _ => 0)
      (fun _ => c) = some c ∧
    |128 * c| ≤ 2 ^ 107 := by
  refine ⟨walkAverage_const _ RAND_MAX rand x0 segs _ _ c
    (fun n => walkValue_const RAND_MAX rand segs c x0 n hM (fun j _ => hrand _)), ?_⟩
  rw [abs_mul, abs_of_pos (by norm_num : (0 : ℝ) < 128)]
  have : (128 : ℝ) * 2 ^ 100 = 2 ^ 107 := by norm_num
  linarith

/-- The statement of X1 for `RAND_MAX = 32767`, every `rand()` returning 1, the
centre of the unit square and `c = 7`. -/
theorem solvePoisson_const_witness :
    solvePoisson ⟨Real.sqrt, Real.log, Real.cos, Real.sin⟩ 32767 (fun _ => 1) ⟨1 / 2, 1 / 2⟩
      unitSquare (fun _ => 0) (fun _ => 7) = some 7 :=
  (solvePoisson_const 32767 (fun _ => 1) ⟨1 / 2, 1 / 2⟩ unitSquare 7 (by norm_num)
    (fun _ => Nat.one_pos) (by norm_num [abs_le])).1

/-- X2. When the row `v` is clamped alike by `w-1` and by `h-1` (a square
image, or `0 ≤ v` below both `w` and `h`), `f` is the 5-point stencil with
edge-clamped addressing. -/
theorem f_eq_stencil (w h : ℤ) (imageData : List ℕ) (x : Vec2f ℝ)
    (hv : clamp (toInt x.v1) 0 (w - 1) = clamp (toInt x.v1) 0 (h - 1)) :
    f w h imageData x = stencil w h imageData (toInt x.v0) (toInt x.v1) := by
  simp only [f, fLookups, stencil, pixel, List.map_cons, List.map_nil, hv]
  cases (image w imageData (clamp (toInt x.v0 - 1) 0 (w - 1))
      (clamp (toInt x.v1) 0 (h - 1)) : Option ℝ) <;>
    cases (image w imageData (clamp (toInt x.v0 + 1) 0 (w - 1))
      (clamp (toInt x.v1) 0 (h - 1)) : Option ℝ) <;>
    cases (image w imageData (clamp (toInt x.v0) 0 (w - 1))
      (clamp (toInt x.v1 - 1) 0 (h - 1)) : Option ℝ) <;>
    cases (image w imageData (clamp (toInt x.v0) 0 (w - 1))
      (clamp (toInt x.v1 + 1) 0 (h - 1)) : Option ℝ) <;>
    cases (image w imageData (clamp (toInt x.v0) 0 (w - 1))
      (clamp (toInt x.v1) 0 (h - 1)) : Option ℝ) <;>
    first
    | rfl
    | (simp only [Option.some.injEq]; ring)

/-- The statement of X2 for the 2-by-2 image with the bytes `1, 2, 3, 4` at
the point `(0, 1)`. -/
theorem f_eq_stencil_witness :
    f 2 2 [1, 2, 3, 4] (⟨0, 1⟩ : Vec2f ℝ) =
      stencil 2 2 [1, 2, 3, 4] (toInt (0 : ℝ)) (toInt (1 : ℝ)) :=
  f_eq_stencil 2 2 [1, 2, 3, 4] ⟨0, 1⟩ rfl

/-- X3. For `w ≥ 1`, `h ≥ 1` and any `u`, `v`, the lookup of `g` and the first
four lookups of `f` address a column in `[0, w-1]` and a row in `[0, h-1]`, at
an index inside the buffer of `w*h` bytes. -/
theorem lookups_clamped (w h u v : ℤ) (hw : 1 ≤ w) (hh : 1 ≤ h) :
    ∀ p ∈ gLookup w h u v :: (fLookups w h u v).take 4,
      0 ≤ p.1 ∧ p.1 ≤ w - 1 ∧ 0 ≤ p.2 ∧ p.2 ≤ h - 1 ∧
      0 ≤ imageIndex w p.1 p.2 ∧ imageIndex w p.1 p.2 < w * h := by
  have hw' : (0 : ℤ) ≤ w - 1 := by linarith
  have hh' : (0 : ℤ) ≤ h - 1 := by linarith
  intro p hp
  have hcl : ∀ a b : ℤ, p = (clamp a 0 (w - 1), clamp b 0 (h - 1)) →
      0 ≤ p.1 ∧ p.1 ≤ w - 1 ∧ 0 ≤ p.2 ∧ p.2 ≤ h - 1 ∧
      0 ≤ imageIndex w p.1 p.2 ∧ imageIndex w p.1 p.2 < w * h := by
    intro a b hab
    subst hab
    have ha := clamp_between a 0 (w - 1) hw'
    have hb := clamp_between b 0 (h - 1) hh'
    exact ⟨ha.1, ha.2, hb.1, hb.2, imageIndex_inside w h _ _ ha.1 ha.2 hb.1 hb.2⟩
  simp only [gLookup, fLookups, List.take, List.mem_cons, List.mem_singleton,
    List.not_mem_nil, or_false] at hp
  rcases hp with h0 | h1 | h2 | h3 | h4
  · exact hcl _ _ h0
  · exact hcl _ _ h1
  · exact hcl _ _ h2
  · exact hcl _ _ h3
  · exact hcl _ _ h4

/-- The statement of X3 for the 2-by-1 image and `u = 0`, `v = 1`. -/
theorem lookups_clamped_witness :
    (gLookup 2 1 0 1 :: (fLookups 2 1 0 1).take 4) = [(0, 0), (0, 0), (1, 0), (0, 0), (0, 0)] ∧
    ∀ p ∈ gLookup 2 1 0 1 :: (fLookups 2 1 0 1).take 4,
      0 ≤ p.1 ∧ p.1 ≤ 2 - 1 ∧ 0 ≤ p.2 ∧ p.2 ≤ 1 - 1 ∧
      0 ≤ imageIndex 2 p.1 p.2 ∧ imageIndex 2 p.1 p.2 < 2 * 1 :=
  ⟨by decide, lookups_clamped 2 1 0 1 (by decide) (by decide)⟩

/-- X4. For `RAND_MAX > 0`, a draw `1 ≤ rand() ≤ RAND_MAX` and a radius
`R ≥ eps`, the sampled radius `r = R*sqrt(random(0,1))` satisfies
`0 < r ≤ R`. -/
theorem sampled_radius_in_range (RAND_MAX k : ℕ) (R : ℝ) (hM : 0 < RAND_MAX) (hk0 : 1 ≤ k)
    (hk1 : k ≤ RAND_MAX) (hR : eps ≤ R) :
    0 < R * Real.sqrt (random RAND_MAX 0 1 k) ∧ R * Real.sqrt (random RAND_MAX 0 1 k) ≤ R :=
  ⟨(sampled_radius_range RAND_MAX k R hM (lt_of_lt_of_le eps_pos hR)).1 hk0,
    (sampled_radius_range RAND_MAX k R hM (lt_of_lt_of_le eps_pos hR)).2 hk1⟩

/-- The statement of X4 for `RAND_MAX = 32767`, `rand() = 1` and `R = 1/2`. -/
theorem sampled_radius_in_range_witness :
    0 < (1 / 2 : ℝ) * Real.sqrt (random 32767 0 1 1) ∧
      (1 / 2 : ℝ) * Real.sqrt (random 32767 0 1 1) ≤ 1 / 2 :=
  sampled_radius_in_range 32767 1 (1 / 2) (by norm_num) (by norm_num) (by norm_num)
    (by simp only [eps]; norm_num)

/-- X5. The result of `solvePoisson` is a function of the sequence returned by
`rand()`: in the unit square with `f = 0`, `g(x) = x[0]`, the centre
`(0.5, 0.5)` and `RAND_MAX = 32767`, when every `rand()` returns `RAND_MAX`,
every walk steps to the right wall and stops there, and `solvePoisson` returns
a value above `0.9`. -/
theorem solvePoisson_unitSquare_right_wall :
    ∃ v : ℝ, solvePoisson ⟨Real.sqrt, Real.log, Real.cos, Real.sin⟩ 32767 (fun _ => 32767)
      ⟨1 / 2, 1 / 2⟩ unitSquare (fun _ => 0) (fun x => x.v0) = some v ∧
      9 / 10 < v ∧ v ≤ 1 := by
  refine ⟨1 / 2 + 1 / 2 * Real.cos (2 * M_PI), ?_, ?_, ?_⟩
  · apply walkAverage_const
    intro n
    obtain ⟨hlen, hpos, _⟩ := walk_to_right_wall n
    rw [walkValue_zero_source 32767 (fun _ => 32767) unitSquare (fun x => x.v0) _ n
      (by norm_num) (fun _ _ => by norm_num), hlen, hpos]
  · exact (walk_to_right_wall 0).2.2
  · have := Real.cos_le_one (2 * M_PI)
    linarith

/-- X6. In the unit square with `f = 0`, `g(x) = x[0]` and the centre
`(0.5, 0.5)`, for every sequence of draws in which no radius draw (the first
`rand()` of an executed step) returns 0: every walk's value is the first
coordinate of its final position, which lies in `[0, 1]`, and `solvePoisson`
returns `1/128` times the sum of these 128 values, a number in `[0, 1]`. -/
theorem solvePoisson_unitSquare_linear (RAND_MAX : ℕ) (rand : ℕ → ℕ) (hM : 0 < RAND_MAX)
    (hrand : ∀ n j, j < walkLen ⟨Real.sqrt, Real.log, Real.cos, Real.sin⟩ RAND_MAX rand
      unitSquare maxSteps (⟨1 / 2, 1 / 2⟩ : Vec2f ℝ) n → 0 < rand (n + 3 * j)) :
    (∀ n, ∃ v : ℝ, walkValue ⟨Real.sqrt, Real.log, Real.cos, Real.sin⟩ RAND_MAX rand unitSquare
        (fun _ => 0) (fun x => x.v0) ⟨1 / 2, 1 / 2⟩ n = some v ∧
      v = (walkPos ⟨Real.sqrt, Real.log, Real.cos, Real.sin⟩ RAND_MAX rand unitSquare
        ⟨1 / 2, 1 / 2⟩ n (walkLen ⟨Real.sqrt, Real.log, Real.cos, Real.sin⟩ RAND_MAX rand
          unitSquare maxSteps ⟨1 / 2, 1 / 2⟩ n)).v0 ∧ 0 ≤ v ∧ v ≤ 1) ∧
    ∃ S : ℝ, sumTerms ((List.range 128).map fun i =>
        walkValue ⟨Real.sqrt, Real.log, Real.cos, Real.sin⟩ RAND_MAX rand unitSquare (fun _ => 0)
          (fun x => x.v0) ⟨1 / 2, 1 / 2⟩
          (walkStart ⟨Real.sqrt, Real.log, Real.cos, Real.sin⟩ RAND_MAX rand unitSquare
            ⟨1 / 2, 1 / 2⟩ 0 i)) = some S ∧
      solvePoisson ⟨Real.sqrt, Real.log, Real.cos, Real.sin⟩ RAND_MAX rand
        ⟨1 / 2, 1 / 2⟩ unitSquare (fun _ => 0) (fun x => x.v0) = some (1 / 128 * S) ∧
      0 ≤ 1 / 128 * S ∧ 1 / 128 * S ≤ 1 := by
  have hwalk : ∀ n, ∃ v : ℝ, walkValue ⟨Real.sqrt, Real.log, Real.cos, Real.sin⟩ RAND_MAX rand
      unitSquare (fun _ => 0) (fun x => x.v0) ⟨1 / 2, 1 / 2⟩ n = some v ∧
      v = (walkPos ⟨Real.sqrt, Real.log, Real.cos, Real.sin⟩ RAND_MAX rand unitSquare
        ⟨1 / 2, 1 / 2⟩ n (walkLen ⟨Real.sqrt, Real.log, Real.cos, Real.sin⟩ RAND_MAX rand
          unitSquare maxSteps ⟨1 / 2, 1 / 2⟩ n)).v0 ∧ 0 ≤ v ∧ v ≤ 1 := by
    intro n
    have hin := walkPos_unitSquare RAND_MAX rand ⟨1 / 2, 1 / 2⟩
      (by simp only [inRect]; norm_num) n
      (walkLen ⟨Real.sqrt, Real.log, Real.cos, Real.sin⟩ RAND_MAX rand unitSquare maxSteps
        ⟨1 / 2, 1 / 2⟩ n)
    exact ⟨_, walkValue_zero_source RAND_MAX rand unitSquare (fun x => x.v0) _ n hM (hrand n),
      rfl, hin.1, hin.2.1⟩
  refine ⟨hwalk, ?_⟩
  obtain ⟨S, hS, h0, h1⟩ := sumTerms_bounds ((List.range 128).map fun i =>
    walkValue ⟨Real.sqrt, Real.log, Real.cos, Real.sin⟩ RAND_MAX rand unitSquare (fun _ => 0)
      (fun x => x.v0) ⟨1 / 2, 1 / 2⟩
      (walkStart ⟨Real.sqrt, Real.log, Real.cos, Real.sin⟩ RAND_MAX rand unitSquare
        ⟨1 / 2, 1 / 2⟩ 0 i)) 0 1 (by
      intro t ht
      obtain ⟨i, _, rfl⟩ := List.mem_map.mp ht
      obtain ⟨v, hv, _, hv0, hv1⟩ := hwalk (walkStart ⟨Real.sqrt, Real.log, Real.cos, Real.sin⟩
        RAND_MAX rand unitSquare ⟨1 / 2, 1 / 2⟩ 0 i)
      exact ⟨v, hv, hv0, hv1⟩)
  simp only [List.length_map, List.length_range, Nat.cast_ofNat, mul_zero, mul_one] at h0 h1
  refine ⟨S, hS, ?_, by positivity, by linarith⟩
  rw [solvePoisson_walkAverage, walkAverage, hS]
  rfl

/-- The statement of X6 for `RAND_MAX = 32767` and every `rand()` returning 1. -/
theorem solvePoisson_unitSquare_linear_witness :
    ∃ S : ℝ, sumTerms ((List.range 128).map fun i =>
        walkValue ⟨Real.sqrt, Real.log, Real.cos, Real.sin⟩ 32767 (fun _ => 1) unitSquare
          (fun _ => 0) (fun x => x.v0) ⟨1 / 2, 1 / 2⟩
          (walkStart ⟨Real.sqrt, Real.log, Real.cos, Real.sin⟩ 32767 (fun _ => 1) unitSquare
            ⟨1 / 2, 1 / 2⟩ 0 i)) = some S ∧
      solvePoisson ⟨Real.sqrt, Real.log, Real.cos, Real.sin⟩ 32767 (fun _ => 1)
        ⟨1 / 2, 1 / 2⟩ unitSquare (fun _ => 0) (fun x => x.v0) = some (1 / 128 * S) ∧
      0 ≤ 1 / 128 * S ∧ 1 / 128 * S ≤ 1 :=
  (solvePoisson_unitSquare_linear 32767 (fun _ => 1) (by norm_num)
    (fun _ _ _ => Nat.one_pos)).2

end Toywos
